import Mathlib

/-!
Huffman encoding (`src/src/encoding.cpp`): embedding and verification.

The C++ functions of `encoding.cpp` are translated one by one into Lean
functions.  Conventions of the embedding:

* `int` values (characters, counts) are integers (`Int`).  The sum of two
  counts at line 59 is the 32-bit sum of the program's `int`s (`wrapInt`);
  the statements about sums of counts assume that the counts of the table are
  not negative and that their total fits in an `int`.
* `std::string` is a list of characters (`Str`).
* `istream` input is the list of bytes still to be read; `ostream` output is
  the list of bytes written; bit streams are lists of bits.
* A `HuffmanNode*` is a finite tree (`HuffmanNode.null` is `NULL`); the code
  never shares or cycles nodes.
* Library failures (Stanford `error(...)`) are `Result.fail`; a loop that has
  not finished when its fuel is used up is `Result.div`.
-/

namespace Huffman

/-! ## Results of fallible computations -/

/-- Failures raised by the library collaborators. -/
inductive Error where
  /-- `PriorityQueue::dequeue` called on an empty queue. -/
  | emptyQueue
  /-- `stringToInteger` called on a string that is not a number. -/
  | notANumber
  /-- `obitstream::writeBit` called with a value other than 0 or 1. -/
  | notABit
  deriving DecidableEq, Repr

/-- Outcome of running a piece of the program: a value, a library failure, or
no answer within the fuel given. -/
inductive Result (α : Type) where
  | ok (a : α)
  | fail (e : Error)
  | div
  deriving DecidableEq, Repr

/-! ## Collaborator types and constants (headers that are not under `src/`) -/

/-- A byte of an `istream` or `ostream`. -/
abbrev Byte := Fin 256

/-- A `std::string`. -/
abbrev Str := List Char

/-- Modelled from the spec: the constant `PSEUDO_EOF` of the missing header
`encoding.h`, the end-of-stream sentinel; "one reserved out-of-range sentinel
value for end-of-stream, distinct from any valid byte value and from the
not-a-leaf marker".  The value is the one of the Stanford library. -/
def PSEUDO_EOF : Int := 256

/-- Modelled from the spec: the constant `NOT_A_CHAR` of the missing header
`encoding.h`, the "not a leaf" marker that internal nodes carry, distinct from
every byte and from the sentinel.  The value is the one of the Stanford
library. -/
def NOT_A_CHAR : Int := 257

/-- The struct `HuffmanNode` seen through a `HuffmanNode*`: `null` is `NULL`,
`mk character count zero one` is a pointer to a node with these fields. -/
inductive HuffmanNode where
  | null : HuffmanNode
  | mk (character : Int) (count : Int) (zero one : HuffmanNode) : HuffmanNode
  deriving DecidableEq, Repr

/-- Field `count` of a node (0 for `NULL`, which the code never reads). -/
def HuffmanNode.count : HuffmanNode → Int
  | .null => 0
  | .mk _ c _ _ => c

/-- Modelled from the spec: the type `Map<int, V>` of the missing header
`map.h`, a mapping from symbols to values.  The entries are kept in ascending
key order, which is the order in which the library iterates over a map. -/
abbrev Map (V : Type) := List (Int × V)

/-- Lookup of a key in a map. -/
def Map.find? {V : Type} : Map V → Int → Option V
  | [], _ => none
  | (k, v) :: rest, key => if k = key then some v else Map.find? rest key

/-- Modelled from the spec: `map[key]` on a `const Map` (header `map.h`, not
under `src/`): the value stored for the key, and the default value of the
value type when the key is absent ("starting at 0 if absent"). -/
def Map.get {V : Type} [Inhabited V] (m : Map V) (key : Int) : V :=
  (Map.find? m key).getD default

/-- Modelled from the spec: the assignment `map[key] = value` (header `map.h`,
not under `src/`): replaces the value of a key that is present, adds the key
otherwise, keeping the keys in ascending order. -/
def Map.put {V : Type} : Map V → Int → V → Map V
  | [], key, value => [(key, value)]
  | (k, v) :: rest, key, value =>
    if key < k then (key, value) :: (k, v) :: rest
    else if key = k then (k, value) :: rest
    else (k, v) :: Map.put rest key value

/-- The keys of a map, in iteration order. -/
def Map.keys {V : Type} (m : Map V) : List Int := m.map Prod.fst

/-- Invariant of the library's map type: keys strictly ascending (so no key
occurs twice). -/
def Map.WF {V : Type} (m : Map V) : Prop := (Map.keys m).Pairwise (· < ·)

instance {V : Type} (m : Map V) : Decidable (Map.WF m) := by
  unfold Map.WF; infer_instance

/-- Modelled from the spec: the type `PriorityQueue<V>` of the missing header
`pqueue.h`: "a priority structure ordered by ascending weight (min-first);
ties broken ... by insertion order within equal weights".  The queue is the
list of its (value, priority) entries in the order in which `dequeue` will
return them. -/
abbrev PriorityQueue (V : Type) := List (V × Int)

/-- Modelled from the spec: `queue.enqueue(value, priority)`: the new entry
goes behind every entry whose priority is lower or equal. -/
def PriorityQueue.enqueue {V : Type} : PriorityQueue V → V → Int → PriorityQueue V
  | [], value, priority => [(value, priority)]
  | (v, p) :: rest, value, priority =>
    if p ≤ priority then (v, p) :: PriorityQueue.enqueue rest value priority
    else (value, priority) :: (v, p) :: rest

/-- Modelled from the spec: `queue.dequeue()`: removes and returns the entry
of lowest priority; the library raises an error on an empty queue. -/
def PriorityQueue.dequeue {V : Type} : PriorityQueue V → Result (V × PriorityQueue V)
  | [] => .fail .emptyQueue
  | (v, _) :: rest => .ok (v, rest)

/-- Modelled from the spec: `queue.size()`. -/
def PriorityQueue.size {V : Type} (q : PriorityQueue V) : Nat := q.length

/-- Modelled from the spec: `stringToInteger` of the missing header
`strlib.h`, on the one-character strings that the callers pass: the value of
a decimal digit, and an error for any other string. -/
def stringToInteger (s : Str) : Result Int :=
  match s with
  | [c] => if '0' ≤ c ∧ c ≤ '9' then .ok ((c.toNat : Int) - 48) else .fail .notANumber
  | _ => .fail .notANumber

/-- Modelled from the spec: `integerToString` of the missing header
`strlib.h`, on the values that `readBit` returns ("readBit() → 0|1"). -/
def integerToString (n : Int) : Str :=
  if n = 0 then ['0'] else if n = 1 then ['1'] else (toString n).toList

/-- Modelled from the spec: `output.writeBit(bit)` of the missing header
`bitstream.h` ("writeBit(0|1)"): appends the bit; any other value is an
error. -/
def writeBit (output : List Bool) (bit : Int) : Result (List Bool) :=
  if bit = 0 then .ok (output ++ [false])
  else if bit = 1 then .ok (output ++ [true])
  else .fail .notABit

/-- Modelled from the spec: the value `input.readBit()` returns for a bit of
the stream ("readBit() → 0|1"). -/
def readBit (b : Bool) : Int := if b then 1 else 0

/-- The value `input.get()` returns for a byte of the stream. -/
def getChar (b : Byte) : Int := (b.val : Int)

/-- The byte `output.put(c)` writes: the `int` converted to `char`. -/
def putChar (c : Int) : Byte := ⟨(c % 256).toNat, by omega⟩

/-! ## The functions of `encoding.cpp` -/

/-- Lines 28-36: counts of every byte of the input, plus one for
`PSEUDO_EOF`. -/
def buildFrequencyTable (input : List Byte) : Map Int :=
  let freqTable : Map Int :=
    input.foldl (fun t b => Map.put t (getChar b) (Map.get t (getChar b) + 1)) []
  Map.put freqTable PSEUDO_EOF (Map.get freqTable PSEUDO_EOF + 1)

/-- The value an `int` holds after an addition whose exact result is `x`: the
result wraps around to the range `-2^31 .. 2^31 - 1` of a 32-bit `int`. -/
def wrapInt (x : Int) : Int := (x + 2147483648) % 4294967296 - 2147483648

/-- Modelled from the spec: the value of the field `character` after
`new HuffmanNode`, set by the default constructor of the missing header: a
fresh node is not a leaf ("Internal: holds a weight ... and two children"), so
it carries the not-a-leaf marker. -/
def defaultCharacter : Int := NOT_A_CHAR

/-- Lines 55-61: the node made of the two dequeued nodes.  Line 58
(`node->character;`) assigns nothing, so `character` keeps the value the
constructor gave it. -/
def mergeNodes (zero one : HuffmanNode) : HuffmanNode :=
  .mk defaultCharacter (wrapInt (zero.count + one.count)) zero one

/-- Lines 55-62: one pass through the `else` branch: dequeue two nodes,
enqueue their parent. -/
def mergeStep (queue : PriorityQueue HuffmanNode) : Result (PriorityQueue HuffmanNode) :=
  match PriorityQueue.dequeue queue with
  | .ok (zero, q1) =>
    match PriorityQueue.dequeue q1 with
    | .ok (one, q2) =>
      .ok (PriorityQueue.enqueue q2 (mergeNodes zero one) (mergeNodes zero one).count)
    | .fail e => .fail e
    | .div => .div
  | .fail e => .fail e
  | .div => .div

/-- Lines 51-65: the recursive `buildEncodingTree(PriorityQueue&)`.  The
first argument bounds the depth of the recursion. -/
def buildEncodingTreeRec : Nat → PriorityQueue HuffmanNode → Result HuffmanNode
  | 0, _ => .div
  | fuel + 1, queue =>
    if PriorityQueue.size queue = 1 then
      match PriorityQueue.dequeue queue with
      | .ok (root, _) => .ok root
      | .fail e => .fail e
      | .div => .div
    else
      match mergeStep queue with
      | .ok queue1 => buildEncodingTreeRec fuel queue1
      | .fail e => .fail e
      | .div => .div

/-- Lines 78-86: the queue of leaves, one per entry of the table, enqueued in
the iteration order of the map. -/
def leafQueue (freqTable : Map Int) : PriorityQueue HuffmanNode :=
  (Map.keys freqTable).foldl
    (fun queue ch =>
      PriorityQueue.enqueue queue (.mk ch (Map.get freqTable ch) .null .null)
        (Map.get freqTable ch))
    []

/-- Lines 77-88: `buildEncodingTree(const Map<int,int>&)`.  The recursion
depth is at most the size of the queue, so the fuel given never runs out. -/
def buildEncodingTree (freqTable : Map Int) : Result HuffmanNode :=
  buildEncodingTreeRec (PriorityQueue.size (leafQueue freqTable) + 1) (leafQueue freqTable)

/-- Lines 103-112: the recursive `buildEncodingMap`. -/
def buildEncodingMapRec : HuffmanNode → Map Str → Str → Map Str
  | .null, encodingMap, _ => encodingMap
  | .mk character _ zero one, encodingMap, path =>
    if character ≠ NOT_A_CHAR then Map.put encodingMap character path
    else
      buildEncodingMapRec one (buildEncodingMapRec zero encodingMap (path ++ ['0']))
        (path ++ ['1'])

/-- Lines 123-128: `buildEncodingMap(HuffmanNode*)`. -/
def buildEncodingMap (encodingTree : HuffmanNode) : Map Str :=
  buildEncodingMapRec encodingTree [] []

/-- Lines 149-152: the loop writing one bit per character of `encoding`. -/
def writeDigits : Str → List Bool → Result (List Bool)
  | [], output => .ok output
  | digit :: rest, output =>
    match stringToInteger [digit] with
    | .ok bit =>
      match writeBit output bit with
      | .ok output1 => writeDigits rest output1
      | .fail e => .fail e
      | .div => .div
    | .fail e => .fail e
    | .div => .div

/-- Lines 143-148: the string `encoding`: the codes of the input's bytes, then
the code of `PSEUDO_EOF`. -/
def encodingString (input : List Byte) (encodingMap : Map Str) : Str :=
  input.foldl (fun encoding b => encoding ++ Map.get encodingMap (getChar b)) []
    ++ Map.get encodingMap PSEUDO_EOF

/-- Lines 142-153: `encodeData`; the result is the list of bits written. -/
def encodeData (input : List Byte) (encodingMap : Map Str) : Result (List Bool) :=
  writeDigits (encodingString input encodingMap) []

/-- Lines 168-183: the recursive `decodeData`; returns the output and the
remaining `bitsToDecode`. -/
def decodeDataRec : HuffmanNode → List Byte → Str → Result (List Byte × Str)
  | .null, output, bitsToDecode => .ok (output, bitsToDecode)
  | .mk character _ zero one, output, bitsToDecode =>
    if character = PSEUDO_EOF then .ok (output, [])
    else if character ≠ NOT_A_CHAR then .ok (output ++ [putChar character], bitsToDecode)
    else
      match bitsToDecode with
      | [] => .ok (output, [])
      | digit :: rest =>
        match stringToInteger [digit] with
        | .ok nextBit =>
          if nextBit = 0 then decodeDataRec zero output rest
          else decodeDataRec one output rest
        | .fail e => .fail e
        | .div => .div

/-- Lines 202-204: the loop `while(!bitsToDecode.empty())`; the first argument
bounds the number of iterations. -/
def decodeLoop : Nat → HuffmanNode → List Byte → Str → Result (List Byte)
  | fuel, encodingTree, output, bitsToDecode =>
    if bitsToDecode = [] then .ok output
    else
      match fuel with
      | 0 => .div
      | fuel1 + 1 =>
        match decodeDataRec encodingTree output bitsToDecode with
        | .ok (output1, bits1) => decodeLoop fuel1 encodingTree output1 bits1
        | .fail e => .fail e
        | .div => .div

/-- Lines 198-201: the string of all bits of the input. -/
def readBits (input : List Bool) : Str :=
  input.foldl (fun bitsToDecode b => bitsToDecode ++ integerToString (readBit b)) []

/-- Lines 196-205: `decodeData(ibitstream&, HuffmanNode*, ostream&)`; the
result is the list of bytes written. -/
def decodeData (fuel : Nat) (input : List Bool) (encodingTree : HuffmanNode) :
    Result (List Byte) :=
  decodeLoop fuel encodingTree [] (readBits input)

/-- Lines 225-234: `compress`; the result is the header (the frequency table)
and the bits written after it. -/
def compress (input : List Byte) : Result (Map Int × List Bool) :=
  match buildEncodingTree (buildFrequencyTable input) with
  | .ok node =>
    match encodeData input (buildEncodingMap node) with
    | .ok bits => .ok (buildFrequencyTable input, bits)
    | .fail e => .fail e
    | .div => .div
  | .fail e => .fail e
  | .div => .div

/-- Lines 251-257: `decompress`, on the header read back and the bits that
follow it; the first argument bounds the iterations of the decoding loop. -/
def decompress (fuel : Nat) (freqTable : Map Int) (input : List Bool) : Result (List Byte) :=
  match buildEncodingTree freqTable with
  | .ok node => decodeData fuel input node
  | .fail e => .fail e
  | .div => .div

/-! ## Vocabulary of the statements -/

/-- A string of binary digits. -/
def IsBinary (s : Str) : Prop := ∀ c ∈ s, c = '0' ∨ c = '1'

instance (s : Str) : Decidable (IsBinary s) := by
  unfold IsBinary; infer_instance

/-- The bit a binary digit stands for. -/
def digitBit (c : Char) : Bool := decide (c = '1')

/-- The binary digit of a bit. -/
def bitDigit (b : Bool) : Char := if b then '1' else '0'

/-- `k` passes through the `else` branch of `buildEncodingTree`, one after the
other. -/
def mergeSteps : Nat → PriorityQueue HuffmanNode → Result (PriorityQueue HuffmanNode)
  | 0, queue => .ok queue
  | k + 1, queue =>
    match mergeStep queue with
    | .ok queue1 => mergeSteps k queue1
    | .fail e => .fail e
    | .div => .div

/-- All nodes of a tree (the tree itself and every descendant), parents before
children. -/
def HuffmanNode.subtrees : HuffmanNode → List HuffmanNode
  | .null => []
  | .mk c n zero one => .mk c n zero one :: (subtrees zero ++ subtrees one)

/-- A node without children. -/
def HuffmanNode.isLeaf : HuffmanNode → Bool
  | .mk _ _ .null .null => true
  | _ => false

/-- A node with two children. -/
def HuffmanNode.isInternal : HuffmanNode → Bool
  | .mk _ _ (.mk _ _ _ _) (.mk _ _ _ _) => true
  | _ => false

/-- The (character, count) pairs of the leaves of a tree, left to right. -/
def HuffmanNode.leaves : HuffmanNode → List (Int × Int)
  | .null => []
  | .mk c n zero one =>
    if zero = .null ∧ one = .null then [(c, n)] else leaves zero ++ leaves one

/-- The node reached from `node` by following a string of digits: `'0'` to the
zero-branch, any other digit to the one-branch. -/
def HuffmanNode.descend : HuffmanNode → Str → HuffmanNode
  | node, [] => node
  | .null, _ :: _ => .null
  | .mk _ _ zero one, d :: rest =>
    if d = '0' then descend zero rest else descend one rest

/-- The (character, depth) pairs of the leaves of a tree whose root is at depth
`d`. -/
def HuffmanNode.depths : HuffmanNode → Nat → List (Int × Nat)
  | .null, _ => []
  | .mk c _ zero one, d =>
    if zero = .null ∧ one = .null then [(c, d)] else depths zero (d + 1) ++ depths one (d + 1)

/-- Shape of the nodes the builder makes: a node is either a leaf (no
children) or carries the marker `NOT_A_CHAR`, the 32-bit sum of its children's
counts, and two children of the same shape. -/
def HuffmanNode.Built : HuffmanNode → Prop
  | .null => False
  | .mk c n zero one =>
    (zero = .null ∧ one = .null) ∨
      (c = NOT_A_CHAR ∧ n = wrapInt (zero.count + one.count) ∧ Built zero ∧ Built one)

/-- A tree in which no sum of counts has wrapped: every node with a child
holds exactly the sum of its children's counts. -/
def HuffmanNode.Exact : HuffmanNode → Prop
  | .null => True
  | .mk _ n zero one =>
    (zero = .null ∧ one = .null) ∨ (n = zero.count + one.count ∧ Exact zero ∧ Exact one)

/-- A frequency table whose counts are not negative and whose total fits in an
`int`: no addition of counts made from it overflows. -/
def Map.Bounded (freqTable : Map Int) : Prop :=
  (∀ e ∈ freqTable, 0 ≤ e.2) ∧ (freqTable.map Prod.snd).sum ≤ 2147483647

instance (freqTable : Map Int) : Decidable (Map.Bounded freqTable) := by
  unfold Map.Bounded; infer_instance

/-- The invariant of the queue during the merge loop for the table `t`: every
node has the builder's shape and is queued under its count, and the leaves of
all queued trees together are the entries of the table. -/
def QueueInv (t : Map Int) (q : PriorityQueue HuffmanNode) : Prop :=
  (∀ e ∈ q, e.1.Built ∧ e.2 = e.1.count) ∧
    List.Perm (q.flatMap (fun e => e.1.leaves)) t

/-- The (character, path) pairs `buildEncodingMap` records below a node, in the
order in which it records them; paths are relative to the node. -/
def HuffmanNode.codeList : HuffmanNode → List (Int × Str)
  | .null => []
  | .mk c _ zero one =>
    if c ≠ NOT_A_CHAR then [(c, [])]
    else
      (codeList zero).map (fun e => (e.1, '0' :: e.2))
        ++ (codeList one).map (fun e => (e.1, '1' :: e.2))

/-- A binary tree in which every node is a leaf or has two children. -/
def HuffmanNode.Full : HuffmanNode → Prop
  | .null => False
  | .mk _ _ zero one => (zero = .null ∧ one = .null) ∨ (Full zero ∧ Full one)

/-- Weighted path length of a tree whose root is at depth `d`, weighted by the
counts stored in its leaves. -/
def HuffmanNode.pathLength : HuffmanNode → Nat → Int
  | .null, _ => 0
  | .mk _ n zero one, d =>
    if zero = .null ∧ one = .null then n * (d : Int)
    else pathLength zero (d + 1) + pathLength one (d + 1)

/-- Weighted path length of a tree for a frequency table: the sum over the
leaves of (the table's count of the leaf's symbol) times (the depth of the
leaf). -/
def weightedPathLength (freqTable : Map Int) (tree : HuffmanNode) : Int :=
  ((tree.depths 0).map (fun e => Map.get freqTable e.1 * (e.2 : Int))).sum

/-- The sum over the symbols of a frequency table of (count of the symbol)
times (length of the symbol's code in the encoding map). -/
def encodedLength (freqTable : Map Int) (encodingMap : Map Str) : Int :=
  (freqTable.map (fun e => e.2 * ((Map.get encodingMap e.1).length : Int))).sum

/-- Insertion of a weight into an ascending list of weights, behind the equal
ones: what `enqueue` does to the priorities of a queue. -/
def insertW (w : Int) : List Int → List Int
  | [] => [w]
  | p :: rest => if p ≤ w then p :: insertW w rest else w :: p :: rest

/-- The merge loop run on weights alone: the sum of the weights of the nodes
it creates (the first argument bounds the number of merges). -/
def hcostAux : Nat → List Int → Int
  | fuel + 1, a :: b :: rest => (a + b) + hcostAux fuel (insertW (a + b) rest)
  | _, _ => 0

/-- The sum of the weights of all nodes the merge loop creates from an
ascending list of weights. -/
def hcost (weights : List Int) : Int := hcostAux weights.length weights

/-- Kraft's sum of a collection of depths, scaled by `2 ^ D`. -/
def kraftSum (D : Nat) (ds : Multiset Nat) : Nat := (ds.map (fun d => 2 ^ (D - d))).sum

/-- Kraft's equality for depths bounded by `D`: the depths of the leaves of a
full binary tree satisfy it. -/
def Kraft (D : Nat) (ds : Multiset Nat) : Prop := (∀ d ∈ ds, d ≤ D) ∧ kraftSum D ds = 2 ^ D

/-- Cost of an assignment of weights to depths. -/
def mcost (s : Multiset (Nat × Int)) : Int := (s.map (fun e => (e.1 : Int) * e.2)).sum

/-- The quantity the merge loop keeps constant: the path lengths of the queued
trees plus the cost of merging their weights. -/
def queuePotential (q : PriorityQueue HuffmanNode) : Int :=
  (q.map (fun e => e.1.pathLength 0)).sum + hcost (q.map Prod.snd)

/-- The assignment of weights to depths that a tree gives for a frequency
table: one (depth, table count of the symbol) pair per leaf. -/
def depthAssignment (freqTable : Map Int) (tree : HuffmanNode) : Multiset (Nat × Int) :=
  (((tree.depths 0).map (fun e => (e.2, Map.get freqTable e.1)) : List (Nat × Int)) :
    Multiset (Nat × Int))

/-- The tree made from `tree` by removing every node that has exactly one
child (its child takes its place). -/
def HuffmanNode.contract : HuffmanNode → HuffmanNode
  | .null => .null
  | .mk c n zero one =>
    if zero = .null then (if one = .null then .mk c n .null .null else contract one)
    else if one = .null then contract zero
    else .mk c n (contract zero) (contract one)

/-- The encoding trees of the data model, as they are stored in `HuffmanNode`s:
a leaf has no children and holds a symbol (any character but the marker
`NOT_A_CHAR`); an internal node holds the marker and has two children that are
such trees. -/
def HuffmanNode.Coded : HuffmanNode → Prop
  | .null => False
  | .mk c _ zero one =>
    (c ≠ NOT_A_CHAR ∧ zero = .null ∧ one = .null) ∨ (c = NOT_A_CHAR ∧ Coded zero ∧ Coded one)

/-- Following the spec's words (§4.5, "Decoder"), not the source: the
single-pass streaming state machine.  The state is the current node `current`,
which starts at `root`.  At the end-of-stream leaf the machine stops; at a
regular leaf it emits the symbol and resets the current node to the root; at an
internal node it consumes one bit and descends, 0 to the zero-branch and 1 to
the one-branch, and stops when the bits have run out.  The first argument
bounds the number of steps. -/
def streamDecode : Nat → HuffmanNode → HuffmanNode → List Bool → List Byte → Result (List Byte)
  | 0, _, _, _, _ => .div
  | _ + 1, _, .null, _, output => .ok output
  | fuel + 1, root, .mk c _ zero one, bits, output =>
    if zero = .null ∧ one = .null then
      if c = PSEUDO_EOF then .ok output
      else streamDecode fuel root root bits (output ++ [putChar c])
    else
      match bits with
      | [] => .ok output
      | bit :: rest => streamDecode fuel root (if bit then one else zero) rest output

/-- The sum over the entries of a frequency table of (count) times (a value
attached to the symbol). -/
def Map.weightedSum (freqTable : Map Int) (f : Int → Int) : Int :=
  (freqTable.map (fun e => e.2 * f e.1)).sum

/-! ## Maps -/

theorem Map.find?_put {V : Type} (m : Map V) (key : Int) (value : V) (k : Int) :
    Map.find? (Map.put m key value) k = if key = k then some value else Map.find? m k := by
  induction m with
  | nil => simp [Map.put, Map.find?]
  | cons e rest ih =>
    obtain ⟨k0, v0⟩ := e
    simp only [Map.put]
    split_ifs with h1 h2 h3 <;> simp_all [Map.find?]
    · intro h; omega

theorem Map.mem_keys_put {V : Type} (m : Map V) (key : Int) (value : V) (k : Int) :
    k ∈ Map.keys (Map.put m key value) ↔ k = key ∨ k ∈ Map.keys m := by
  induction m with
  | nil => simp [Map.put, Map.keys]
  | cons e rest ih =>
    obtain ⟨k0, v0⟩ := e
    simp only [Map.keys] at ih ⊢
    simp only [Map.put]
    split_ifs with h1 h2
    · simp
    · subst h2; simp
    · simp only [List.map_cons, List.mem_cons, ih]; tauto

theorem Map.WF_put {V : Type} (m : Map V) (key : Int) (value : V) (h : Map.WF m) :
    Map.WF (Map.put m key value) := by
  induction m with
  | nil => simp [Map.put, Map.WF, Map.keys]
  | cons e rest ih =>
    obtain ⟨k0, v0⟩ := e
    have hk : ∀ k ∈ Map.keys rest, k0 < k := by
      have := h; simp only [Map.WF, Map.keys, List.map_cons, List.pairwise_cons] at this
      exact this.1
    have hr : Map.WF rest := by
      have := h; simp only [Map.WF, Map.keys, List.map_cons, List.pairwise_cons] at this
      exact this.2
    simp only [Map.put]
    split_ifs with h1 h2
    · simp only [Map.WF, Map.keys, List.map_cons, List.pairwise_cons]
      refine ⟨?_, ?_, hr⟩
      · intro k hk'
        rcases List.mem_cons.1 hk' with rfl | hk'
        · exact h1
        · exact lt_trans h1 (hk k hk')
      · exact hk
    · simpa [Map.WF, Map.keys] using h
    · have h3 : k0 < key := by omega
      have ih' := ih hr
      simp only [Map.WF, Map.keys, List.map_cons, List.pairwise_cons] at ih' ⊢
      refine ⟨?_, ih'⟩
      intro k hk'
      rcases (Map.mem_keys_put rest key value k).1 hk' with rfl | hk'
      · exact h3
      · exact hk k hk'

theorem Map.find?_isSome_iff {V : Type} (m : Map V) (k : Int) :
    (Map.find? m k).isSome ↔ k ∈ Map.keys m := by
  induction m with
  | nil => simp [Map.find?, Map.keys]
  | cons e rest ih =>
    obtain ⟨k0, v0⟩ := e
    simp only [Map.keys] at ih ⊢
    simp only [Map.find?]
    split_ifs with h
    · simp [h]
    · simp only [ih, List.map_cons, List.mem_cons]
      constructor
      · intro h'; exact Or.inr h'
      · rintro (h' | h')
        · exact absurd h'.symm h
        · exact h'

theorem Map.find?_eq_none_iff {V : Type} (m : Map V) (k : Int) :
    Map.find? m k = none ↔ k ∉ Map.keys m := by
  rw [← Map.find?_isSome_iff]; cases Map.find? m k <;> simp

theorem Map.mem_of_find? {V : Type} (m : Map V) (k : Int) (v : V)
    (h : Map.find? m k = some v) : (k, v) ∈ m := by
  induction m with
  | nil => simp [Map.find?] at h
  | cons e rest ih =>
    obtain ⟨k0, v0⟩ := e
    simp only [Map.find?] at h
    split_ifs at h with h1
    · simp only [Option.some.injEq] at h; subst h1; subst h; simp
    · exact List.mem_cons_of_mem _ (ih h)

theorem Map.find?_of_mem {V : Type} (m : Map V) (k : Int) (v : V) (hwf : Map.WF m)
    (h : (k, v) ∈ m) : Map.find? m k = some v := by
  induction m with
  | nil => simp at h
  | cons e rest ih =>
    obtain ⟨k0, v0⟩ := e
    simp only [Map.WF, Map.keys, List.map_cons, List.pairwise_cons] at hwf
    simp only [Map.find?]
    rcases List.mem_cons.1 h with h | h
    · simp only [Prod.mk.injEq] at h; simp [h.1, h.2]
    · have hk : k ∈ Map.keys rest := by
        simp only [Map.keys, List.mem_map]; exact ⟨(k, v), h, rfl⟩
      have := hwf.1 k hk
      rw [if_neg (by omega)]
      exact ih hwf.2 h

theorem Map.get_of_find? {V : Type} [Inhabited V] (m : Map V) (k : Int) (v : V)
    (h : Map.find? m k = some v) : Map.get m k = v := by
  simp [Map.get, h]

/-! ## The frequency table -/

/-- The loop of `buildFrequencyTable`, started from any table. -/
theorem find?_countLoop (S : List Byte) (t : Map Int) (k : Int) :
    Map.find?
      (S.foldl (fun t b => Map.put t (getChar b) (Map.get t (getChar b) + 1)) t) k
      = if (S.map getChar).count k = 0 then Map.find? t k
        else some ((Map.find? t k).getD 0 + ((S.map getChar).count k : Int)) := by
  induction S generalizing t with
  | nil => simp
  | cons b rest ih =>
    simp only [List.foldl_cons, List.map_cons]
    rw [ih, Map.find?_put]
    by_cases hb : getChar b = k
    · subst hb
      have hd : (default : Int) = 0 := rfl
      rw [if_pos rfl, List.count_cons_self, if_neg (Nat.succ_ne_zero _)]
      simp only [Map.get, Option.getD_some, hd]
      split_ifs with h1
      · simp [h1]
      · simp only [Option.some.injEq]; push_cast; ring
    · rw [if_neg hb, List.count_cons_of_ne (Ne.symm hb)]

theorem WF_countLoop (S : List Byte) (t : Map Int) (h : Map.WF t) :
    Map.WF (S.foldl (fun t b => Map.put t (getChar b) (Map.get t (getChar b) + 1)) t) := by
  induction S generalizing t with
  | nil => simpa using h
  | cons b rest ih => exact ih _ (Map.WF_put _ _ _ h)

theorem getChar_ne_PSEUDO_EOF (b : Byte) : getChar b ≠ PSEUDO_EOF := by
  have := b.isLt
  simp only [getChar, PSEUDO_EOF]; omega

theorem getChar_ne_NOT_A_CHAR (b : Byte) : getChar b ≠ NOT_A_CHAR := by
  have := b.isLt
  simp only [getChar, NOT_A_CHAR]; omega

theorem getChar_injective : Function.Injective getChar := by
  intro a b h
  simp only [getChar] at h
  exact Fin.ext (by exact_mod_cast h)

theorem count_map_getChar (S : List Byte) (b : Byte) :
    (S.map getChar).count (getChar b) = S.count b :=
  List.count_map_of_injective S getChar getChar_injective b

theorem count_PSEUDO_EOF (S : List Byte) : (S.map getChar).count PSEUDO_EOF = 0 := by
  rw [List.count_eq_zero]
  intro h
  obtain ⟨b, _, hb⟩ := List.mem_map.1 h
  exact getChar_ne_PSEUDO_EOF b hb

/-- Complete description of the table: the entry of every key. -/
theorem find?_buildFrequencyTable (S : List Byte) (k : Int) :
    Map.find? (buildFrequencyTable S) k
      = if k = PSEUDO_EOF then some 1
        else if (S.map getChar).count k = 0 then none
        else some ((S.map getChar).count k : Int) := by
  simp only [buildFrequencyTable]
  rw [Map.find?_put]
  by_cases hk : k = PSEUDO_EOF
  · subst hk
    rw [if_pos rfl, if_pos rfl]
    have h := find?_countLoop S [] PSEUDO_EOF
    rw [count_PSEUDO_EOF, if_pos rfl] at h
    rw [Map.get, h]
    rfl
  · rw [if_neg (Ne.symm hk), if_neg hk, find?_countLoop]
    simp [Map.find?]

theorem WF_buildFrequencyTable (S : List Byte) : Map.WF (buildFrequencyTable S) := by
  simp only [buildFrequencyTable]
  exact Map.WF_put _ _ _ (WF_countLoop S [] (by simp [Map.WF, Map.keys]))

theorem mem_keys_buildFrequencyTable (S : List Byte) (k : Int) :
    k ∈ Map.keys (buildFrequencyTable S) ↔ k = PSEUDO_EOF ∨ ∃ b ∈ S, getChar b = k := by
  rw [← Map.find?_isSome_iff, find?_buildFrequencyTable]
  by_cases hk : k = PSEUDO_EOF
  · simp [hk]
  · rw [if_neg hk]
    by_cases hc : (S.map getChar).count k = 0
    · rw [if_pos hc]
      simp only [Option.isSome_none, Bool.false_eq_true, false_iff, hk, false_or]
      rw [List.count_eq_zero] at hc
      rintro ⟨b, hb, rfl⟩
      exact hc (List.mem_map.2 ⟨b, hb, rfl⟩)
    · rw [if_neg hc]
      simp only [Option.isSome_some, true_iff, hk, false_or]
      have : k ∈ S.map getChar := by
        by_contra h; exact hc (List.count_eq_zero.2 h)
      obtain ⟨b, hb, rfl⟩ := List.mem_map.1 this
      exact ⟨b, hb, rfl⟩

/-- C4: the keys of `buildFrequencyTable S` are exactly the bytes occurring in
`S` plus `PSEUDO_EOF`, in strictly ascending order (no key twice); every byte
of `S` is mapped to its number of occurrences in `S`, the sentinel to 1, and
the table of the empty input is exactly `{PSEUDO_EOF: 1}`. -/
theorem C4_buildFrequencyTable_counts (S : List Byte) :
    Map.WF (buildFrequencyTable S) ∧
    (∀ k : Int, k ∈ Map.keys (buildFrequencyTable S) ↔
      k = PSEUDO_EOF ∨ ∃ b ∈ S, getChar b = k) ∧
    (∀ b ∈ S, Map.find? (buildFrequencyTable S) (getChar b) = some (S.count b : Int)) ∧
    Map.find? (buildFrequencyTable S) PSEUDO_EOF = some 1 ∧
    buildFrequencyTable [] = [(PSEUDO_EOF, 1)] := by
  refine ⟨WF_buildFrequencyTable S, mem_keys_buildFrequencyTable S, ?_, ?_, rfl⟩
  · intro b hb
    rw [find?_buildFrequencyTable, if_neg (getChar_ne_PSEUDO_EOF b), count_map_getChar]
    have : S.count b ≠ 0 := by
      rw [Ne, List.count_eq_zero]; exact fun h => h hb
    rw [if_neg this]
  · rw [find?_buildFrequencyTable, if_pos rfl]

theorem stringToInteger_zero : stringToInteger ['0'] = .ok 0 := by decide

theorem stringToInteger_one : stringToInteger ['1'] = .ok 1 := by decide

theorem writeDigits_binary (s : Str) (output : List Bool) (h : IsBinary s) :
    writeDigits s output = .ok (output ++ s.map digitBit) := by
  induction s generalizing output with
  | nil => simp [writeDigits]
  | cons c rest ih =>
    have hr : IsBinary rest := fun d hd => h d (List.mem_cons_of_mem _ hd)
    rcases h c (List.mem_cons_self _ _) with rfl | rfl
    · simp only [writeDigits, stringToInteger_zero, writeBit, if_true]
      rw [ih _ hr]
      simp [digitBit]
    · have h1 : writeBit output 1 = .ok (output ++ [true]) := by
        simp [writeBit]
      simp only [writeDigits, stringToInteger_one, h1]
      rw [ih _ hr]
      simp [digitBit]

theorem foldl_append_eq {α : Type} (f : α → Str) (S : List α) (init : Str) :
    S.foldl (fun encoding b => encoding ++ f b) init = init ++ S.flatMap f := by
  induction S generalizing init with
  | nil => simp
  | cons b rest ih => simp [ih]

theorem encodingString_eq (input : List Byte) (encodingMap : Map Str) :
    encodingString input encodingMap
      = input.flatMap (fun b => Map.get encodingMap (getChar b))
        ++ Map.get encodingMap PSEUDO_EOF := by
  simp [encodingString, foldl_append_eq]

/-- What `encodeData` writes when every byte of the input and the sentinel have
a code of binary digits in the map. -/
theorem encodeData_codes (input : List Byte) (encodingMap : Map Str)
    (code : Int → Str)
    (hin : ∀ b ∈ input, Map.find? encodingMap (getChar b) = some (code (getChar b)))
    (heof : Map.find? encodingMap PSEUDO_EOF = some (code PSEUDO_EOF))
    (hbin : ∀ b ∈ input, IsBinary (code (getChar b))) (hbineof : IsBinary (code PSEUDO_EOF)) :
    encodeData input encodingMap
      = .ok ((input.flatMap (fun b => code (getChar b)) ++ code PSEUDO_EOF).map digitBit) := by
  have h1 : input.flatMap (fun b => Map.get encodingMap (getChar b))
      = input.flatMap (fun b => code (getChar b)) := by
    apply List.flatMap_congr
    intro b hb
    exact Map.get_of_find? _ _ _ (hin b hb)
  have h2 : Map.get encodingMap PSEUDO_EOF = code PSEUDO_EOF := Map.get_of_find? _ _ _ heof
  have hb : IsBinary (input.flatMap (fun b => code (getChar b)) ++ code PSEUDO_EOF) := by
    intro c hc
    rcases List.mem_append.1 hc with hc | hc
    · obtain ⟨b, hb, hcb⟩ := List.mem_flatMap.1 hc
      exact hbin b hb c hcb
    · exact hbineof c hc
  rw [encodeData, encodingString_eq, h1, h2, writeDigits_binary _ _ hb]
  simp

/-- C5: when the code table holds a code of binary digits for every byte of the
input and for the sentinel, `encodeData` succeeds and the bits it writes are
the code of each input byte in input order, then the code of `PSEUDO_EOF`,
digit by digit, `'0'` as bit 0 and `'1'` as bit 1. -/
theorem C5_encodeData_writes_codes (input : List Byte) (encodingMap : Map Str)
    (code : Int → Str)
    (hin : ∀ b ∈ input, Map.find? encodingMap (getChar b) = some (code (getChar b)))
    (heof : Map.find? encodingMap PSEUDO_EOF = some (code PSEUDO_EOF))
    (hbin : ∀ b ∈ input, IsBinary (code (getChar b))) (hbineof : IsBinary (code PSEUDO_EOF)) :
    encodeData input encodingMap
      = .ok ((input.flatMap (fun b => code (getChar b)) ++ code PSEUDO_EOF).map digitBit) :=
  encodeData_codes input encodingMap code hin heof hbin hbineof

set_option maxRecDepth 8000 in
theorem C5_encodeData_writes_codes_witness :
    encodeData [97, 98] [(97, ['1']), (98, ['0', '0']), (256, ['0', '1'])]
      = .ok [true, false, false, false, true] :=
  C5_encodeData_writes_codes [97, 98] [(97, ['1']), (98, ['0', '0']), (256, ['0', '1'])]
    (fun k => if k = 97 then ['1'] else if k = 98 then ['0', '0'] else ['0', '1'])
    (by decide) (by decide) (by decide) (by decide)

/-! ## The priority queue -/

theorem PriorityQueue.enqueue_perm {V : Type} (q : PriorityQueue V) (v : V) (p : Int) :
    List.Perm (PriorityQueue.enqueue q v p) ((v, p) :: q) := by
  induction q with
  | nil => simp [PriorityQueue.enqueue]
  | cons e rest ih =>
    obtain ⟨v0, p0⟩ := e
    simp only [PriorityQueue.enqueue]
    split_ifs with h
    · exact (List.Perm.cons _ ih).trans (List.Perm.swap _ _ _)
    · exact List.Perm.refl _

theorem PriorityQueue.mem_enqueue {V : Type} (q : PriorityQueue V) (v : V) (p : Int)
    (e : V × Int) : e ∈ PriorityQueue.enqueue q v p ↔ e = (v, p) ∨ e ∈ q := by
  rw [(PriorityQueue.enqueue_perm q v p).mem_iff, List.mem_cons]

theorem PriorityQueue.size_enqueue {V : Type} (q : PriorityQueue V) (v : V) (p : Int) :
    PriorityQueue.size (PriorityQueue.enqueue q v p) = PriorityQueue.size q + 1 := by
  simp only [PriorityQueue.size]
  rw [(PriorityQueue.enqueue_perm q v p).length_eq, List.length_cons]

/-! ## The merge loop -/

theorem mergeStep_cons_cons (x y : HuffmanNode) (px py : Int)
    (rest : PriorityQueue HuffmanNode) :
    mergeStep ((x, px) :: (y, py) :: rest)
      = .ok (PriorityQueue.enqueue rest (mergeNodes x y) (mergeNodes x y).count) := by
  simp [mergeStep, PriorityQueue.dequeue, mergeNodes, HuffmanNode.count]

theorem mergeStep_ok_iff (q q1 : PriorityQueue HuffmanNode) :
    mergeStep q = .ok q1 ↔
      ∃ x px y py rest, q = (x, px) :: (y, py) :: rest ∧
        q1 = PriorityQueue.enqueue rest (mergeNodes x y) (mergeNodes x y).count := by
  constructor
  · intro h
    match q, h with
    | [], h => simp [mergeStep, PriorityQueue.dequeue] at h
    | [_], h => simp [mergeStep, PriorityQueue.dequeue] at h
    | (x, px) :: (y, py) :: rest, h =>
      rw [mergeStep_cons_cons] at h
      simp only [Result.ok.injEq] at h
      exact ⟨x, px, y, py, rest, rfl, h.symm⟩
  · rintro ⟨x, px, y, py, rest, rfl, rfl⟩
    exact mergeStep_cons_cons _ _ _ _ _

theorem mergeStep_size (q : PriorityQueue HuffmanNode) (h : 2 ≤ PriorityQueue.size q) :
    ∃ q1, mergeStep q = .ok q1 ∧ PriorityQueue.size q1 + 1 = PriorityQueue.size q := by
  match q, h with
  | (x, px) :: (y, py) :: rest, _ =>
    refine ⟨_, mergeStep_cons_cons _ _ _ _ _, ?_⟩
    rw [PriorityQueue.size_enqueue]
    simp [PriorityQueue.size]

theorem mergeSteps_size (k : Nat) (q : PriorityQueue HuffmanNode)
    (h : k + 1 ≤ PriorityQueue.size q) :
    ∃ qk, mergeSteps k q = .ok qk ∧ PriorityQueue.size qk + k = PriorityQueue.size q := by
  induction k generalizing q with
  | zero => exact ⟨q, rfl, rfl⟩
  | succ k ih =>
    obtain ⟨q1, h1, hs⟩ := mergeStep_size q (by omega)
    obtain ⟨qk, h2, hs2⟩ := ih q1 (by omega)
    refine ⟨qk, ?_, by omega⟩
    simp only [mergeSteps, h1, h2]

/-- A property of queues that every merge step preserves holds after any number
of merge steps. -/
theorem mergeSteps_invariant (P : PriorityQueue HuffmanNode → Prop)
    (hstep : ∀ q q1, P q → mergeStep q = .ok q1 → P q1)
    (k : Nat) (q qk : PriorityQueue HuffmanNode) (h0 : P q) (hk : mergeSteps k q = .ok qk) :
    P qk := by
  induction k generalizing q with
  | zero =>
    simp only [mergeSteps, Result.ok.injEq] at hk
    exact hk ▸ h0
  | succ k ih =>
    simp only [mergeSteps] at hk
    cases h1 : mergeStep q with
    | ok q1 => rw [h1] at hk; exact ih q1 (hstep q q1 h0 h1) hk
    | fail e => rw [h1] at hk; simp at hk
    | div => rw [h1] at hk; simp at hk

/-- The recursion of `buildEncodingTree` on a queue of `n ≥ 1` nodes returns the
node that is left after `n - 1` merge steps; fuel `n` is enough. -/
theorem buildEncodingTreeRec_eq (fuel : Nat) (q : PriorityQueue HuffmanNode)
    (h1 : 1 ≤ PriorityQueue.size q) (hf : PriorityQueue.size q ≤ fuel) :
    ∃ root p, mergeSteps (PriorityQueue.size q - 1) q = .ok [(root, p)] ∧
      buildEncodingTreeRec fuel q = .ok root := by
  induction fuel generalizing q with
  | zero => omega
  | succ fuel ih =>
    by_cases hs : PriorityQueue.size q = 1
    · match q, hs with
      | [(root, p)], _ =>
        exact ⟨root, p, rfl, by simp [buildEncodingTreeRec, PriorityQueue.size, PriorityQueue.dequeue]⟩
    · obtain ⟨q1, hq1, hs1⟩ := mergeStep_size q (by omega)
      obtain ⟨root, p, hm, hb⟩ := ih q1 (by omega) (by omega)
      refine ⟨root, p, ?_, ?_⟩
      · have : PriorityQueue.size q - 1 = (PriorityQueue.size q1 - 1) + 1 := by omega
        rw [this]
        simp only [mergeSteps, hq1, hm]
      · simp only [buildEncodingTreeRec, hs, if_false, hq1, hb]

/-! ## The queue of leaves -/

theorem leafQueue_perm_aux (f : Int → HuffmanNode × Int) (keys : List Int)
    (q : PriorityQueue HuffmanNode) :
    List.Perm
      (keys.foldl (fun queue ch => PriorityQueue.enqueue queue (f ch).1 (f ch).2) q)
      (q ++ keys.map f) := by
  induction keys generalizing q with
  | nil => simp
  | cons k rest ih =>
    simp only [List.foldl_cons, List.map_cons]
    refine (ih _).trans ?_
    refine ((PriorityQueue.enqueue_perm q _ _).append_right _).trans ?_
    simp only [Prod.mk.eta, List.cons_append]
    exact List.perm_middle.symm

theorem leafQueue_perm (t : Map Int) :
    List.Perm (leafQueue t)
      ((Map.keys t).map
        (fun ch => (HuffmanNode.mk ch (Map.get t ch) .null .null, Map.get t ch))) := by
  have := leafQueue_perm_aux
    (fun ch => (HuffmanNode.mk ch (Map.get t ch) .null .null, Map.get t ch)) (Map.keys t) []
  simpa [leafQueue] using this

theorem size_leafQueue (t : Map Int) : PriorityQueue.size (leafQueue t) = t.length := by
  simp only [PriorityQueue.size]
  rw [(leafQueue_perm t).length_eq]
  simp [Map.keys]

/-- On a table with at least one entry `buildEncodingTree` returns a tree: the
node left in the queue after (number of entries - 1) merge steps. -/
theorem buildEncodingTree_eq (t : Map Int) (h : 1 ≤ t.length) :
    ∃ root p, mergeSteps (t.length - 1) (leafQueue t) = .ok [(root, p)] ∧
      buildEncodingTree t = .ok root := by
  have := buildEncodingTreeRec_eq (PriorityQueue.size (leafQueue t) + 1) (leafQueue t)
    (by rw [size_leafQueue]; exact h) (by omega)
  rw [size_leafQueue] at this
  simpa [buildEncodingTree, size_leafQueue] using this

/-! ## Shape of the trees in the queue -/

theorem HuffmanNode.Built.ne_null {t : HuffmanNode} (h : t.Built) : t ≠ .null := by
  intro h0; subst h0; exact h

theorem HuffmanNode.leaves_leaf (c n : Int) :
    (HuffmanNode.mk c n .null .null).leaves = [(c, n)] := by
  simp [HuffmanNode.leaves]

theorem HuffmanNode.leaves_mergeNodes (x y : HuffmanNode) (hx : x ≠ .null) :
    (mergeNodes x y).leaves = x.leaves ++ y.leaves := by
  simp [mergeNodes, HuffmanNode.leaves, hx]

theorem HuffmanNode.Built_mergeNodes (x y : HuffmanNode) (hx : x.Built) (hy : y.Built) :
    (mergeNodes x y).Built := by
  unfold mergeNodes HuffmanNode.Built
  exact Or.inr ⟨rfl, rfl, hx, hy⟩

theorem HuffmanNode.count_mergeNodes (x y : HuffmanNode) :
    (mergeNodes x y).count = wrapInt (x.count + y.count) := rfl

theorem QueueInv_mergeStep (t : Map Int) (q q1 : PriorityQueue HuffmanNode)
    (h : QueueInv t q) (hm : mergeStep q = .ok q1) : QueueInv t q1 := by
  obtain ⟨x, px, y, py, rest, rfl, rfl⟩ := (mergeStep_ok_iff q q1).1 hm
  obtain ⟨hall, hperm⟩ := h
  have hx := hall (x, px) (by simp)
  have hy := hall (y, py) (by simp)
  constructor
  · intro e he
    rcases (PriorityQueue.mem_enqueue _ _ _ e).1 he with rfl | he
    · exact ⟨HuffmanNode.Built_mergeNodes x y hx.1 hy.1, rfl⟩
    · exact hall e (by simp [he])
  · refine List.Perm.trans ?_ hperm
    refine ((PriorityQueue.enqueue_perm rest _ _).flatMap_right _).trans ?_
    simp [HuffmanNode.leaves_mergeNodes x y hx.1.ne_null]

theorem Map.get_of_mem (t : Map Int) (hwf : Map.WF t) (k v : Int) (h : (k, v) ∈ t) :
    Map.get t k = v :=
  Map.get_of_find? t k v (Map.find?_of_mem t k v hwf h)

theorem QueueInv_leafQueue (t : Map Int) (hwf : Map.WF t) : QueueInv t (leafQueue t) := by
  have hp := leafQueue_perm t
  constructor
  · intro e he
    obtain ⟨ch, _, rfl⟩ := List.mem_map.1 (hp.mem_iff.1 he)
    exact ⟨Or.inl ⟨rfl, rfl⟩, rfl⟩
  · refine (hp.flatMap_right _).trans ?_
    have : ((Map.keys t).map
        (fun ch => (HuffmanNode.mk ch (Map.get t ch) .null .null, Map.get t ch))).flatMap
          (fun e => e.1.leaves) = t := by
      simp only [Map.keys, List.map_map, List.flatMap_def, Function.comp_def,
        HuffmanNode.leaves_leaf]
      have h2 : t.map (fun x => [(x.1, Map.get t x.1)]) = t.map (fun x => [x]) := by
        apply List.map_congr_left
        intro x hx
        rw [Map.get_of_mem t hwf x.1 x.2 hx]
      rw [h2]
      clear h2 hp hwf
      induction t with
      | nil => rfl
      | cons e rest ih => simp [ih]
    rw [this]

/-- The tree `buildEncodingTree` returns for a well-formed table with at least
one entry, with what the merge loop guarantees about it. -/
theorem buildEncodingTree_built (t : Map Int) (hwf : Map.WF t) (h : 1 ≤ t.length) :
    ∃ root, buildEncodingTree t = .ok root ∧ root.Built ∧ List.Perm root.leaves t ∧
      ∃ p, mergeSteps (t.length - 1) (leafQueue t) = .ok [(root, p)] := by
  obtain ⟨root, p, hm, hb⟩ := buildEncodingTree_eq t h
  have hinv := mergeSteps_invariant (QueueInv t) (QueueInv_mergeStep t) _ _ _
    (QueueInv_leafQueue t hwf) hm
  refine ⟨root, hb, (hinv.1 (root, p) (by simp)).1, ?_, p, hm⟩
  simpa using hinv.2

/-! ## Consequences of the builder's shape -/

theorem HuffmanNode.mem_subtrees_self (c n : Int) (z o : HuffmanNode) :
    HuffmanNode.mk c n z o ∈ (HuffmanNode.mk c n z o).subtrees := by
  simp [HuffmanNode.subtrees]

theorem HuffmanNode.Built_of_mem_subtrees (t s : HuffmanNode) (h : t.Built)
    (hs : s ∈ t.subtrees) : s.Built := by
  induction t with
  | null => simp [HuffmanNode.subtrees] at hs
  | mk c n z o ihz iho =>
    simp only [HuffmanNode.subtrees, List.mem_cons, List.mem_append] at hs
    rcases hs with rfl | hs | hs
    · exact h
    · rcases h with ⟨rfl, _⟩ | ⟨_, _, hz, _⟩
      · simp [HuffmanNode.subtrees] at hs
      · exact ihz hz hs
    · rcases h with ⟨_, rfl⟩ | ⟨_, _, _, ho⟩
      · simp [HuffmanNode.subtrees] at hs
      · exact iho ho hs

theorem HuffmanNode.Built.leaf_or_internal {s : HuffmanNode} (h : s.Built) :
    s.isLeaf = true ∨ s.isInternal = true := by
  match s, h with
  | .mk c n z o, h =>
    rcases h with ⟨rfl, rfl⟩ | ⟨_, _, hz, ho⟩
    · left; rfl
    · right
      match z, o, hz, ho with
      | .mk _ _ _ _, .mk _ _ _ _, _, _ => rfl

theorem HuffmanNode.Built.length_leaves_pos {t : HuffmanNode} (h : t.Built) :
    1 ≤ t.leaves.length := by
  induction t with
  | null => exact absurd h (by simp [HuffmanNode.Built])
  | mk c n z o ihz iho =>
    rcases h with ⟨rfl, rfl⟩ | ⟨_, _, hz, ho⟩
    · simp [HuffmanNode.leaves]
    · have := ihz hz
      simp only [HuffmanNode.leaves, hz.ne_null, false_and, if_false, List.length_append]
      omega

theorem HuffmanNode.Built.internal_count {t : HuffmanNode} (h : t.Built) :
    t.subtrees.countP HuffmanNode.isInternal + 1 = t.leaves.length := by
  induction t with
  | null => exact absurd h (by simp [HuffmanNode.Built])
  | mk c n z o ihz iho =>
    rcases h with ⟨rfl, rfl⟩ | ⟨_, _, hz, ho⟩
    · simp [HuffmanNode.leaves, HuffmanNode.subtrees, HuffmanNode.isInternal]
    · have h1 := ihz hz
      have h2 := iho ho
      have hi : (HuffmanNode.mk c n z o).isInternal = true := by
        match z, o, hz, ho with
        | .mk _ _ _ _, .mk _ _ _ _, _, _ => rfl
      simp only [HuffmanNode.leaves, hz.ne_null, false_and, if_false, List.length_append,
        HuffmanNode.subtrees, List.countP_cons, List.countP_append, hi, if_true]
      omega

theorem HuffmanNode.Built.isLeaf_of_one_leaf {t : HuffmanNode} (h : t.Built)
    (h1 : t.leaves.length = 1) : t.isLeaf = true := by
  match t, h with
  | .mk c n z o, h =>
    rcases h with ⟨rfl, rfl⟩ | ⟨_, _, hz, ho⟩
    · rfl
    · have := hz.length_leaves_pos
      have := ho.length_leaves_pos
      simp only [HuffmanNode.leaves, hz.ne_null, false_and, if_false, List.length_append] at h1
      omega

theorem wrapInt_eq (x : Int) (h1 : -2147483648 ≤ x) (h2 : x ≤ 2147483647) : wrapInt x = x := by
  unfold wrapInt
  omega

theorem HuffmanNode.Exact.count_eq_sum {t : HuffmanNode} (h : t.Exact) :
    t.count = (t.leaves.map Prod.snd).sum := by
  induction t with
  | null => rfl
  | mk c n z o ihz iho =>
    rcases h with ⟨rfl, rfl⟩ | ⟨hn, hz, ho⟩
    · simp [HuffmanNode.leaves, HuffmanNode.count]
    · by_cases h0 : z = .null ∧ o = .null
      · obtain ⟨rfl, rfl⟩ := h0
        simp [HuffmanNode.leaves, HuffmanNode.count]
      · simp only [HuffmanNode.leaves, h0, if_false, List.map_append, List.sum_append,
          ← ihz hz, ← iho ho]
        exact hn

theorem HuffmanNode.Exact_of_mem_subtrees (t s : HuffmanNode) (h : t.Exact)
    (hs : s ∈ t.subtrees) : s.Exact := by
  induction t with
  | null => simp [HuffmanNode.subtrees] at hs
  | mk c n z o ihz iho =>
    simp only [HuffmanNode.subtrees, List.mem_cons, List.mem_append] at hs
    rcases hs with rfl | hs | hs
    · exact h
    · rcases h with ⟨rfl, _⟩ | ⟨_, hz, _⟩
      · simp [HuffmanNode.subtrees] at hs
      · exact ihz hz hs
    · rcases h with ⟨_, rfl⟩ | ⟨_, _, ho⟩
      · simp [HuffmanNode.subtrees] at hs
      · exact iho ho hs

/-- While the merge loop runs on a bounded table, the sum of the counts of the
two nodes it dequeues fits in an `int`: the addition at line 59 does not
wrap. -/
theorem merge_no_overflow (t : Map Int) (hb : Map.Bounded t) (x y : HuffmanNode) (px py : Int)
    (rest : PriorityQueue HuffmanNode) (hinv : QueueInv t ((x, px) :: (y, py) :: rest))
    (hex : ∀ e ∈ (x, px) :: (y, py) :: rest, e.1.Exact) :
    wrapInt (x.count + y.count) = x.count + y.count := by
  have hx : x.count = (x.leaves.map Prod.snd).sum := (hex (x, px) (by simp)).count_eq_sum
  have hy : y.count = (y.leaves.map Prod.snd).sum := (hex (y, py) (by simp)).count_eq_sum
  have hsum := ((hinv.2).map Prod.snd).sum_eq
  simp only [List.flatMap_cons, List.map_append, List.sum_append] at hsum
  have hnn : ∀ (l : List (Int × Int)), (∀ e ∈ l, e ∈ t) → 0 ≤ (l.map Prod.snd).sum := by
    intro l hl
    apply List.sum_nonneg
    intro v hv
    obtain ⟨e, he, rfl⟩ := List.mem_map.1 hv
    exact hb.1 e (hl e he)
  have hmem : ∀ e, e ∈ ((x, px) :: (y, py) :: rest).flatMap (fun e => e.1.leaves) → e ∈ t :=
    fun e he => hinv.2.mem_iff.1 he
  have h1 := hnn x.leaves (fun e he => hmem e (by simp [he]))
  have h2 := hnn y.leaves (fun e he => hmem e (by simp [he]))
  have h3 := hnn (rest.flatMap (fun e => e.1.leaves)) (fun e he => hmem e (by
    simp only [List.flatMap_cons, List.mem_append]
    exact Or.inr (Or.inr he)))
  have h4 := hb.2
  apply wrapInt_eq <;> omega

theorem QueueExact_mergeStep (t : Map Int) (hb : Map.Bounded t)
    (q q1 : PriorityQueue HuffmanNode) (hinv : QueueInv t q) (hex : ∀ e ∈ q, e.1.Exact)
    (hm : mergeStep q = .ok q1) : ∀ e ∈ q1, e.1.Exact := by
  obtain ⟨x, px, y, py, rest, rfl, rfl⟩ := (mergeStep_ok_iff q q1).1 hm
  have hno := merge_no_overflow t hb x y px py rest hinv hex
  intro e he
  rcases (PriorityQueue.mem_enqueue _ _ _ e).1 he with rfl | he
  · unfold mergeNodes HuffmanNode.Exact
    exact Or.inr ⟨hno, hex (x, px) (by simp), hex (y, py) (by simp)⟩
  · exact hex e (by simp [he])

theorem QueueExact_leafQueue (t : Map Int) : ∀ e ∈ leafQueue t, e.1.Exact := by
  intro e he
  obtain ⟨ch, _, rfl⟩ := List.mem_map.1 ((leafQueue_perm t).mem_iff.1 he)
  exact Or.inl ⟨rfl, rfl⟩

/-- The tree built from a bounded table: no sum of counts in it has wrapped. -/
theorem buildEncodingTree_exact (t : Map Int) (hwf : Map.WF t) (h : 1 ≤ t.length)
    (hb : Map.Bounded t) :
    ∃ root, buildEncodingTree t = .ok root ∧ root.Built ∧ List.Perm root.leaves t ∧
      root.Exact := by
  obtain ⟨root, p, hm, hbt⟩ := buildEncodingTree_eq t h
  have hinv := mergeSteps_invariant
    (fun q => QueueInv t q ∧ ∀ e ∈ q, e.1.Exact)
    (fun q q1 hq hstep =>
      ⟨QueueInv_mergeStep t q q1 hq.1 hstep, QueueExact_mergeStep t hb q q1 hq.1 hq.2 hstep⟩)
    _ _ _ ⟨QueueInv_leafQueue t hwf, QueueExact_leafQueue t⟩ hm
  refine ⟨root, hbt, (hinv.1.1 (root, p) (by simp)).1, by simpa using hinv.1.2,
    hinv.2 (root, p) (by simp)⟩

theorem HuffmanNode.leaf_mem_leaves (t : HuffmanNode) (c n : Int)
    (h : HuffmanNode.mk c n .null .null ∈ t.subtrees) : (c, n) ∈ t.leaves := by
  induction t with
  | null => simp [HuffmanNode.subtrees] at h
  | mk c0 n0 z o ihz iho =>
    simp only [HuffmanNode.subtrees, List.mem_cons, List.mem_append] at h
    rcases h with h | h | h
    · simp only [HuffmanNode.mk.injEq] at h
      obtain ⟨rfl, rfl, rfl, rfl⟩ := h
      simp [HuffmanNode.leaves]
    · have hz : z ≠ .null := by
        rintro rfl; simp [HuffmanNode.subtrees] at h
      simp only [HuffmanNode.leaves, hz, false_and, if_false, List.mem_append]
      exact Or.inl (ihz h)
    · have ho : o ≠ .null := by
        rintro rfl; simp [HuffmanNode.subtrees] at h
      simp only [HuffmanNode.leaves, ho, and_false, if_false, List.mem_append]
      exact Or.inr (iho h)

theorem Map.WF.nodup_keys {V : Type} {m : Map V} (h : Map.WF m) : (Map.keys m).Nodup :=
  List.Pairwise.imp (fun hab => ne_of_lt hab) h

/-- C9: for a table with `n ≥ 1` entries `buildEncodingTree` returns a tree;
after `k < n` merges the queue holds `n - k` nodes, so the queue first reaches
size 1 after exactly `n - 1` merges, and the node it then holds is the tree
returned.  The leaves of the tree are the entries of the table, one leaf per
symbol (`n` leaves, no symbol twice); every node is a leaf or has exactly two
children; there are `n - 1` internal nodes; for `n = 1` the root is the single
leaf. -/
theorem C9_buildEncodingTree_shape (t : Map Int) (hwf : Map.WF t) (hn : 1 ≤ t.length) :
    ∃ tree, buildEncodingTree t = .ok tree ∧
      (∀ k, k + 1 ≤ t.length →
        ∃ qk, mergeSteps k (leafQueue t) = .ok qk ∧ PriorityQueue.size qk = t.length - k) ∧
      (∃ p, mergeSteps (t.length - 1) (leafQueue t) = .ok [(tree, p)]) ∧
      List.Perm tree.leaves t ∧
      (tree.leaves.map Prod.fst).Nodup ∧
      tree.leaves.length = t.length ∧
      (∀ s ∈ tree.subtrees, s.isLeaf = true ∨ s.isInternal = true) ∧
      tree.subtrees.countP HuffmanNode.isInternal = t.length - 1 ∧
      (t.length = 1 → tree.isLeaf = true) := by
  obtain ⟨tree, hb, hbuilt, hperm, hm⟩ := buildEncodingTree_built t hwf hn
  refine ⟨tree, hb, ?_, hm, hperm, ?_, hperm.length_eq, ?_, ?_, ?_⟩
  · intro k hk
    obtain ⟨qk, h1, h2⟩ := mergeSteps_size k (leafQueue t) (by rw [size_leafQueue]; exact hk)
    rw [size_leafQueue] at h2
    exact ⟨qk, h1, by omega⟩
  · exact ((hperm.map Prod.fst).nodup_iff).2 hwf.nodup_keys
  · intro s hs
    exact (HuffmanNode.Built_of_mem_subtrees tree s hbuilt hs).leaf_or_internal
  · have := hbuilt.internal_count
    rw [hperm.length_eq] at this
    omega
  · intro h1
    exact hbuilt.isLeaf_of_one_leaf (by rw [hperm.length_eq]; exact h1)

theorem C9_buildEncodingTree_shape_witness :
    ∃ tree, buildEncodingTree [(97, 3), (98, 1), (256, 1)] = .ok tree ∧
      (∀ k, k + 1 ≤ [((97 : Int), (3 : Int)), (98, 1), (256, 1)].length →
        ∃ qk, mergeSteps k (leafQueue [(97, 3), (98, 1), (256, 1)]) = .ok qk ∧
          PriorityQueue.size qk = [((97 : Int), (3 : Int)), (98, 1), (256, 1)].length - k) ∧
      (∃ p, mergeSteps ([((97 : Int), (3 : Int)), (98, 1), (256, 1)].length - 1)
        (leafQueue [(97, 3), (98, 1), (256, 1)]) = .ok [(tree, p)]) ∧
      List.Perm tree.leaves [(97, 3), (98, 1), (256, 1)] ∧
      (tree.leaves.map Prod.fst).Nodup ∧
      tree.leaves.length = [((97 : Int), (3 : Int)), (98, 1), (256, 1)].length ∧
      (∀ s ∈ tree.subtrees, s.isLeaf = true ∨ s.isInternal = true) ∧
      tree.subtrees.countP HuffmanNode.isInternal
        = [((97 : Int), (3 : Int)), (98, 1), (256, 1)].length - 1 ∧
      ([((97 : Int), (3 : Int)), (98, 1), (256, 1)].length = 1 → tree.isLeaf = true) :=
  C9_buildEncodingTree_shape [(97, 3), (98, 1), (256, 1)] (by decide) (by decide)

/-- C8, counterexample: for the table `{97: 2147483647, 98: 1}`, whose counts
both fit in an `int`, the root's count is the wrapped sum `-2147483648`, which
is neither the sum of its children's counts nor the sum of the counts of the
table (`2147483648`). -/
theorem C8_overflow_counterexample :
    buildEncodingTree [(97, 2147483647), (98, 1)]
      = .ok (.mk 257 (-2147483648) (.mk 98 1 .null .null) (.mk 97 2147483647 .null .null)) ∧
    (HuffmanNode.mk 257 (-2147483648) (.mk 98 1 .null .null)
        (.mk 97 2147483647 .null .null)).count
      ≠ (([(97, 2147483647), (98, 1)] : Map Int).map Prod.snd).sum ∧
    (-2147483648 : Int) ≠ (HuffmanNode.mk 98 1 .null .null).count
      + (HuffmanNode.mk 97 2147483647 .null .null).count := by
  refine ⟨by decide, by decide, by decide⟩

/-- C8, amended: in the tree `buildEncodingTree` returns for a table with at
least one entry whose counts are not negative and whose total fits in an `int`
(at most `2^31 - 1`), every node with a child has as count the sum of its two
children's counts, which is the sum of the counts of the leaves below it;
every leaf has as count the table's count of its symbol; the root's count is
the sum of all counts of the table. -/
theorem C8_buildEncodingTree_weights (t : Map Int) (hwf : Map.WF t) (hn : 1 ≤ t.length)
    (hbound : Map.Bounded t) :
    ∃ tree, buildEncodingTree t = .ok tree ∧
      (∀ c n zero one, HuffmanNode.mk c n zero one ∈ tree.subtrees →
        ¬ (zero = .null ∧ one = .null) →
          n = zero.count + one.count ∧
          n = ((HuffmanNode.mk c n zero one).leaves.map Prod.snd).sum) ∧
      (∀ c n, HuffmanNode.mk c n .null .null ∈ tree.subtrees → Map.find? t c = some n) ∧
      tree.count = (t.map Prod.snd).sum := by
  obtain ⟨tree, hb, _, hperm, hexact⟩ := buildEncodingTree_exact t hwf hn hbound
  refine ⟨tree, hb, ?_, ?_, ?_⟩
  · intro c n zero one hs hne
    have hs' := HuffmanNode.Exact_of_mem_subtrees tree _ hexact hs
    refine ⟨?_, hs'.count_eq_sum⟩
    rcases hs' with h | ⟨h, _, _⟩
    · exact absurd h hne
    · exact h
  · intro c n hs
    exact Map.find?_of_mem t c n hwf (hperm.mem_iff.1 (HuffmanNode.leaf_mem_leaves tree c n hs))
  · rw [hexact.count_eq_sum]
    exact (hperm.map Prod.snd).sum_eq

theorem C8_buildEncodingTree_weights_witness :
    ∃ tree, buildEncodingTree [(97, 3), (98, 1), (256, 1)] = .ok tree ∧
      (∀ c n zero one, HuffmanNode.mk c n zero one ∈ tree.subtrees →
        ¬ (zero = .null ∧ one = .null) →
          n = zero.count + one.count ∧
          n = ((HuffmanNode.mk c n zero one).leaves.map Prod.snd).sum) ∧
      (∀ c n, HuffmanNode.mk c n .null .null ∈ tree.subtrees →
        Map.find? [(97, 3), (98, 1), (256, 1)] c = some n) ∧
      tree.count = (([(97, 3), (98, 1), (256, 1)] : Map Int).map Prod.snd).sum :=
  C8_buildEncodingTree_weights [(97, 3), (98, 1), (256, 1)] (by decide) (by decide) (by decide)

/-! ## The encoding map -/

theorem buildEncodingMapRec_eq (node : HuffmanNode) (m : Map Str) (path : Str) :
    buildEncodingMapRec node m path
      = node.codeList.foldl (fun m e => Map.put m e.1 (path ++ e.2)) m := by
  induction node generalizing m path with
  | null => simp [buildEncodingMapRec, HuffmanNode.codeList]
  | mk c n z o ihz iho =>
    simp only [buildEncodingMapRec, HuffmanNode.codeList]
    split_ifs with h
    · simp
    · rw [ihz, iho, List.foldl_append, List.foldl_map, List.foldl_map]
      simp

theorem buildEncodingMap_eq (tree : HuffmanNode) :
    buildEncodingMap tree = tree.codeList.foldl (fun m e => Map.put m e.1 e.2) [] := by
  simp [buildEncodingMap, buildEncodingMapRec_eq]

theorem Map.find?_foldl_put {V : Type} (L : List (Int × V)) (m : Map V) (k : Int) (v : V)
    (h : Map.find? (L.foldl (fun m e => Map.put m e.1 e.2) m) k = some v) :
    (k, v) ∈ L ∨ Map.find? m k = some v := by
  induction L generalizing m with
  | nil => exact Or.inr h
  | cons e rest ih =>
    rcases ih _ h with h1 | h1
    · exact Or.inl (List.mem_cons_of_mem _ h1)
    · rw [Map.find?_put] at h1
      split_ifs at h1 with h2
      · left
        simp only [Option.some.injEq] at h1
        subst h1; subst h2; simp
      · exact Or.inr h1

theorem Map.mem_keys_foldl_put {V : Type} (L : List (Int × V)) (m : Map V) (k : Int) :
    k ∈ Map.keys (L.foldl (fun m e => Map.put m e.1 e.2) m)
      ↔ k ∈ L.map Prod.fst ∨ k ∈ Map.keys m := by
  induction L generalizing m with
  | nil => simp
  | cons e rest ih =>
    simp only [List.foldl_cons, ih, Map.mem_keys_put, List.map_cons, List.mem_cons]
    tauto

theorem Map.find?_foldl_put_of_mem {V : Type} (L : List (Int × V)) (m : Map V) (k : Int)
    (v : V) (hnd : (L.map Prod.fst).Nodup) (h : (k, v) ∈ L) :
    Map.find? (L.foldl (fun m e => Map.put m e.1 e.2) m) k = some v := by
  induction L generalizing m with
  | nil => simp at h
  | cons e rest ih =>
    simp only [List.map_cons, List.nodup_cons] at hnd
    simp only [List.foldl_cons]
    rcases List.mem_cons.1 h with rfl | h
    · cases hf : Map.find? (rest.foldl (fun m e => Map.put m e.1 e.2) (Map.put m k v)) k with
      | none =>
        rw [Map.find?_eq_none_iff] at hf
        exfalso; apply hf
        exact (Map.mem_keys_foldl_put rest _ k).2
          (Or.inr ((Map.mem_keys_put m k v k).2 (Or.inl rfl)))
      | some w =>
        rcases Map.find?_foldl_put rest _ k w hf with h1 | h1
        · exact absurd (List.mem_map.2 ⟨(k, w), h1, rfl⟩) hnd.1
        · rw [Map.find?_put, if_pos rfl] at h1
          exact h1 ▸ rfl
    · exact ih _ hnd.2 h

theorem Map.WF_foldl_put {V : Type} (L : List (Int × V)) (m : Map V) (h : Map.WF m) :
    Map.WF (L.foldl (fun m e => Map.put m e.1 e.2) m) := by
  induction L generalizing m with
  | nil => exact h
  | cons e rest ih => exact ih _ (Map.WF_put _ _ _ h)

theorem HuffmanNode.isBinary_codeList (t : HuffmanNode) (e : Int × Str)
    (h : e ∈ t.codeList) : IsBinary e.2 := by
  induction t generalizing e with
  | null => simp [HuffmanNode.codeList] at h
  | mk c n z o ihz iho =>
    simp only [HuffmanNode.codeList] at h
    split_ifs at h with hc
    · simp only [List.mem_singleton] at h; subst h; intro d hd; simp at hd
    · simp only [List.mem_append, List.mem_map] at h
      rcases h with ⟨e1, h1, rfl⟩ | ⟨e1, h1, rfl⟩
      · intro d hd
        rcases List.mem_cons.1 hd with rfl | hd
        · exact Or.inl rfl
        · exact ihz e1 h1 d hd
      · intro d hd
        rcases List.mem_cons.1 hd with rfl | hd
        · exact Or.inr rfl
        · exact iho e1 h1 d hd

/-- Two recorded paths of which one is a prefix of the other are the same
record. -/
theorem HuffmanNode.codeList_prefix (t : HuffmanNode) (e1 e2 : Int × Str)
    (h1 : e1 ∈ t.codeList) (h2 : e2 ∈ t.codeList) (hp : e1.2 <+: e2.2) : e1 = e2 := by
  induction t generalizing e1 e2 with
  | null => simp [HuffmanNode.codeList] at h1
  | mk c n z o ihz iho =>
    simp only [HuffmanNode.codeList] at h1 h2
    split_ifs at h1 h2 with hc
    · simp only [List.mem_singleton] at h1 h2; rw [h1, h2]
    · simp only [List.mem_append, List.mem_map] at h1 h2
      rcases h1 with ⟨a, ha, rfl⟩ | ⟨a, ha, rfl⟩ <;>
        rcases h2 with ⟨b, hb, rfl⟩ | ⟨b, hb, rfl⟩
      · have := ihz a b ha hb ((List.prefix_cons_inj _).1 hp)
        rw [this]
      · have := (List.cons_prefix_cons.1 hp).1
        exact absurd this (by decide)
      · have := (List.cons_prefix_cons.1 hp).1
        exact absurd this (by decide)
      · have := iho a b ha hb ((List.prefix_cons_inj _).1 hp)
        rw [this]

theorem find?_buildEncodingMap_mem (tree : HuffmanNode) (k : Int) (code : Str)
    (h : Map.find? (buildEncodingMap tree) k = some code) : (k, code) ∈ tree.codeList := by
  rw [buildEncodingMap_eq] at h
  rcases Map.find?_foldl_put _ _ _ _ h with h | h
  · exact h
  · simp [Map.find?] at h

/-- C2: for a table with at least one entry `buildEncodingTree` returns a tree,
and in the encoding map of that tree the codes of two distinct symbols are
never a prefix of one another. -/
theorem C2_codes_prefix_free (t : Map Int) (hn : 1 ≤ t.length) :
    ∃ tree, buildEncodingTree t = .ok tree ∧
      ∀ a b codeA codeB, a ≠ b →
        Map.find? (buildEncodingMap tree) a = some codeA →
        Map.find? (buildEncodingMap tree) b = some codeB →
        ¬ codeA <+: codeB ∧ ¬ codeB <+: codeA := by
  obtain ⟨tree, _, _, hb⟩ := buildEncodingTree_eq t hn
  refine ⟨tree, hb, ?_⟩
  intro a b codeA codeB hab ha hb
  have ha' := find?_buildEncodingMap_mem tree a codeA ha
  have hb' := find?_buildEncodingMap_mem tree b codeB hb
  constructor
  · intro hp
    have := HuffmanNode.codeList_prefix tree _ _ ha' hb' hp
    exact hab (congrArg Prod.fst this)
  · intro hp
    have := HuffmanNode.codeList_prefix tree _ _ hb' ha' hp
    exact hab (congrArg Prod.fst this).symm

theorem C2_codes_prefix_free_witness :
    ∃ tree, buildEncodingTree [(97, 3), (98, 1), (256, 1)] = .ok tree ∧
      ∀ a b codeA codeB, a ≠ b →
        Map.find? (buildEncodingMap tree) a = some codeA →
        Map.find? (buildEncodingMap tree) b = some codeB →
        ¬ codeA <+: codeB ∧ ¬ codeB <+: codeA :=
  C2_codes_prefix_free [(97, 3), (98, 1), (256, 1)] (by decide)

theorem HuffmanNode.descend_codeList (t : HuffmanNode) (hb : t.Built) (k : Int) (p : Str)
    (h : (k, p) ∈ t.codeList) :
    ∃ n, t.descend p = .mk k n .null .null ∧ (k, n) ∈ t.leaves := by
  induction t generalizing p with
  | null => simp [HuffmanNode.codeList] at h
  | mk c n z o ihz iho =>
    simp only [HuffmanNode.codeList] at h
    split_ifs at h with hc
    · simp only [List.mem_singleton, Prod.mk.injEq] at h
      obtain ⟨rfl, rfl⟩ := h
      rcases hb with ⟨rfl, rfl⟩ | ⟨hc', _⟩
      · exact ⟨n, rfl, by simp [HuffmanNode.leaves]⟩
      · exact absurd hc' hc
    · rcases hb with ⟨rfl, rfl⟩ | ⟨_, _, hz, ho⟩
      · simp [HuffmanNode.codeList] at h
      · simp only [List.mem_append, List.mem_map, Prod.mk.injEq] at h
        rcases h with ⟨e, he, rfl, rfl⟩ | ⟨e, he, rfl, rfl⟩
        · obtain ⟨m, h1, h2⟩ := ihz hz e.2 he
          refine ⟨m, ?_, ?_⟩
          · simpa [HuffmanNode.descend] using h1
          · simp only [HuffmanNode.leaves, hz.ne_null, false_and, if_false, List.mem_append]
            exact Or.inl h2
        · obtain ⟨m, h1, h2⟩ := iho ho e.2 he
          refine ⟨m, ?_, ?_⟩
          · simpa [HuffmanNode.descend] using h1
          · simp only [HuffmanNode.leaves, hz.ne_null, false_and, if_false, List.mem_append]
            exact Or.inr h2

theorem HuffmanNode.codeList_keys (t : HuffmanNode) (hb : t.Built)
    (hv : ∀ e ∈ t.leaves, e.1 ≠ NOT_A_CHAR) :
    t.codeList.map Prod.fst = t.leaves.map Prod.fst := by
  induction t with
  | null => rfl
  | mk c n z o ihz iho =>
    rcases hb with ⟨rfl, rfl⟩ | ⟨hc, _, hz, ho⟩
    · have : c ≠ NOT_A_CHAR := hv (c, n) (by simp [HuffmanNode.leaves])
      simp [HuffmanNode.codeList, HuffmanNode.leaves, this]
    · have hl : (HuffmanNode.mk c n z o).leaves = z.leaves ++ o.leaves := by
        simp [HuffmanNode.leaves, hz.ne_null]
      rw [hl] at hv ⊢
      have h1 := ihz hz (fun e he => hv e (List.mem_append_left _ he))
      have h2 := iho ho (fun e he => hv e (List.mem_append_right _ he))
      simp only [HuffmanNode.codeList, hc, ne_eq, not_true_eq_false, if_false, List.map_append,
        List.map_map, ← h1, ← h2]
      rfl

theorem HuffmanNode.codeList_of_isLeaf (t : HuffmanNode) (hl : t.isLeaf = true)
    (e : Int × Str) (h : e ∈ t.codeList) : e.2 = [] := by
  match t, hl with
  | .mk c n .null .null, _ =>
    simp only [HuffmanNode.codeList] at h
    split_ifs at h with hc
    · simp only [List.mem_singleton] at h; rw [h]
    · simp at h

/-- C6: for a table with at least one entry and no key `NOT_A_CHAR`, the
encoding map of the tree `buildEncodingTree` returns has exactly the keys of
the table, and the code of every key is a string of binary digits that leads
from the root (`'0'` to the zero-branch, `'1'` to the one-branch) exactly to
the leaf that holds the key, with the table's count; when the root is itself a
leaf every code is the empty string. -/
theorem C6_buildEncodingMap_paths (t : Map Int) (hwf : Map.WF t) (hn : 1 ≤ t.length)
    (hvalid : ∀ k ∈ Map.keys t, k ≠ NOT_A_CHAR) :
    ∃ tree, buildEncodingTree t = .ok tree ∧
      Map.WF (buildEncodingMap tree) ∧
      (∀ k, k ∈ Map.keys (buildEncodingMap tree) ↔ k ∈ Map.keys t) ∧
      (∀ k code, Map.find? (buildEncodingMap tree) k = some code →
        IsBinary code ∧
        ∃ n, Map.find? t k = some n ∧ tree.descend code = .mk k n .null .null) ∧
      (tree.isLeaf = true →
        ∀ k code, Map.find? (buildEncodingMap tree) k = some code → code = []) := by
  obtain ⟨tree, hb, hbuilt, hperm, _⟩ := buildEncodingTree_built t hwf hn
  have hv : ∀ e ∈ tree.leaves, e.1 ≠ NOT_A_CHAR := by
    intro e he
    exact hvalid e.1 (List.mem_map.2 ⟨e, hperm.mem_iff.1 he, rfl⟩)
  refine ⟨tree, hb, ?_, ?_, ?_, ?_⟩
  · rw [buildEncodingMap_eq]
    exact Map.WF_foldl_put _ _ (by simp [Map.WF, Map.keys])
  · intro k
    rw [buildEncodingMap_eq, Map.mem_keys_foldl_put, HuffmanNode.codeList_keys tree hbuilt hv]
    simp only [Map.keys, List.map_nil, List.not_mem_nil, or_false]
    exact (hperm.map Prod.fst).mem_iff
  · intro k code h
    have hm := find?_buildEncodingMap_mem tree k code h
    refine ⟨HuffmanNode.isBinary_codeList tree _ hm, ?_⟩
    obtain ⟨n, h1, h2⟩ := HuffmanNode.descend_codeList tree hbuilt k code hm
    exact ⟨n, Map.find?_of_mem t k n hwf (hperm.mem_iff.1 h2), h1⟩
  · intro hl k code h
    exact HuffmanNode.codeList_of_isLeaf tree hl _ (find?_buildEncodingMap_mem tree k code h)

theorem C6_buildEncodingMap_paths_witness :
    ∃ tree, buildEncodingTree [(97, 3), (98, 1), (256, 1)] = .ok tree ∧
      Map.WF (buildEncodingMap tree) ∧
      (∀ k, k ∈ Map.keys (buildEncodingMap tree)
        ↔ k ∈ Map.keys ([(97, 3), (98, 1), (256, 1)] : Map Int)) ∧
      (∀ k code, Map.find? (buildEncodingMap tree) k = some code →
        IsBinary code ∧
        ∃ n, Map.find? [(97, 3), (98, 1), (256, 1)] k = some n ∧
          tree.descend code = .mk k n .null .null) ∧
      (tree.isLeaf = true →
        ∀ k code, Map.find? (buildEncodingMap tree) k = some code → code = []) :=
  C6_buildEncodingMap_paths [(97, 3), (98, 1), (256, 1)] (by decide) (by decide) (by decide)

/-! ## Decoding -/

theorem PSEUDO_EOF_ne_NOT_A_CHAR : PSEUDO_EOF ≠ NOT_A_CHAR := by decide

/-- The recursive walk started at a node, on a string that begins with a path
recorded below that node: the walk consumes the path and emits its character,
or clears the string at the sentinel. -/
theorem decodeDataRec_codeList (t : HuffmanNode) (c : Int) (p : Str) (output : List Byte)
    (rest : Str) (h : (c, p) ∈ t.codeList) :
    decodeDataRec t output (p ++ rest)
      = if c = PSEUDO_EOF then .ok (output, [])
        else .ok (output ++ [putChar c], rest) := by
  induction t generalizing p with
  | null => simp [HuffmanNode.codeList] at h
  | mk c0 n z o ihz iho =>
    simp only [HuffmanNode.codeList] at h
    split_ifs at h with hc
    · simp only [List.mem_singleton, Prod.mk.injEq] at h
      obtain ⟨rfl, rfl⟩ := h
      simp only [decodeDataRec, List.nil_append, hc, ne_eq, not_false_eq_true, if_true]
    · have hc0 : c0 = NOT_A_CHAR := not_not.1 hc
      subst hc0
      simp only [List.mem_append, List.mem_map, Prod.mk.injEq] at h
      rcases h with ⟨e, he, rfl, rfl⟩ | ⟨e, he, rfl, rfl⟩
      · simp only [decodeDataRec, List.cons_append, stringToInteger_zero, if_true,
          if_neg PSEUDO_EOF_ne_NOT_A_CHAR.symm, ne_eq, not_true_eq_false, if_false]
        exact ihz e.2 he
      · simp only [decodeDataRec, List.cons_append, stringToInteger_one,
          if_neg PSEUDO_EOF_ne_NOT_A_CHAR.symm, ne_eq, not_true_eq_false, if_false,
          one_ne_zero]
        exact iho e.2 he

theorem HuffmanNode.codeList_of_nil_mem (t : HuffmanNode) (c : Int)
    (h : (c, []) ∈ t.codeList) : t.codeList = [(c, [])] := by
  match t with
  | .null => simp [HuffmanNode.codeList] at h
  | .mk c0 n z o =>
    simp only [HuffmanNode.codeList] at h ⊢
    split_ifs at h ⊢ with hc
    · simp only [List.mem_singleton, Prod.mk.injEq, and_true] at h
      rw [h]
    · simp at h

theorem decodeLoop_nil (fuel : Nat) (t : HuffmanNode) (output : List Byte) :
    decodeLoop fuel t output [] = .ok output := by
  cases fuel <;> simp [decodeLoop]

/-- The decoding loop on the paths of a list of regular symbols, then the path
of the sentinel, then anything: the output is the list of the symbols. -/
theorem decodeLoop_codes (t : HuffmanNode) (syms : List (Int × Str))
    (hs : ∀ e ∈ syms, e ∈ t.codeList ∧ e.1 ≠ PSEUDO_EOF)
    (pe : Str) (he : (PSEUDO_EOF, pe) ∈ t.codeList) (P : Str) (output : List Byte)
    (fuel : Nat) (hf : syms.length < fuel) :
    decodeLoop fuel t output (syms.flatMap Prod.snd ++ pe ++ P)
      = .ok (output ++ syms.map (fun e => putChar e.1)) := by
  induction syms generalizing output fuel with
  | nil =>
    match fuel, hf with
    | fuel + 1, _ =>
      simp only [List.flatMap_nil, List.nil_append, List.map_nil, List.append_nil]
      rw [decodeLoop]
      split_ifs with h0
      · rfl
      · simp only [decodeDataRec_codeList t PSEUDO_EOF pe output P he, if_true]
        exact decodeLoop_nil _ _ _
  | cons e rest ih =>
    match fuel, hf with
    | fuel + 1, hf =>
      obtain ⟨c, p⟩ := e
      have hcp := hs (c, p) (List.mem_cons_self _ _)
      have hne : p ++ (rest.flatMap Prod.snd ++ pe ++ P) ≠ [] := by
        intro h0
        have hp : p = [] := (List.append_eq_nil.1 h0).1
        subst hp
        rw [HuffmanNode.codeList_of_nil_mem t c hcp.1] at he
        simp only [List.mem_singleton, Prod.mk.injEq] at he
        exact hcp.2 he.1.symm
      have hbits : ((c, p) :: rest).flatMap Prod.snd ++ pe ++ P
          = p ++ (rest.flatMap Prod.snd ++ pe ++ P) := by
        simp
      rw [hbits, decodeLoop, if_neg hne]
      simp only [decodeDataRec_codeList t c p output _ hcp.1, if_neg hcp.2]
      rw [ih (fun e he => hs e (List.mem_cons_of_mem _ he)) _ _
        (by simp only [List.length_cons] at hf; omega)]
      simp

theorem readBits_eq (input : List Bool) : readBits input = input.map bitDigit := by
  have h : ∀ (init : Str), input.foldl
      (fun bitsToDecode b => bitsToDecode ++ integerToString (readBit b)) init
        = init ++ input.map bitDigit := by
    induction input with
    | nil => simp
    | cons b rest ih =>
      intro init
      rw [List.foldl_cons, ih]
      cases b <;> simp [integerToString, readBit, bitDigit]
  simpa [readBits] using h []

theorem map_bitDigit_digitBit (s : Str) (h : IsBinary s) :
    (s.map digitBit).map bitDigit = s := by
  induction s with
  | nil => rfl
  | cons c rest ih =>
    have hr : IsBinary rest := fun d hd => h d (List.mem_cons_of_mem _ hd)
    rw [List.map_cons, List.map_cons, ih hr]
    rcases h c (List.mem_cons_self _ _) with rfl | rfl <;> simp [digitBit, bitDigit]

theorem mem_codeList_of_mem_keys (tree : HuffmanNode) (k : Int)
    (h : k ∈ Map.keys (buildEncodingMap tree)) :
    (k, Map.get (buildEncodingMap tree) k) ∈ tree.codeList := by
  rw [← Map.find?_isSome_iff, Option.isSome_iff_exists] at h
  obtain ⟨code, hc⟩ := h
  rw [Map.get_of_find? _ _ _ hc]
  exact find?_buildEncodingMap_mem tree k code hc

/-- Decoding the bits of the codes of regular symbols followed by the code of
the sentinel and by any further bits gives back the symbols. -/
theorem decodeData_codes (tree : HuffmanNode) (syms : List Int) (P : List Bool) (fuel : Nat)
    (hs : ∀ s ∈ syms, s ≠ PSEUDO_EOF ∧ s ∈ Map.keys (buildEncodingMap tree))
    (he : PSEUDO_EOF ∈ Map.keys (buildEncodingMap tree)) (hf : syms.length < fuel) :
    decodeData fuel
      ((syms.flatMap (fun s => Map.get (buildEncodingMap tree) s)
        ++ Map.get (buildEncodingMap tree) PSEUDO_EOF).map digitBit ++ P) tree
      = .ok (syms.map putChar) := by
  have hbin : IsBinary (syms.flatMap (fun s => Map.get (buildEncodingMap tree) s)
        ++ Map.get (buildEncodingMap tree) PSEUDO_EOF) := by
    intro c hc
    rcases List.mem_append.1 hc with hc | hc
    · obtain ⟨s, hs1, hs2⟩ := List.mem_flatMap.1 hc
      exact HuffmanNode.isBinary_codeList tree _ (mem_codeList_of_mem_keys tree s (hs s hs1).2)
        c hs2
    · exact HuffmanNode.isBinary_codeList tree _ (mem_codeList_of_mem_keys tree _ he) c hc
  rw [decodeData, readBits_eq, List.map_append, map_bitDigit_digitBit _ hbin]
  have := decodeLoop_codes tree (syms.map (fun s => (s, Map.get (buildEncodingMap tree) s)))
    (by
      intro e hemem
      obtain ⟨s, hs1, rfl⟩ := List.mem_map.1 hemem
      exact ⟨mem_codeList_of_mem_keys tree s (hs s hs1).2, (hs s hs1).1⟩)
    _ (mem_codeList_of_mem_keys tree _ he) (P.map bitDigit) [] fuel (by simpa using hf)
  simpa [List.flatMap_def, List.map_map, Function.comp_def] using this

theorem HuffmanNode.mem_codeList_of_mem_leaves (t : HuffmanNode) (hb : t.Built) (c n : Int)
    (h : (c, n) ∈ t.leaves) (hc : c ≠ NOT_A_CHAR) : c ∈ t.codeList.map Prod.fst := by
  induction t with
  | null => simp [HuffmanNode.leaves] at h
  | mk c0 n0 z o ihz iho =>
    rcases hb with ⟨rfl, rfl⟩ | ⟨hc0, _, hz, ho⟩
    · simp only [HuffmanNode.leaves, and_self, if_true, List.mem_singleton, Prod.mk.injEq] at h
      obtain ⟨rfl, rfl⟩ := h
      simp [HuffmanNode.codeList, hc]
    · simp only [HuffmanNode.leaves, hz.ne_null, false_and, if_false, List.mem_append] at h
      simp only [HuffmanNode.codeList, hc0, ne_eq, not_true_eq_false, if_false, List.map_append,
        List.map_map, List.mem_append]
      rcases h with h | h
      · left
        have := ihz hz h
        simpa [Function.comp_def] using this
      · right
        have := iho ho h
        simpa [Function.comp_def] using this

theorem mem_keys_buildEncodingMap (t : Map Int) (tree : HuffmanNode) (hb : tree.Built)
    (hperm : List.Perm tree.leaves t) (k : Int) (hk : k ∈ Map.keys t) (hc : k ≠ NOT_A_CHAR) :
    k ∈ Map.keys (buildEncodingMap tree) := by
  obtain ⟨e, he1, he2⟩ := List.mem_map.1 hk
  have := HuffmanNode.mem_codeList_of_mem_leaves tree hb e.1 e.2 (hperm.mem_iff.2 he1)
    (by rw [he2]; exact hc)
  rw [he2] at this
  rw [buildEncodingMap_eq, Map.mem_keys_foldl_put]
  exact Or.inl this

/-- The decoder on the tree of a table: shared by the statements on trailing
bits and on the round trip. -/
theorem decodeData_table (t : Map Int) (hwf : Map.WF t) (heof : PSEUDO_EOF ∈ Map.keys t)
    (syms : List Int) (P : List Bool) (fuel : Nat)
    (hs : ∀ s ∈ syms, s ∈ Map.keys t ∧ s ≠ PSEUDO_EOF ∧ s ≠ NOT_A_CHAR)
    (hf : syms.length < fuel) :
    ∃ tree, buildEncodingTree t = .ok tree ∧ tree.Built ∧ List.Perm tree.leaves t ∧
      decodeData fuel
        ((syms.flatMap (fun s => Map.get (buildEncodingMap tree) s)
          ++ Map.get (buildEncodingMap tree) PSEUDO_EOF).map digitBit ++ P) tree
        = .ok (syms.map putChar) := by
  have hn : 1 ≤ t.length := by
    cases t with
    | nil => simp [Map.keys] at heof
    | cons e rest => simp
  obtain ⟨tree, hb, hbuilt, hperm, _⟩ := buildEncodingTree_built t hwf hn
  refine ⟨tree, hb, hbuilt, hperm, ?_⟩
  exact decodeData_codes tree syms P fuel
    (fun s hs1 => ⟨(hs s hs1).2.1,
      mem_keys_buildEncodingMap t tree hbuilt hperm s (hs s hs1).1 (hs s hs1).2.2⟩)
    (mem_keys_buildEncodingMap t tree hbuilt hperm _ heof PSEUDO_EOF_ne_NOT_A_CHAR) hf

/-- C7: for the tree built from a table that contains the sentinel, and any
list of regular symbols of the table, decoding the bits `B` of their codes
followed by the code of the sentinel gives the symbols, and decoding `B ++ P`
gives the same for any bits `P`: nothing is emitted from `P`. -/
theorem C7_trailing_bits_ignored (t : Map Int) (hwf : Map.WF t)
    (heof : PSEUDO_EOF ∈ Map.keys t) (syms : List Int) (P : List Bool) (fuel : Nat)
    (hs : ∀ s ∈ syms, s ∈ Map.keys t ∧ s ≠ PSEUDO_EOF ∧ s ≠ NOT_A_CHAR)
    (hf : syms.length < fuel) :
    ∃ tree, buildEncodingTree t = .ok tree ∧
      decodeData fuel
        ((syms.flatMap (fun s => Map.get (buildEncodingMap tree) s)
          ++ Map.get (buildEncodingMap tree) PSEUDO_EOF).map digitBit ++ P) tree
        = decodeData fuel
          ((syms.flatMap (fun s => Map.get (buildEncodingMap tree) s)
            ++ Map.get (buildEncodingMap tree) PSEUDO_EOF).map digitBit) tree ∧
      decodeData fuel
        ((syms.flatMap (fun s => Map.get (buildEncodingMap tree) s)
          ++ Map.get (buildEncodingMap tree) PSEUDO_EOF).map digitBit ++ P) tree
        = .ok (syms.map putChar) := by
  obtain ⟨tree, hb, _, _, h1⟩ := decodeData_table t hwf heof syms P fuel hs hf
  obtain ⟨tree2, hb2, _, _, h2⟩ := decodeData_table t hwf heof syms [] fuel hs hf
  have : tree2 = tree := by
    rw [hb] at hb2; injection hb2 with h; exact h.symm
  subst this
  rw [List.append_nil] at h2
  exact ⟨tree2, hb, h1.trans h2.symm, h1⟩

set_option maxRecDepth 8000 in
theorem C7_trailing_bits_ignored_witness :
    ∃ tree, buildEncodingTree [(97, 3), (98, 1), (256, 1)] = .ok tree ∧
      decodeData 3
        ((([97, 98] : List Int).flatMap (fun s => Map.get (buildEncodingMap tree) s)
          ++ Map.get (buildEncodingMap tree) PSEUDO_EOF).map digitBit ++ [true, false]) tree
        = decodeData 3
          ((([97, 98] : List Int).flatMap (fun s => Map.get (buildEncodingMap tree) s)
            ++ Map.get (buildEncodingMap tree) PSEUDO_EOF).map digitBit) tree ∧
      decodeData 3
        ((([97, 98] : List Int).flatMap (fun s => Map.get (buildEncodingMap tree) s)
          ++ Map.get (buildEncodingMap tree) PSEUDO_EOF).map digitBit ++ [true, false]) tree
        = .ok (([97, 98] : List Int).map putChar) :=
  C7_trailing_bits_ignored [(97, 3), (98, 1), (256, 1)] (by decide) (by decide) [97, 98]
    [true, false] 3 (by decide) (by decide)

/-! ## Round trip -/

theorem putChar_getChar (b : Byte) : putChar (getChar b) = b := by
  apply Fin.ext
  have := b.isLt
  simp only [putChar, getChar]
  omega

/-- The round trip in full: the tree exists, `encodeData` writes the bits, and
the decoder run on these bits followed by any padding returns the input. -/
theorem roundTrip (S : List Byte) (P : List Bool) (fuel : Nat) (hf : S.length < fuel) :
    ∃ tree bits, buildEncodingTree (buildFrequencyTable S) = .ok tree ∧
      encodeData S (buildEncodingMap tree) = .ok bits ∧
      decodeData fuel (bits ++ P) tree = .ok S := by
  have hkeys := mem_keys_buildFrequencyTable S
  have hwf := WF_buildFrequencyTable S
  obtain ⟨tree, hb, hbuilt, hperm, hd⟩ := decodeData_table (buildFrequencyTable S) hwf
    ((hkeys _).2 (Or.inl rfl)) (S.map getChar) P fuel
    (by
      intro s hs
      obtain ⟨b, hb, rfl⟩ := List.mem_map.1 hs
      exact ⟨(hkeys _).2 (Or.inr ⟨b, hb, rfl⟩), getChar_ne_PSEUDO_EOF b, getChar_ne_NOT_A_CHAR b⟩)
    (by simpa using hf)
  have hfind : ∀ k, k ∈ Map.keys (buildFrequencyTable S) → k ≠ NOT_A_CHAR →
      Map.find? (buildEncodingMap tree) k = some (Map.get (buildEncodingMap tree) k) := by
    intro k hk hc
    have := mem_keys_buildEncodingMap _ tree hbuilt hperm k hk hc
    rw [← Map.find?_isSome_iff, Option.isSome_iff_exists] at this
    obtain ⟨code, hcode⟩ := this
    rw [Map.get_of_find? _ _ _ hcode, hcode]
  have hbinary : ∀ k, k ∈ Map.keys (buildFrequencyTable S) → k ≠ NOT_A_CHAR →
      IsBinary (Map.get (buildEncodingMap tree) k) := by
    intro k hk hc
    exact HuffmanNode.isBinary_codeList tree _
      (find?_buildEncodingMap_mem tree k _ (hfind k hk hc))
  have henc := encodeData_codes S (buildEncodingMap tree)
    (fun k => Map.get (buildEncodingMap tree) k)
    (fun b hb => hfind _ ((hkeys _).2 (Or.inr ⟨b, hb, rfl⟩)) (getChar_ne_NOT_A_CHAR b))
    (hfind _ ((hkeys _).2 (Or.inl rfl)) PSEUDO_EOF_ne_NOT_A_CHAR)
    (fun b hb => hbinary _ ((hkeys _).2 (Or.inr ⟨b, hb, rfl⟩)) (getChar_ne_NOT_A_CHAR b))
    (hbinary _ ((hkeys _).2 (Or.inl rfl)) PSEUDO_EOF_ne_NOT_A_CHAR)
  refine ⟨tree, _, hb, henc, ?_⟩
  have hmap : (S.map getChar).map putChar = S := by
    rw [List.map_map]
    conv_rhs => rw [← List.map_id S]
    apply List.map_congr_left
    intro b _
    exact putChar_getChar b
  rw [hmap] at hd
  rw [← hd]
  congr 2
  simp [List.flatMap_def, List.map_map, Function.comp_def]

/-- C1: for every byte sequence `S`, with the tree built from
`buildFrequencyTable S` and the encoding map of that tree, `encodeData` writes
a bit sequence, and `decodeData` on that tree, run on these bits followed by any
padding bits `P`, outputs exactly `S` (fuel above the length of `S` is enough
for the decoding loop); the same holds for `decompress` after `compress`. -/
theorem C1_round_trip (S : List Byte) (P : List Bool) (fuel : Nat) (hf : S.length < fuel) :
    (∃ tree bits, buildEncodingTree (buildFrequencyTable S) = .ok tree ∧
      encodeData S (buildEncodingMap tree) = .ok bits ∧
      decodeData fuel (bits ++ P) tree = .ok S) ∧
    (∃ bits, compress S = .ok (buildFrequencyTable S, bits) ∧
      decompress fuel (buildFrequencyTable S) (bits ++ P) = .ok S) := by
  obtain ⟨tree, bits, hb, he, hd⟩ := roundTrip S P fuel hf
  refine ⟨⟨tree, bits, hb, he, hd⟩, bits, ?_, ?_⟩
  · simp only [compress, hb, he]
  · simp only [decompress, hb, hd]

set_option maxRecDepth 8000 in
theorem C1_round_trip_witness :
    ((∃ tree bits, buildEncodingTree (buildFrequencyTable [97, 97, 97, 98]) = .ok tree ∧
      encodeData [97, 97, 97, 98] (buildEncodingMap tree) = .ok bits ∧
      decodeData 5 (bits ++ [false, true, true]) tree = .ok [97, 97, 97, 98]) ∧
    (∃ bits, compress [97, 97, 97, 98] = .ok (buildFrequencyTable [97, 97, 97, 98], bits) ∧
      decompress 5 (buildFrequencyTable [97, 97, 97, 98]) (bits ++ [false, true, true])
        = .ok [97, 97, 97, 98])) ∧
    buildFrequencyTable [97, 97, 97, 98] = [(97, 3), (98, 1), (PSEUDO_EOF, 1)] :=
  ⟨C1_round_trip [97, 97, 97, 98] [false, true, true] 5 (by decide), by decide⟩

/-- The scenario "aaab" evaluated step by step: table, the two merges, tree,
codes, encoded bits, and decoding of the bits followed by padding. -/
theorem scenario_aaab :
    buildFrequencyTable [97, 97, 97, 98] = [(97, 3), (98, 1), (256, 1)] ∧
    mergeSteps 2 (leafQueue [(97, 3), (98, 1), (256, 1)])
      = .ok [(.mk 257 5 (.mk 257 2 (.mk 98 1 .null .null) (.mk 256 1 .null .null))
          (.mk 97 3 .null .null), 5)] ∧
    buildEncodingTree [(97, 3), (98, 1), (256, 1)]
      = .ok (.mk 257 5 (.mk 257 2 (.mk 98 1 .null .null) (.mk 256 1 .null .null))
          (.mk 97 3 .null .null)) ∧
    buildEncodingMap (.mk 257 5 (.mk 257 2 (.mk 98 1 .null .null) (.mk 256 1 .null .null))
        (.mk 97 3 .null .null))
      = [(97, ['1']), (98, ['0', '0']), (256, ['0', '1'])] ∧
    encodeData [97, 97, 97, 98] [(97, ['1']), (98, ['0', '0']), (256, ['0', '1'])]
      = .ok [true, true, true, false, false, false, true] ∧
    decodeData 5 [true, true, true, false, false, false, true, false, false]
        (.mk 257 5 (.mk 257 2 (.mk 98 1 .null .null) (.mk 256 1 .null .null))
          (.mk 97 3 .null .null))
      = .ok [97, 97, 97, 98] := by
  refine ⟨by decide, by decide, by decide, by decide, by decide, by decide⟩

/-! ## Optimality: the arithmetic core -/

theorem length_insertW (w : Int) (l : List Int) : (insertW w l).length = l.length + 1 := by
  induction l with
  | nil => rfl
  | cons p rest ih =>
    simp only [insertW]
    split_ifs <;> simp [ih]

theorem perm_insertW (w : Int) (l : List Int) : List.Perm (insertW w l) (w :: l) := by
  induction l with
  | nil => simp [insertW]
  | cons p rest ih =>
    simp only [insertW]
    split_ifs with h
    · exact (List.Perm.cons _ ih).trans (List.Perm.swap _ _ _)
    · exact List.Perm.refl _

theorem sorted_insertW (w : Int) (l : List Int) (h : l.Sorted (· ≤ ·)) :
    (insertW w l).Sorted (· ≤ ·) := by
  induction l with
  | nil => simp [insertW]
  | cons p rest ih =>
    simp only [insertW]
    have hp := List.sorted_cons.1 h
    split_ifs with hle
    · refine List.sorted_cons.2 ⟨?_, ih hp.2⟩
      intro x hx
      rcases List.mem_cons.1 ((perm_insertW w rest).mem_iff.1 hx) with rfl | hx
      · exact hle
      · exact hp.1 x hx
    · refine List.sorted_cons.2 ⟨?_, h⟩
      intro x hx
      have hw : w ≤ p := le_of_lt (not_le.1 hle)
      rcases List.mem_cons.1 hx with rfl | hx
      · exact hw
      · exact le_trans hw (hp.1 x hx)

theorem hcost_cons_cons (a b : Int) (rest : List Int) :
    hcost (a :: b :: rest) = (a + b) + hcost (insertW (a + b) rest) := by
  simp only [hcost, List.length_cons, hcostAux, length_insertW]

theorem hcost_singleton (a : Int) : hcost [a] = 0 := rfl

theorem kraftSum_cons (D d : Nat) (ds : Multiset Nat) :
    kraftSum D (d ::ₘ ds) = 2 ^ (D - d) + kraftSum D ds := by
  simp [kraftSum]

theorem kraftSum_zero (D : Nat) : kraftSum D 0 = 0 := rfl

theorem mcost_cons (e : Nat × Int) (s : Multiset (Nat × Int)) :
    mcost (e ::ₘ s) = (e.1 : Int) * e.2 + mcost s := by
  simp [mcost]

theorem exists_max_mem (ds : Multiset Nat) (h : ds ≠ 0) : ∃ M ∈ ds, ∀ d ∈ ds, d ≤ M := by
  induction ds using Multiset.induction_on with
  | empty => exact absurd rfl h
  | cons a s ih =>
    by_cases hs : s = 0
    · subst hs
      exact ⟨a, by simp, by simp⟩
    · obtain ⟨M, hM, hle⟩ := ih hs
      by_cases ha : a ≤ M
      · refine ⟨M, Multiset.mem_cons_of_mem hM, ?_⟩
        intro d hd
        rcases Multiset.mem_cons.1 hd with rfl | hd
        · exact ha
        · exact hle d hd
      · refine ⟨a, Multiset.mem_cons_self _ _, ?_⟩
        intro d hd
        rcases Multiset.mem_cons.1 hd with rfl | hd
        · exact le_refl _
        · exact le_trans (hle d hd) (by omega)

theorem kraftSum_all_zero (D : Nat) (ds : Multiset Nat) (h : ∀ d ∈ ds, d = 0) :
    kraftSum D ds = Multiset.card ds * 2 ^ D := by
  induction ds using Multiset.induction_on with
  | empty => simp [kraftSum]
  | cons a s ih =>
    have ha : a = 0 := h a (Multiset.mem_cons_self _ _)
    rw [kraftSum_cons, ih (fun d hd => h d (Multiset.mem_cons_of_mem hd)), ha,
      Multiset.card_cons]
    simp only [Nat.sub_zero]
    ring

theorem kraftSum_dvd (D M : Nat) (ds : Multiset Nat) (h : ∀ d ∈ ds, d < M) (hM : M ≤ D) :
    2 ^ (D - M + 1) ∣ kraftSum D ds := by
  induction ds using Multiset.induction_on with
  | empty => simp [kraftSum]
  | cons a s ih =>
    rw [kraftSum_cons]
    have ha : a < M := h a (Multiset.mem_cons_self _ _)
    exact Nat.dvd_add (pow_dvd_pow 2 (by omega))
      (ih (fun d hd => h d (Multiset.mem_cons_of_mem hd)))

/-- In a list of depths that satisfies Kraft's equality and has at least two
entries, the largest depth is at least 1 and occurs at least twice. -/
theorem Kraft.two_deepest (D : Nat) (ds : Multiset Nat) (hk : Kraft D ds)
    (h2 : 2 ≤ Multiset.card ds) :
    ∃ M ds0, 1 ≤ M ∧ M ≤ D ∧ ds = M ::ₘ M ::ₘ ds0 ∧ ∀ d ∈ ds0, d ≤ M := by
  have hne : ds ≠ 0 := by
    rintro rfl; simp at h2
  obtain ⟨M, hM, hle⟩ := exists_max_mem ds hne
  have hpos : 0 < 2 ^ D := Nat.pow_pos (by norm_num)
  have hM1 : 1 ≤ M := by
    by_contra hcon
    have hM0 : M = 0 := by omega
    have := kraftSum_all_zero D ds (fun d hd => by have := hle d hd; omega)
    rw [hk.2] at this
    have h3 : 2 * 2 ^ D ≤ Multiset.card ds * 2 ^ D := Nat.mul_le_mul_right _ h2
    omega
  have hMD : M ≤ D := hk.1 M hM
  obtain ⟨ds1, rfl⟩ := Multiset.exists_cons_of_mem hM
  have hM2 : M ∈ ds1 := by
    by_contra hcon
    have hlt : ∀ d ∈ ds1, d < M := by
      intro d hd
      have h1 := hle d (Multiset.mem_cons_of_mem hd)
      have h2 : d ≠ M := fun h => hcon (h ▸ hd)
      omega
    have hd1 := kraftSum_dvd D M ds1 hlt hMD
    have hd2 : 2 ^ (D - M + 1) ∣ 2 ^ D := pow_dvd_pow 2 (by omega)
    have hsum := hk.2
    rw [kraftSum_cons] at hsum
    have hd3 : 2 ^ (D - M + 1) ∣ 2 ^ (D - M) := by
      have : 2 ^ (D - M + 1) ∣ 2 ^ (D - M) + kraftSum D ds1 := by rw [hsum]; exact hd2
      exact (Nat.dvd_add_left hd1).1 this
    have hle2 := Nat.le_of_dvd (Nat.pow_pos (by norm_num)) hd3
    have hlt2 : 2 ^ (D - M) < 2 ^ (D - M + 1) := Nat.pow_lt_pow_right (by norm_num) (by omega)
    omega
  obtain ⟨ds0, rfl⟩ := Multiset.exists_cons_of_mem hM2
  refine ⟨M, ds0, hM1, hMD, rfl, ?_⟩
  intro d hd
  exact hle d (Multiset.mem_cons_of_mem (Multiset.mem_cons_of_mem hd))

/-- Giving a smaller weight to a deepest position, in exchange for the weight
there, does not increase the cost. -/
theorem swap_min (M : Nat) (x a : Int) (u : Multiset (Nat × Int)) (hd : ∀ e ∈ u, e.1 ≤ M)
    (hax : a ≤ x) (hmem : a ∈ x ::ₘ u.map Prod.snd) :
    ∃ u1 : Multiset (Nat × Int), u1.map Prod.fst = u.map Prod.fst ∧
      a ::ₘ u1.map Prod.snd = x ::ₘ u.map Prod.snd ∧
      mcost u1 + (M : Int) * a ≤ mcost u + (M : Int) * x := by
  rcases Multiset.mem_cons.1 hmem with rfl | h
  · exact ⟨u, rfl, rfl, le_refl _⟩
  · obtain ⟨e, he, rfl⟩ := Multiset.mem_map.1 h
    obtain ⟨u0, rfl⟩ := Multiset.exists_cons_of_mem he
    refine ⟨(e.1, x) ::ₘ u0, by simp, ?_, ?_⟩
    · simp only [Multiset.map_cons]
      exact Multiset.cons_swap _ _ _
    · have h1 : (e.1 : Int) ≤ M := by exact_mod_cast hd e (Multiset.mem_cons_self _ _)
      rw [mcost_cons, mcost_cons]
      nlinarith [mul_nonneg (sub_nonneg.2 h1) (sub_nonneg.2 hax)]

theorem exists_cons_of_fst_mem (M : Nat) (s : Multiset (Nat × Int))
    (h : M ∈ s.map Prod.fst) : ∃ x s1, s = (M, x) ::ₘ s1 := by
  obtain ⟨e, he, rfl⟩ := Multiset.mem_map.1 h
  obtain ⟨s1, rfl⟩ := Multiset.exists_cons_of_mem he
  exact ⟨e.2, s1, rfl⟩

/-- The exchange step: from an assignment of the weights `a, b, R` (with `a`,
`b` the two smallest) to depths satisfying Kraft's equality, an assignment of
the weights `a + b, R` that costs at least `a + b` less. -/
theorem exchange (D : Nat) (s : Multiset (Nat × Int)) (hk : Kraft D (s.map Prod.fst))
    (a b : Int) (R : Multiset Int) (hw : s.map Prod.snd = a ::ₘ b ::ₘ R) (hab : a ≤ b)
    (hbR : ∀ r ∈ R, b ≤ r) :
    ∃ s1 : Multiset (Nat × Int), Kraft D (s1.map Prod.fst) ∧
      s1.map Prod.snd = (a + b) ::ₘ R ∧ mcost s1 + (a + b) ≤ mcost s := by
  have hcard : 2 ≤ Multiset.card (s.map Prod.fst) := by
    have := congrArg Multiset.card hw
    simp only [Multiset.card_map, Multiset.card_cons] at this ⊢
    omega
  obtain ⟨M, ds0, hM1, hMD, hds, hle⟩ := hk.two_deepest D _ hcard
  obtain ⟨x, s1, rfl⟩ := exists_cons_of_fst_mem M s (by rw [hds]; simp)
  have hds1 : s1.map Prod.fst = M ::ₘ ds0 := by
    simp only [Multiset.map_cons] at hds
    exact (Multiset.cons_inj_right _).1 hds
  have hmin : ∀ w ∈ a ::ₘ b ::ₘ R, a ≤ w := by
    intro w hw'
    rcases Multiset.mem_cons.1 hw' with rfl | hw'
    · exact le_refl _
    · rcases Multiset.mem_cons.1 hw' with rfl | hw'
      · exact hab
      · exact le_trans hab (hbR w hw')
  have hmin2 : ∀ w ∈ b ::ₘ R, b ≤ w := by
    intro w hw'
    rcases Multiset.mem_cons.1 hw' with rfl | hw'
    · exact le_refl _
    · exact hbR w hw'
  simp only [Multiset.map_cons] at hw
  -- first exchange: `a` goes to depth `M`
  have hs1le : ∀ e ∈ s1, e.1 ≤ M := by
    intro e he
    have : e.1 ∈ s1.map Prod.fst := Multiset.mem_map_of_mem _ he
    rw [hds1] at this
    rcases Multiset.mem_cons.1 this with h | h
    · omega
    · exact hle _ h
  obtain ⟨u1, hu1f, hu1s, hu1c⟩ := swap_min M x a s1 hs1le
    (hmin x (by rw [← hw]; simp)) (by rw [hw]; simp)
  rw [hw] at hu1s
  have hu1s' : u1.map Prod.snd = b ::ₘ R := (Multiset.cons_inj_right _).1 hu1s
  obtain ⟨y, u0, rfl⟩ := exists_cons_of_fst_mem M u1 (by rw [hu1f, hds1]; simp)
  have hu0f : u0.map Prod.fst = ds0 := by
    rw [hds1] at hu1f
    simp only [Multiset.map_cons] at hu1f
    exact (Multiset.cons_inj_right _).1 hu1f
  simp only [Multiset.map_cons] at hu1s'
  -- second exchange: `b` goes to depth `M`
  have hu0le : ∀ e ∈ u0, e.1 ≤ M := by
    intro e he
    have : e.1 ∈ u0.map Prod.fst := Multiset.mem_map_of_mem _ he
    rw [hu0f] at this
    exact hle _ this
  obtain ⟨u2, hu2f, hu2s, hu2c⟩ := swap_min M y b u0 hu0le
    (hmin2 y (by rw [← hu1s']; simp)) (by rw [hu1s']; simp)
  rw [hu1s'] at hu2s
  have hu2s' : u2.map Prod.snd = R := (Multiset.cons_inj_right _).1 hu2s
  refine ⟨(M - 1, a + b) ::ₘ u2, ?_, by simp [hu2s'], ?_⟩
  · simp only [Multiset.map_cons, hu2f, hu0f]
    constructor
    · intro d hd
      rcases Multiset.mem_cons.1 hd with rfl | hd
      · omega
      · have := hle d hd; omega
    · have hsum := hk.2
      rw [hds, kraftSum_cons, kraftSum_cons] at hsum
      rw [kraftSum_cons, ← hsum]
      have : D - (M - 1) = (D - M) + 1 := by omega
      rw [this, pow_succ]
      omega
  · rw [mcost_cons, mcost_cons] at *
    simp only [] at *
    have hcast : ((M - 1 : Nat) : Int) = (M : Int) - 1 := by
      rw [Nat.cast_sub hM1]; simp
    rw [hcast]
    nlinarith

/-- Lower bound: every assignment of the weights `ws` to depths that satisfy
Kraft's equality costs at least `hcost ws`. -/
theorem hcost_le_mcost (D : Nat) (n : Nat) :
    ∀ (s : Multiset (Nat × Int)) (ws : List Int), Multiset.card s = n →
      Kraft D (s.map Prod.fst) → ws.Sorted (· ≤ ·) → (ws : Multiset Int) = s.map Prod.snd →
      hcost ws ≤ mcost s := by
  induction n with
  | zero =>
    intro s ws hc hk _ _
    rw [Multiset.card_eq_zero] at hc
    subst hc
    have := hk.2
    simp only [Multiset.map_zero, kraftSum_zero] at this
    have hpos : 0 < 2 ^ D := Nat.pow_pos (by norm_num)
    omega
  | succ n ih =>
    intro s ws hc hk hsorted hws
    match ws, hsorted, hws with
    | [], _, hws =>
      have := congrArg Multiset.card hws
      simp only [Multiset.coe_nil, Multiset.card_zero, Multiset.card_map] at this
      omega
    | [w], _, hws =>
      have hc1 := congrArg Multiset.card hws
      simp only [Multiset.coe_card, List.length_singleton, Multiset.card_map] at hc1
      obtain ⟨e, rfl⟩ := Multiset.card_eq_one.1 hc1.symm
      have h1 := hk.1 e.1 (by simp)
      have h2 := hk.2
      simp only [Multiset.map_singleton, kraftSum, Multiset.sum_singleton] at h2
      have h3 : D - e.1 = D := Nat.pow_right_injective (le_refl 2) h2
      have h4 : e.1 = 0 := by omega
      simp [hcost_singleton, mcost, h4]
    | a :: b :: rest, hsorted, hws =>
      have hs1 := List.sorted_cons.1 hsorted
      have hs2 := List.sorted_cons.1 hs1.2
      have hw : s.map Prod.snd = a ::ₘ b ::ₘ (rest : Multiset Int) := by
        rw [← hws]; rfl
      obtain ⟨s1, hk1, hw1, hc1⟩ := exchange D s hk a b rest hw
        (hs1.1 b (List.mem_cons_self _ _))
        (fun r hr => hs2.1 r (by simpa using hr))
      have hcard1 : Multiset.card s1 = n := by
        have h1 := congrArg Multiset.card hw1
        have h2 := congrArg Multiset.card hw
        simp only [Multiset.card_map, Multiset.card_cons, Multiset.coe_card] at h1 h2
        omega
      have hins : ((insertW (a + b) rest : List Int) : Multiset Int) = s1.map Prod.snd := by
        rw [hw1]
        exact Multiset.coe_eq_coe.2 (perm_insertW (a + b) rest)
      have := ih s1 (insertW (a + b) rest) hcard1 hk1 (sorted_insertW _ _ hs2.2) hins
      rw [hcost_cons_cons]
      omega

/-! ## Optimality: the merge loop realises `hcost` -/

theorem PriorityQueue.map_snd_enqueue {V : Type} (q : PriorityQueue V) (v : V) (p : Int) :
    (PriorityQueue.enqueue q v p).map Prod.snd = insertW p (q.map Prod.snd) := by
  induction q with
  | nil => rfl
  | cons e rest ih =>
    obtain ⟨v0, p0⟩ := e
    simp only [PriorityQueue.enqueue, List.map_cons, insertW]
    split_ifs with h
    · simp [ih]
    · rfl

theorem HuffmanNode.Exact.pathLength_succ {t : HuffmanNode} (h : t.Exact) (d : Nat) :
    t.pathLength (d + 1) = t.pathLength d + t.count := by
  induction t generalizing d with
  | null => simp [HuffmanNode.pathLength, HuffmanNode.count]
  | mk c n z o ihz iho =>
    by_cases h0 : z = .null ∧ o = .null
    · simp only [HuffmanNode.pathLength, h0, and_self, if_true, HuffmanNode.count]
      push_cast; ring
    · rcases h with h | ⟨hn, hz, ho⟩
      · exact absurd h h0
      · simp only [HuffmanNode.pathLength, h0, if_false, HuffmanNode.count]
        rw [ihz hz, iho ho, hn]
        ring

theorem pathLength_mergeNodes (x y : HuffmanNode) (hx : x.Built) (hex : x.Exact)
    (hey : y.Exact) :
    (mergeNodes x y).pathLength 0
      = x.pathLength 0 + y.pathLength 0 + (x.count + y.count) := by
  simp only [mergeNodes, HuffmanNode.pathLength, hx.ne_null, false_and, if_false]
  rw [hex.pathLength_succ, hey.pathLength_succ]
  ring

theorem queuePotential_mergeStep (t : Map Int) (hb : Map.Bounded t)
    (q q1 : PriorityQueue HuffmanNode) (h : QueueInv t q) (hex : ∀ e ∈ q, e.1.Exact)
    (hm : mergeStep q = .ok q1) :
    queuePotential q1 = queuePotential q := by
  obtain ⟨x, px, y, py, rest, rfl, rfl⟩ := (mergeStep_ok_iff q q1).1 hm
  have hno := merge_no_overflow t hb x y px py rest h hex
  have hx := h.1 (x, px) (by simp)
  have hy := h.1 (y, py) (by simp)
  have hxe := hex (x, px) (by simp)
  have hye := hex (y, py) (by simp)
  simp only at hx hy hxe hye
  obtain ⟨hxb, rfl⟩ := hx
  obtain ⟨hyb, rfl⟩ := hy
  simp only [queuePotential, PriorityQueue.map_snd_enqueue, List.map_cons, hcost_cons_cons,
    List.sum_cons, HuffmanNode.count_mergeNodes, hno]
  rw [((PriorityQueue.enqueue_perm rest (mergeNodes x y) (x.count + y.count)).map _).sum_eq]
  simp only [List.map_cons, List.sum_cons, pathLength_mergeNodes x y hxb hxe hye]
  ring

theorem queuePotential_singleton (root : HuffmanNode) (p : Int) :
    queuePotential [(root, p)] = root.pathLength 0 := by
  simp [queuePotential, hcost_singleton]

theorem queuePotential_leafQueue (t : Map Int) :
    queuePotential (leafQueue t) = hcost ((leafQueue t).map Prod.snd) := by
  have h : ((leafQueue t).map (fun e => e.1.pathLength 0)).sum = 0 := by
    rw [((leafQueue_perm t).map _).sum_eq]
    simp only [List.map_map]
    apply List.sum_eq_zero
    intro x hx
    obtain ⟨ch, _, rfl⟩ := List.mem_map.1 hx
    simp [HuffmanNode.pathLength]
  rw [queuePotential, h, zero_add]

theorem sorted_leafQueue_aux (f : Int → HuffmanNode × Int) (keys : List Int)
    (q : PriorityQueue HuffmanNode) (h : (q.map Prod.snd).Sorted (· ≤ ·)) :
    ((keys.foldl (fun queue ch => PriorityQueue.enqueue queue (f ch).1 (f ch).2) q).map
      Prod.snd).Sorted (· ≤ ·) := by
  induction keys generalizing q with
  | nil => exact h
  | cons k rest ih =>
    rw [List.foldl_cons]
    apply ih
    rw [PriorityQueue.map_snd_enqueue]
    exact sorted_insertW _ _ h

theorem sorted_leafQueue (t : Map Int) : ((leafQueue t).map Prod.snd).Sorted (· ≤ ·) :=
  sorted_leafQueue_aux
    (fun ch => (HuffmanNode.mk ch (Map.get t ch) .null .null, Map.get t ch)) (Map.keys t) []
    (by simp)

theorem Map.map_get_keys (t : Map Int) (hwf : Map.WF t) :
    (Map.keys t).map (fun k => Map.get t k) = t.map Prod.snd := by
  simp only [Map.keys, List.map_map]
  apply List.map_congr_left
  intro e he
  exact Map.get_of_mem t hwf e.1 e.2 he

theorem leafQueue_weights (t : Map Int) (hwf : Map.WF t) :
    List.Perm ((leafQueue t).map Prod.snd) (t.map Prod.snd) := by
  refine ((leafQueue_perm t).map Prod.snd).trans ?_
  rw [List.map_map, ← Map.map_get_keys t hwf]
  exact List.Perm.refl _

/-- The tree `buildEncodingTree` returns for a bounded table, weighted by its
own leaf counts, has path length `hcost` of the ascending list of the table's
counts. -/
theorem buildEncodingTree_pathLength (t : Map Int) (hwf : Map.WF t) (h : 1 ≤ t.length)
    (hbound : Map.Bounded t) :
    ∃ root, buildEncodingTree t = .ok root ∧ root.Built ∧ List.Perm root.leaves t ∧
      root.pathLength 0 = hcost ((leafQueue t).map Prod.snd) := by
  obtain ⟨root, p, hm, hb⟩ := buildEncodingTree_eq t h
  have hinv := mergeSteps_invariant
    (fun q => (QueueInv t q ∧ ∀ e ∈ q, e.1.Exact) ∧
      queuePotential q = queuePotential (leafQueue t))
    (fun q q1 hq hstep =>
      ⟨⟨QueueInv_mergeStep t q q1 hq.1.1 hstep,
          QueueExact_mergeStep t hbound q q1 hq.1.1 hq.1.2 hstep⟩,
        (queuePotential_mergeStep t hbound q q1 hq.1.1 hq.1.2 hstep).trans hq.2⟩)
    _ _ _ ⟨⟨QueueInv_leafQueue t hwf, QueueExact_leafQueue t⟩, rfl⟩ hm
  refine ⟨root, hb, (hinv.1.1.1 (root, p) (by simp)).1, by simpa using hinv.1.1.2, ?_⟩
  rw [← queuePotential_singleton root p, hinv.2, queuePotential_leafQueue]

/-! ## Optimality: any full tree is an assignment of weights to depths -/

theorem HuffmanNode.depths_map_fst (t : HuffmanNode) (d : Nat) :
    (t.depths d).map Prod.fst = t.leaves.map Prod.fst := by
  induction t generalizing d with
  | null => rfl
  | mk c n z o ihz iho =>
    simp only [HuffmanNode.depths, HuffmanNode.leaves]
    split_ifs
    · rfl
    · simp [ihz, iho]

theorem HuffmanNode.depths_ge (t : HuffmanNode) (d : Nat) (e : Int × Nat)
    (h : e ∈ t.depths d) : d ≤ e.2 := by
  induction t generalizing d with
  | null => simp [HuffmanNode.depths] at h
  | mk c n z o ihz iho =>
    simp only [HuffmanNode.depths] at h
    split_ifs at h
    · simp only [List.mem_singleton] at h; subst h; exact le_refl _
    · rcases List.mem_append.1 h with h | h
      · have := ihz _ h; omega
      · have := iho _ h; omega

theorem HuffmanNode.Full.not_null {t : HuffmanNode} (h : t.Full) : t ≠ .null := by
  rintro rfl; exact h

theorem HuffmanNode.Full.depths_ne_nil {t : HuffmanNode} (h : t.Full) (d : Nat) :
    t.depths d ≠ [] := by
  induction t generalizing d with
  | null => exact absurd h (by simp [HuffmanNode.Full])
  | mk c n z o ihz iho =>
    rcases h with ⟨rfl, rfl⟩ | ⟨hz, ho⟩
    · simp [HuffmanNode.depths]
    · simp only [HuffmanNode.depths, hz.not_null, false_and, if_false]
      intro h0
      exact ihz hz _ (List.append_eq_nil.1 h0).1

theorem HuffmanNode.Full.kraftSum_depths {t : HuffmanNode} (h : t.Full) (d D : Nat)
    (hD : ∀ e ∈ t.depths d, e.2 ≤ D) :
    kraftSum D (((t.depths d).map Prod.snd : List Nat) : Multiset Nat) = 2 ^ (D - d) := by
  induction t generalizing d with
  | null => exact absurd h (by simp [HuffmanNode.Full])
  | mk c n z o ihz iho =>
    rcases h with ⟨rfl, rfl⟩ | ⟨hz, ho⟩
    · simp [HuffmanNode.depths, kraftSum]
    · have hdep : (HuffmanNode.mk c n z o).depths d = z.depths (d + 1) ++ o.depths (d + 1) := by
        simp [HuffmanNode.depths, hz.not_null]
      rw [hdep] at hD ⊢
      have h1 := ihz hz (d + 1) (fun e he => hD e (List.mem_append_left _ he))
      have h2 := iho ho (d + 1) (fun e he => hD e (List.mem_append_right _ he))
      have hlt : d + 1 ≤ D := by
        obtain ⟨e, he⟩ := List.exists_mem_of_ne_nil _ (hz.depths_ne_nil (d + 1))
        have := HuffmanNode.depths_ge z (d + 1) e he
        have := hD e (List.mem_append_left _ he)
        omega
      simp only [kraftSum, List.map_append, ← Multiset.coe_add, Multiset.map_add,
        Multiset.sum_add] at h1 h2 ⊢
      rw [h1, h2]
      have : D - d = (D - (d + 1)) + 1 := by omega
      rw [this, pow_succ]
      omega

theorem weightedPathLength_eq_mcost (t : Map Int) (tree : HuffmanNode) :
    weightedPathLength t tree = mcost (depthAssignment t tree) := by
  simp only [weightedPathLength, depthAssignment, mcost, Multiset.map_coe, Multiset.sum_coe,
    List.map_map]
  congr 1
  apply List.map_congr_left
  intro e _
  simp only [Function.comp_apply]
  ring

theorem pathLength_eq_weighted (t : Map Int) (tree : HuffmanNode) (d : Nat)
    (h : ∀ e ∈ tree.leaves, Map.get t e.1 = e.2) :
    ((tree.depths d).map (fun e => Map.get t e.1 * (e.2 : Int))).sum = tree.pathLength d := by
  induction tree generalizing d with
  | null => rfl
  | mk c n z o ihz iho =>
    simp only [HuffmanNode.depths, HuffmanNode.pathLength]
    simp only [HuffmanNode.leaves] at h
    split_ifs at h ⊢ with h0
    · have := h (c, n) (by simp)
      simp only at this
      simp [this]
    · rw [List.map_append, List.sum_append,
        ihz _ (fun e he => h e (List.mem_append_left _ he)),
        iho _ (fun e he => h e (List.mem_append_right _ he))]

/-- A full binary tree whose leaves are the symbols of the table assigns the
counts of the table to depths that satisfy Kraft's equality. -/
theorem depthAssignment_full (t : Map Int) (hwf : Map.WF t) (other : HuffmanNode)
    (hfull : other.Full) (hleaves : List.Perm (other.leaves.map Prod.fst) (Map.keys t)) :
    ∃ D, Kraft D ((depthAssignment t other).map Prod.fst) ∧
      (((leafQueue t).map Prod.snd : List Int) : Multiset Int)
        = (depthAssignment t other).map Prod.snd := by
  obtain ⟨D, hD⟩ : ∃ D, ∀ e ∈ other.depths 0, e.2 ≤ D := by
    refine ⟨((other.depths 0).map Prod.snd).sum, ?_⟩
    intro e he
    exact List.single_le_sum (fun _ _ => Nat.zero_le _) _ (List.mem_map_of_mem _ he)
  refine ⟨D, ?_, ?_⟩
  · simp only [depthAssignment, Multiset.map_coe, List.map_map]
    have hfst : (Prod.fst ∘ fun e : Int × Nat => (e.2, Map.get t e.1)) = Prod.snd := rfl
    rw [hfst]
    refine ⟨?_, ?_⟩
    · intro d hd
      simp only [Multiset.mem_coe, List.mem_map] at hd
      obtain ⟨e, he, rfl⟩ := hd
      exact hD e he
    · simpa using hfull.kraftSum_depths 0 D hD
  · simp only [depthAssignment, Multiset.map_coe, List.map_map]
    apply Multiset.coe_eq_coe.2
    refine (leafQueue_weights t hwf).trans ?_
    rw [← Map.map_get_keys t hwf]
    have h1 : (other.depths 0).map (Prod.snd ∘ fun e : Int × Nat => (e.2, Map.get t e.1))
        = ((other.depths 0).map Prod.fst).map (fun k => Map.get t k) := by
      rw [List.map_map]; rfl
    rw [h1, HuffmanNode.depths_map_fst]
    exact (hleaves.map _).symm

/-- Optimality in terms of depths: the tree `buildEncodingTree` returns for a
bounded table has a weighted path length no larger than that of any full binary tree whose leaves
are the symbols of the table. -/
theorem buildEncodingTree_optimal (t : Map Int) (hwf : Map.WF t) (h : 1 ≤ t.length)
    (hbound : Map.Bounded t) :
    ∃ tree, buildEncodingTree t = .ok tree ∧ tree.Built ∧ List.Perm tree.leaves t ∧
      weightedPathLength t tree = hcost ((leafQueue t).map Prod.snd) ∧
      ∀ other : HuffmanNode, other.Full →
        List.Perm (other.leaves.map Prod.fst) (Map.keys t) →
        weightedPathLength t tree ≤ weightedPathLength t other := by
  obtain ⟨tree, hb, hbuilt, hperm, hpl⟩ := buildEncodingTree_pathLength t hwf h hbound
  have hown : weightedPathLength t tree = tree.pathLength 0 :=
    pathLength_eq_weighted t tree 0
      (fun e he => Map.get_of_mem t hwf e.1 e.2 (hperm.mem_iff.1 he))
  refine ⟨tree, hb, hbuilt, hperm, hown.trans hpl, ?_⟩
  intro other hfull hleaves
  rw [hown, hpl, weightedPathLength_eq_mcost]
  obtain ⟨D, hk, hw⟩ := depthAssignment_full t hwf other hfull hleaves
  exact hcost_le_mcost D _ _ _ rfl hk (sorted_leafQueue t) hw

/-! ## Code lengths and depths -/

theorem HuffmanNode.Built.full {t : HuffmanNode} (h : t.Built) : t.Full := by
  induction t with
  | null => exact absurd h (by simp [HuffmanNode.Built])
  | mk c n z o ihz iho =>
    rcases h with h | ⟨_, _, hz, ho⟩
    · exact Or.inl h
    · exact Or.inr ⟨ihz hz, iho ho⟩

theorem HuffmanNode.mem_depths_of_codeList (t : HuffmanNode) (hb : t.Built) (k : Int)
    (p : Str) (d : Nat) (h : (k, p) ∈ t.codeList) : (k, p.length + d) ∈ t.depths d := by
  induction t generalizing p d with
  | null => simp [HuffmanNode.codeList] at h
  | mk c n z o ihz iho =>
    simp only [HuffmanNode.codeList] at h
    split_ifs at h with hc
    · simp only [List.mem_singleton, Prod.mk.injEq] at h
      obtain ⟨rfl, rfl⟩ := h
      rcases hb with ⟨rfl, rfl⟩ | ⟨hc', _⟩
      · simp [HuffmanNode.depths]
      · exact absurd hc' hc
    · rcases hb with ⟨rfl, rfl⟩ | ⟨_, _, hz, ho⟩
      · simp [HuffmanNode.codeList] at h
      · simp only [List.mem_append, List.mem_map, Prod.mk.injEq] at h
        simp only [HuffmanNode.depths, hz.ne_null, false_and, if_false, List.mem_append]
        rcases h with ⟨e, he, rfl, rfl⟩ | ⟨e, he, rfl, rfl⟩
        · left
          have := ihz hz e.2 (d + 1) he
          simpa [Nat.add_assoc, Nat.add_comm 1 d] using this
        · right
          have := iho ho e.2 (d + 1) he
          simpa [Nat.add_assoc, Nat.add_comm 1 d] using this

theorem HuffmanNode.codeList_depths (t : HuffmanNode) (hb : t.Built)
    (hv : ∀ e ∈ t.leaves, e.1 ≠ NOT_A_CHAR) (d : Nat) :
    t.codeList.map (fun e => (e.1, e.2.length + d)) = t.depths d := by
  induction t generalizing d with
  | null => rfl
  | mk c n z o ihz iho =>
    rcases hb with ⟨rfl, rfl⟩ | ⟨hc, _, hz, ho⟩
    · have : c ≠ NOT_A_CHAR := hv (c, n) (by simp [HuffmanNode.leaves])
      simp [HuffmanNode.codeList, HuffmanNode.depths, this]
    · have hl : (HuffmanNode.mk c n z o).leaves = z.leaves ++ o.leaves := by
        simp [HuffmanNode.leaves, hz.ne_null]
      rw [hl] at hv
      have h1 := ihz hz (fun e he => hv e (List.mem_append_left _ he)) (d + 1)
      have h2 := iho ho (fun e he => hv e (List.mem_append_right _ he)) (d + 1)
      simp only [HuffmanNode.codeList, hc, ne_eq, not_true_eq_false, if_false, List.map_append,
        List.map_map, HuffmanNode.depths, hz.ne_null, false_and, ← h1, ← h2]
      congr 1 <;>
      · apply List.map_congr_left
        intro e _
        simp only [Function.comp_apply, List.length_cons, Prod.mk.injEq, true_and]
        omega

/-- With no key `NOT_A_CHAR`, the sum of count times code length over the
symbols of the table is the weighted path length of the tree. -/
theorem encodedLength_eq (t : Map Int) (hwf : Map.WF t) (tree : HuffmanNode)
    (hbuilt : tree.Built) (hperm : List.Perm tree.leaves t)
    (hvalid : ∀ k ∈ Map.keys t, k ≠ NOT_A_CHAR) :
    encodedLength t (buildEncodingMap tree) = weightedPathLength t tree := by
  have hv : ∀ e ∈ tree.leaves, e.1 ≠ NOT_A_CHAR := fun e he =>
    hvalid e.1 (List.mem_map.2 ⟨e, hperm.mem_iff.1 he, rfl⟩)
  have hkeys := HuffmanNode.codeList_keys tree hbuilt hv
  have hnd : (tree.codeList.map Prod.fst).Nodup := by
    rw [hkeys]
    exact ((hperm.map Prod.fst).nodup_iff).2 hwf.nodup_keys
  have hget : ∀ e ∈ tree.codeList, Map.get (buildEncodingMap tree) e.1 = e.2 := by
    intro e he
    apply Map.get_of_find?
    rw [buildEncodingMap_eq]
    exact Map.find?_foldl_put_of_mem _ _ _ _ hnd he
  -- the right-hand side, as a sum over the recorded codes
  have h1 : weightedPathLength t tree
      = (tree.codeList.map
          (fun e => Map.get t e.1 * ((Map.get (buildEncodingMap tree) e.1).length : Int))).sum := by
    rw [weightedPathLength, ← HuffmanNode.codeList_depths tree hbuilt hv 0, List.map_map]
    congr 1
    apply List.map_congr_left
    intro e he
    simp only [Function.comp_apply, Nat.add_zero, hget e he]
  -- the left-hand side, as a sum over the keys
  have h2 : encodedLength t (buildEncodingMap tree)
      = ((Map.keys t).map
          (fun k => Map.get t k * ((Map.get (buildEncodingMap tree) k).length : Int))).sum := by
    simp only [encodedLength, Map.keys, List.map_map]
    congr 1
    apply List.map_congr_left
    intro e he
    simp only [Function.comp_apply, Map.get_of_mem t hwf e.1 e.2 he]
  rw [h1, h2]
  have h3 : tree.codeList.map
      (fun e => Map.get t e.1 * ((Map.get (buildEncodingMap tree) e.1).length : Int))
      = (tree.codeList.map Prod.fst).map
        (fun k => Map.get t k * ((Map.get (buildEncodingMap tree) k).length : Int)) := by
    rw [List.map_map]; rfl
  rw [h3, hkeys]
  exact (((hperm.map Prod.fst).map _).sum_eq).symm

/-! ## More frequent symbols have codes that are no longer -/

theorem code_length_le (t : Map Int) (hwf : Map.WF t) (hbound : Map.Bounded t)
    (a b ca cb : Int)
    (ha : Map.find? t a = some ca) (hb : Map.find? t b = some cb) (hlt : cb < ca)
    (hva : a ≠ NOT_A_CHAR) (hvb : b ≠ NOT_A_CHAR) :
    ∃ tree codeA codeB, buildEncodingTree t = .ok tree ∧
      Map.find? (buildEncodingMap tree) a = some codeA ∧
      Map.find? (buildEncodingMap tree) b = some codeB ∧
      codeA.length ≤ codeB.length := by
  have hka : a ∈ Map.keys t := (Map.find?_isSome_iff t a).1 (by simp [ha])
  have hkb : b ∈ Map.keys t := (Map.find?_isSome_iff t b).1 (by simp [hb])
  have hn : 1 ≤ t.length := by
    cases t with
    | nil => simp [Map.keys] at hka
    | cons e rest => simp
  obtain ⟨tree, hbt, hbuilt, hperm, hwpl, _⟩ := buildEncodingTree_optimal t hwf hn hbound
  obtain ⟨codeA, hcA⟩ := Option.isSome_iff_exists.1
    ((Map.find?_isSome_iff _ a).2 (mem_keys_buildEncodingMap t tree hbuilt hperm a hka hva))
  obtain ⟨codeB, hcB⟩ := Option.isSome_iff_exists.1
    ((Map.find?_isSome_iff _ b).2 (mem_keys_buildEncodingMap t tree hbuilt hperm b hkb hvb))
  refine ⟨tree, codeA, codeB, hbt, hcA, hcB, ?_⟩
  by_contra hcon
  have hlen : codeB.length < codeA.length := not_le.1 hcon
  obtain ⟨D, hk, hw⟩ := depthAssignment_full t hwf tree hbuilt.full (hperm.map Prod.fst)
  have hmA : (codeA.length, ca) ∈ depthAssignment t tree := by
    have := HuffmanNode.mem_depths_of_codeList tree hbuilt a codeA 0
      (find?_buildEncodingMap_mem tree a codeA hcA)
    simp only [depthAssignment, Multiset.mem_coe, List.mem_map]
    exact ⟨_, this, by simp [Map.get_of_find? t a ca ha]⟩
  have hmB : (codeB.length, cb) ∈ depthAssignment t tree := by
    have := HuffmanNode.mem_depths_of_codeList tree hbuilt b codeB 0
      (find?_buildEncodingMap_mem tree b codeB hcB)
    simp only [depthAssignment, Multiset.mem_coe, List.mem_map]
    exact ⟨_, this, by simp [Map.get_of_find? t b cb hb]⟩
  have hcost : mcost (depthAssignment t tree) = hcost ((leafQueue t).map Prod.snd) := by
    rw [← weightedPathLength_eq_mcost, hwpl]
  obtain ⟨s1, hs1⟩ := Multiset.exists_cons_of_mem hmA
  rw [hs1] at hmB
  have hmB' : (codeB.length, cb) ∈ s1 := by
    rcases Multiset.mem_cons.1 hmB with h | h
    · simp only [Prod.mk.injEq] at h
      omega
    · exact h
  obtain ⟨s0, hs0⟩ := Multiset.exists_cons_of_mem hmB'
  rw [hs0] at hs1
  rw [hs1] at hk hw hcost
  have hle := hcost_le_mcost D _ ((codeA.length, cb) ::ₘ (codeB.length, ca) ::ₘ s0)
    ((leafQueue t).map Prod.snd) rfl
    (by simpa using hk) (sorted_leafQueue t)
    (by
      rw [hw]
      simp only [Multiset.map_cons]
      exact Multiset.cons_swap _ _ _)
  rw [← hcost] at hle
  simp only [mcost_cons] at hle
  have h1 : (codeB.length : Int) < codeA.length := by exact_mod_cast hlen
  nlinarith [mul_pos (sub_pos.2 h1) (sub_pos.2 hlt)]

/-- C10, counterexample: in the table
`{97: 1073741825, 98: 536870912, 120: 1073741825, 121: 1073741824,
122: 1073741826}` every count fits in an `int`, but sums of counts wrap; the
symbol 97 has a larger count than 121 and yet a longer code (3 digits against
2). -/
theorem C10_overflow_counterexample :
    ∃ tree,
      buildEncodingTree
        [(97, 1073741825), (98, 536870912), (120, 1073741825), (121, 1073741824),
          (122, 1073741826)] = .ok tree ∧
      Map.find? ([(97, 1073741825), (98, 536870912), (120, 1073741825), (121, 1073741824),
          (122, 1073741826)] : Map Int) 97 = some 1073741825 ∧
      Map.find? ([(97, 1073741825), (98, 536870912), (120, 1073741825), (121, 1073741824),
          (122, 1073741826)] : Map Int) 121 = some 1073741824 ∧
      Map.find? (buildEncodingMap tree) 97 = some ['0', '0', '0'] ∧
      Map.find? (buildEncodingMap tree) 121 = some ['1', '1'] ∧
      ¬ (['0', '0', '0'] : Str).length ≤ (['1', '1'] : Str).length := by
  refine ⟨.mk 257 536870916
      (.mk 257 (-1073741820)
        (.mk 257 (-2147483646) (.mk 97 1073741825 .null .null) (.mk 120 1073741825 .null .null))
        (.mk 122 1073741826 .null .null))
      (.mk 257 1610612736 (.mk 98 536870912 .null .null) (.mk 121 1073741824 .null .null)),
    by decide, by decide, by decide, by decide, by decide, by decide⟩

/-- C10, amended: for a frequency table whose counts are not negative and
whose total fits in an `int` (at most `2^31 - 1`), and two symbols `a`, `b` of
it with `count a > count b`, the code of `a` in the encoding map of the tree
built from the table is no longer than the code of `b`. -/
theorem C10_frequent_symbol_shorter_code (t : Map Int) (hwf : Map.WF t)
    (hbound : Map.Bounded t) (a b ca cb : Int)
    (ha : Map.find? t a = some ca) (hb : Map.find? t b = some cb) (hlt : cb < ca)
    (hva : a ≠ NOT_A_CHAR) (hvb : b ≠ NOT_A_CHAR) :
    ∃ tree codeA codeB, buildEncodingTree t = .ok tree ∧
      Map.find? (buildEncodingMap tree) a = some codeA ∧
      Map.find? (buildEncodingMap tree) b = some codeB ∧
      codeA.length ≤ codeB.length :=
  code_length_le t hwf hbound a b ca cb ha hb hlt hva hvb

theorem C10_frequent_symbol_shorter_code_witness :
    ∃ tree codeA codeB, buildEncodingTree [(97, 100), (98, 1), (256, 1)] = .ok tree ∧
      Map.find? (buildEncodingMap tree) 97 = some codeA ∧
      Map.find? (buildEncodingMap tree) 98 = some codeB ∧
      codeA.length ≤ codeB.length :=
  C10_frequent_symbol_shorter_code [(97, 100), (98, 1), (256, 1)] (by decide) (by decide)
    97 98 100 1 (by decide) (by decide) (by decide) (by decide) (by decide)

/-! ## Trees with one-child nodes -/

theorem HuffmanNode.contract_ne_null (t : HuffmanNode) (h : t ≠ .null) :
    t.contract ≠ .null := by
  induction t with
  | null => exact absurd rfl h
  | mk c n z o ihz iho =>
    simp only [HuffmanNode.contract]
    split_ifs with hz ho ho
    · simp
    · exact iho ho
    · exact ihz hz
    · simp

theorem HuffmanNode.contract_full (t : HuffmanNode) (h : t ≠ .null) : t.contract.Full := by
  induction t with
  | null => exact absurd rfl h
  | mk c n z o ihz iho =>
    simp only [HuffmanNode.contract]
    split_ifs with hz ho ho
    · exact Or.inl ⟨rfl, rfl⟩
    · exact iho ho
    · exact ihz hz
    · exact Or.inr ⟨ihz hz, iho ho⟩

theorem HuffmanNode.leaves_contract (t : HuffmanNode) : t.contract.leaves = t.leaves := by
  induction t with
  | null => rfl
  | mk c n z o ihz iho =>
    simp only [HuffmanNode.contract]
    split_ifs with hz ho ho
    · subst hz; subst ho; rfl
    · subst hz
      rw [iho]
      simp [HuffmanNode.leaves, ho]
    · subst ho
      rw [ihz]
      simp [HuffmanNode.leaves, hz]
    · simp [HuffmanNode.leaves, hz, HuffmanNode.contract_ne_null z hz, ihz, iho]

/-- Removing the one-child nodes does not increase the weighted path length
when the weights are not negative. -/
theorem HuffmanNode.contract_cost_le (w : Int → Int) (t : HuffmanNode) (d d1 : Nat)
    (hd : d ≤ d1) (hw : ∀ e ∈ t.leaves, 0 ≤ w e.1) :
    ((t.contract.depths d).map (fun e => w e.1 * (e.2 : Int))).sum
      ≤ ((t.depths d1).map (fun e => w e.1 * (e.2 : Int))).sum := by
  induction t generalizing d d1 with
  | null => simp [HuffmanNode.contract, HuffmanNode.depths]
  | mk c n z o ihz iho =>
    simp only [HuffmanNode.contract]
    split_ifs with hz ho ho
    · subst hz; subst ho
      have h0 : 0 ≤ w c := hw (c, n) (by simp [HuffmanNode.leaves])
      simp only [HuffmanNode.depths, and_self, if_true, List.map_cons, List.map_nil,
        List.sum_cons, List.sum_nil, add_zero]
      have : (d : Int) ≤ d1 := by exact_mod_cast hd
      nlinarith
    · subst hz
      have hw' : ∀ e ∈ o.leaves, 0 ≤ w e.1 := by
        intro e he; apply hw; simp [HuffmanNode.leaves, ho, he]
      have := iho d (d1 + 1) (by omega) hw'
      simpa [HuffmanNode.depths, ho] using this
    · subst ho
      have hw' : ∀ e ∈ z.leaves, 0 ≤ w e.1 := by
        intro e he; apply hw; simp [HuffmanNode.leaves, hz, he]
      have := ihz d (d1 + 1) (by omega) hw'
      simpa [HuffmanNode.depths, hz] using this
    · have hwz : ∀ e ∈ z.leaves, 0 ≤ w e.1 := by
        intro e he; apply hw; simp [HuffmanNode.leaves, hz, he]
      have hwo : ∀ e ∈ o.leaves, 0 ≤ w e.1 := by
        intro e he; apply hw; simp [HuffmanNode.leaves, hz, he]
      have h1 := ihz (d + 1) (d1 + 1) (by omega) hwz
      have h2 := iho (d + 1) (d1 + 1) (by omega) hwo
      simp only [HuffmanNode.depths, hz, HuffmanNode.contract_ne_null z hz, false_and, if_false,
        List.map_append, List.sum_append]
      exact add_le_add h1 h2

/-- Optimality among all binary trees, one-child nodes allowed, for counts that
are not negative. -/
theorem buildEncodingTree_optimal_any (t : Map Int) (hwf : Map.WF t) (tree : HuffmanNode)
    (hopt : ∀ other : HuffmanNode, other.Full →
      List.Perm (other.leaves.map Prod.fst) (Map.keys t) →
      weightedPathLength t tree ≤ weightedPathLength t other)
    (hn : 1 ≤ t.length) (hpos : ∀ e ∈ t, 0 ≤ e.2) (other : HuffmanNode)
    (hleaves : List.Perm (other.leaves.map Prod.fst) (Map.keys t)) :
    weightedPathLength t tree ≤ weightedPathLength t other := by
  have hne : other ≠ .null := by
    rintro rfl
    have := hleaves.length_eq
    simp [HuffmanNode.leaves, Map.keys] at this
    omega
  refine le_trans (hopt other.contract (HuffmanNode.contract_full other hne)
    (by rw [HuffmanNode.leaves_contract]; exact hleaves)) ?_
  apply HuffmanNode.contract_cost_le (fun k => Map.get t k) other 0 0 (le_refl _)
  intro e he
  have hk : e.1 ∈ Map.keys t := hleaves.mem_iff.1 (List.mem_map_of_mem _ he)
  obtain ⟨e1, he1, he2⟩ := List.mem_map.1 hk
  rw [← he2, Map.get_of_mem t hwf e1.1 e1.2 he1]
  exact hpos e1 he1

/-- C3, counterexample: in the table
`{97: 2^30, 98: 2^30, 99: 2^31 - 1, 100: 2^31 - 1}` every count fits in an
`int`, but sums of counts wrap; the tree built has codes of lengths 3, 3, 2, 1
and weighted path length 12884901885, while the balanced tree over the same
four symbols has weighted path length 12884901884. -/
theorem C3_overflow_counterexample :
    ∃ tree other,
      buildEncodingTree
        [(97, 1073741824), (98, 1073741824), (99, 2147483647), (100, 2147483647)]
          = .ok tree ∧
      buildEncodingMap tree
        = [(97, ['0', '0', '0']), (98, ['0', '0', '1']), (99, ['0', '1']), (100, ['1'])] ∧
      encodedLength
        [(97, 1073741824), (98, 1073741824), (99, 2147483647), (100, 2147483647)]
        (buildEncodingMap tree) = 12884901885 ∧
      weightedPathLength
        [(97, 1073741824), (98, 1073741824), (99, 2147483647), (100, 2147483647)] tree
          = 12884901885 ∧
      other.Full ∧
      List.Perm (other.leaves.map Prod.fst)
        (Map.keys ([(97, 1073741824), (98, 1073741824), (99, 2147483647), (100, 2147483647)] :
          Map Int)) ∧
      weightedPathLength
        [(97, 1073741824), (98, 1073741824), (99, 2147483647), (100, 2147483647)] other
          = 12884901884 ∧
      ¬ weightedPathLength
          [(97, 1073741824), (98, 1073741824), (99, 2147483647), (100, 2147483647)] tree
        ≤ weightedPathLength
          [(97, 1073741824), (98, 1073741824), (99, 2147483647), (100, 2147483647)] other := by
  refine ⟨.mk 257 2147483646
      (.mk 257 (-1)
        (.mk 257 (-2147483648) (.mk 97 1073741824 .null .null) (.mk 98 1073741824 .null .null))
        (.mk 99 2147483647 .null .null))
      (.mk 100 2147483647 .null .null),
    .mk 257 0 (.mk 257 0 (.mk 97 0 .null .null) (.mk 98 0 .null .null))
      (.mk 257 0 (.mk 99 0 .null .null) (.mk 100 0 .null .null)),
    by decide, by decide, by decide, by decide, ?_, ?_, by decide, by decide⟩
  · simp [HuffmanNode.Full]
  · simp [HuffmanNode.leaves, Map.keys]

/-- C3, amended: for a table with at least one entry whose counts are not
negative and whose total fits in an `int` (at most `2^31 - 1`), the tree
`buildEncodingTree` returns minimises the weighted path length (the sum over
the leaves of the count of the leaf's symbol times the depth of the leaf): it
is no larger than that of any binary tree whose leaves are exactly the symbols
of the table.  When no key is `NOT_A_CHAR` the depth of a leaf is the length of
its symbol's code, so the weighted path length is the sum over the symbols of
count times code length. -/
theorem C3_buildEncodingTree_optimal (t : Map Int) (hwf : Map.WF t) (hn : 1 ≤ t.length)
    (hbound : Map.Bounded t) :
    ∃ tree, buildEncodingTree t = .ok tree ∧
      ((∀ k ∈ Map.keys t, k ≠ NOT_A_CHAR) →
        encodedLength t (buildEncodingMap tree) = weightedPathLength t tree) ∧
      (∀ other : HuffmanNode, other.Full →
        List.Perm (other.leaves.map Prod.fst) (Map.keys t) →
        weightedPathLength t tree ≤ weightedPathLength t other) ∧
      (∀ other : HuffmanNode,
        List.Perm (other.leaves.map Prod.fst) (Map.keys t) →
        weightedPathLength t tree ≤ weightedPathLength t other) := by
  obtain ⟨tree, hb, hbuilt, hperm, _, hopt⟩ := buildEncodingTree_optimal t hwf hn hbound
  exact ⟨tree, hb, encodedLength_eq t hwf tree hbuilt hperm, hopt,
    fun other hl => buildEncodingTree_optimal_any t hwf tree hopt hn hbound.1 other hl⟩

theorem C3_buildEncodingTree_optimal_witness :
    ∃ tree, buildEncodingTree [(97, 3), (98, 1), (256, 1)] = .ok tree ∧
      ((∀ k ∈ Map.keys ([(97, 3), (98, 1), (256, 1)] : Map Int), k ≠ NOT_A_CHAR) →
        encodedLength [(97, 3), (98, 1), (256, 1)] (buildEncodingMap tree)
          = weightedPathLength [(97, 3), (98, 1), (256, 1)] tree) ∧
      (∀ other : HuffmanNode, other.Full →
        List.Perm (other.leaves.map Prod.fst)
          (Map.keys ([(97, 3), (98, 1), (256, 1)] : Map Int)) →
        weightedPathLength [(97, 3), (98, 1), (256, 1)] tree
          ≤ weightedPathLength [(97, 3), (98, 1), (256, 1)] other) ∧
      (∀ other : HuffmanNode,
        List.Perm (other.leaves.map Prod.fst)
          (Map.keys ([(97, 3), (98, 1), (256, 1)] : Map Int)) →
        weightedPathLength [(97, 3), (98, 1), (256, 1)] tree
          ≤ weightedPathLength [(97, 3), (98, 1), (256, 1)] other) :=
  C3_buildEncodingTree_optimal [(97, 3), (98, 1), (256, 1)] (by decide) (by decide) (by decide)

/-! ## The empty input and the empty table -/

theorem decodeData_eof_leaf (n : Int) (P : List Bool) (fuel : Nat) :
    decodeData (fuel + 1) P (.mk PSEUDO_EOF n .null .null) = .ok [] := by
  rw [decodeData, decodeLoop]
  split_ifs with h
  · rfl
  · simp only [decodeDataRec, if_true]
    exact decodeLoop_nil _ _ _

/-- C11: the empty input.  The frequency table is `{PSEUDO_EOF: 1}`, the tree
is the single leaf holding `PSEUDO_EOF`, the encoding map is
`{PSEUDO_EOF: ""}`, `encodeData` writes no bits, and `decodeData` on the empty
bit sequence, or on any padding, returns the empty output: without a pass of
the loop on the empty sequence, after one pass (which clears the bit string at
the sentinel leaf) on padding. -/
theorem C11_empty_input :
    buildFrequencyTable [] = [(PSEUDO_EOF, 1)] ∧
    buildEncodingTree (buildFrequencyTable []) = .ok (.mk PSEUDO_EOF 1 .null .null) ∧
    buildEncodingMap (.mk PSEUDO_EOF 1 .null .null) = [(PSEUDO_EOF, [])] ∧
    encodeData [] (buildEncodingMap (.mk PSEUDO_EOF 1 .null .null)) = .ok [] ∧
    decodeData 0 [] (.mk PSEUDO_EOF 1 .null .null) = .ok [] ∧
    (∀ (P : List Bool) (output : List Byte),
      decodeDataRec (.mk PSEUDO_EOF 1 .null .null) output (readBits P) = .ok (output, [])) ∧
    (∀ (P : List Bool) (fuel : Nat),
      decodeData (fuel + 1) P (.mk PSEUDO_EOF 1 .null .null) = .ok []) := by
  refine ⟨by decide, by decide, by decide, by decide, by decide, ?_, ?_⟩
  · intro P output
    simp only [decodeDataRec, if_true]
  · intro P fuel
    exact decodeData_eof_leaf 1 P fuel

theorem buildEncodingTree_nil : buildEncodingTree [] = .fail .emptyQueue := by decide

theorem buildEncodingTree_ok_iff (t : Map Int) :
    (∃ tree, buildEncodingTree t = .ok tree) ↔ 1 ≤ t.length := by
  constructor
  · rintro ⟨tree, h⟩
    cases t with
    | nil => rw [buildEncodingTree_nil] at h; simp at h
    | cons e rest => simp
  · intro h
    obtain ⟨root, _, _, hb⟩ := buildEncodingTree_eq t h
    exact ⟨root, hb⟩

/-- C12: on the empty frequency table `buildEncodingTree` fails (its first
`dequeue` is on an empty queue, which the library reports as an error) and
returns no tree; it returns a tree exactly when the table has at least one
entry. -/
theorem C12_empty_table_fails :
    buildEncodingTree [] = .fail .emptyQueue ∧
    (∀ tree, buildEncodingTree [] ≠ .ok tree) ∧
    (∀ t : Map Int, (∃ tree, buildEncodingTree t = .ok tree) ↔ 1 ≤ t.length) := by
  refine ⟨buildEncodingTree_nil, ?_, buildEncodingTree_ok_iff⟩
  intro tree h
  rw [buildEncodingTree_nil] at h
  simp at h

/-! ## A symbol without a code -/

theorem Map.get_of_find?_none {V : Type} [Inhabited V] (m : Map V) (k : Int)
    (h : Map.find? m k = none) : Map.get m k = default := by
  simp [Map.get, h]

theorem isBinary_get (m : Map Str) (hbin : ∀ e ∈ m, IsBinary e.2) (k : Int) :
    IsBinary (Map.get m k) := by
  cases h : Map.find? m k with
  | none =>
    rw [Map.get_of_find?_none m k h]
    intro c hc
    exact absurd hc (List.not_mem_nil c)
  | some code =>
    rw [Map.get_of_find? m k code h]
    exact hbin (k, code) (Map.mem_of_find? m k code h)

/-- What `encodeData` writes for any map of binary codes: the lookup of a
symbol that is not a key gives the empty string. -/
theorem encodeData_any (input : List Byte) (encodingMap : Map Str)
    (hbin : ∀ e ∈ encodingMap, IsBinary e.2) :
    encodeData input encodingMap
      = .ok ((input.flatMap (fun b => Map.get encodingMap (getChar b))
          ++ Map.get encodingMap PSEUDO_EOF).map digitBit) := by
  have hb : IsBinary (input.flatMap (fun b => Map.get encodingMap (getChar b))
      ++ Map.get encodingMap PSEUDO_EOF) := by
    intro c hc
    rcases List.mem_append.1 hc with hc | hc
    · obtain ⟨b, _, hcb⟩ := List.mem_flatMap.1 hc
      exact isBinary_get encodingMap hbin _ c hcb
    · exact isBinary_get encodingMap hbin _ c hc
  rw [encodeData, encodingString_eq, writeDigits_binary _ _ hb]
  simp

/-- C13, counterexample: the input `[97, 98]` with the table
`{97: "1", PSEUDO_EOF: "0"}`, in which 98 has no code: `encodeData` raises no
error and writes the bits `1 0`. -/
theorem C13_missing_symbol_counterexample :
    Map.find? ([(97, ['1']), (256, ['0'])] : Map Str) 98 = none ∧
    encodeData [97, 98] [(97, ['1']), (256, ['0'])] = .ok [true, false] ∧
    ∀ e, encodeData [97, 98] [(97, ['1']), (256, ['0'])] ≠ .fail e := by
  refine ⟨by decide, by decide, ?_⟩
  intro e
  have h : encodeData [97, 98] [(97, ['1']), (256, ['0'])] = .ok [true, false] := by decide
  rw [h]
  simp

/-- C13, amended: with a map of binary codes, `encodeData` never fails, also
when the input contains symbols that are not keys of the map: it writes the
codes of the input's symbols in order, the code of a symbol that is not a key
being the empty string (no bit is written for it), then the code of the
sentinel. -/
theorem C13_missing_symbol_skipped (input : List Byte) (encodingMap : Map Str)
    (hbin : ∀ e ∈ encodingMap, IsBinary e.2) :
    encodeData input encodingMap
      = .ok ((input.flatMap (fun b => Map.get encodingMap (getChar b))
          ++ Map.get encodingMap PSEUDO_EOF).map digitBit) ∧
    (∀ k, Map.find? encodingMap k = none → Map.get encodingMap k = []) ∧
    (∀ k code, Map.find? encodingMap k = some code → Map.get encodingMap k = code) :=
  ⟨encodeData_any input encodingMap hbin,
    fun k h => Map.get_of_find?_none encodingMap k h,
    fun k code h => Map.get_of_find? encodingMap k code h⟩

set_option maxRecDepth 8000 in
theorem C13_missing_symbol_skipped_witness :
    encodeData [97, 98, 97] [(97, ['1']), (256, ['0'])]
      = .ok ((([97, 98, 97] : List Byte).flatMap
          (fun b => Map.get ([(97, ['1']), (256, ['0'])] : Map Str) (getChar b))
          ++ Map.get ([(97, ['1']), (256, ['0'])] : Map Str) PSEUDO_EOF).map digitBit) ∧
    (∀ k, Map.find? ([(97, ['1']), (256, ['0'])] : Map Str) k = none →
      Map.get ([(97, ['1']), (256, ['0'])] : Map Str) k = []) ∧
    (∀ k code, Map.find? ([(97, ['1']), (256, ['0'])] : Map Str) k = some code →
      Map.get ([(97, ['1']), (256, ['0'])] : Map Str) k = code) :=
  C13_missing_symbol_skipped [97, 98, 97] [(97, ['1']), (256, ['0'])] (by decide)

/-! ## The recursive walk on any tree -/

theorem stringToInteger_bitDigit (b : Bool) :
    stringToInteger [bitDigit b] = .ok (if b then 1 else 0) := by
  cases b
  · exact stringToInteger_zero
  · exact stringToInteger_one

/-- The walk never fails on a string of binary digits; it returns a suffix of
the string, strictly shorter when the walk starts at a node that carries the
marker and the string is not empty, and empty when it starts at a node that
carries the sentinel. -/
theorem decodeDataRec_bits (cur : HuffmanNode) (output : List Byte) (bits : List Bool) :
    ∃ output1 rest, decodeDataRec cur output (bits.map bitDigit)
        = .ok (output1, rest.map bitDigit) ∧
      rest.length ≤ bits.length ∧
      (∀ n z o, cur = .mk NOT_A_CHAR n z o → bits ≠ [] → rest.length < bits.length) ∧
      (∀ n z o, cur = .mk PSEUDO_EOF n z o → rest = []) := by
  induction cur generalizing bits with
  | null =>
    refine ⟨output, bits, rfl, le_refl _, ?_, ?_⟩ <;> intro n z o h <;> cases h
  | mk c n z o ihz iho =>
    by_cases hc : c = PSEUDO_EOF
    · refine ⟨output, [], by simp [decodeDataRec, hc], Nat.zero_le _, ?_, fun _ _ _ _ => rfl⟩
      intro n1 z1 o1 h
      simp only [HuffmanNode.mk.injEq] at h
      exact absurd (hc ▸ h.1) PSEUDO_EOF_ne_NOT_A_CHAR
    · by_cases hn : c = NOT_A_CHAR
      · subst hn
        cases bits with
        | nil =>
          refine ⟨output, [], by simp [decodeDataRec, hc], le_refl _, ?_, ?_⟩
          · intro _ _ _ _ h; exact absurd rfl h
          · intro n1 z1 o1 h
            simp only [HuffmanNode.mk.injEq] at h
            exact absurd h.1 hc
        | cons b rest =>
          have hwalk : decodeDataRec (.mk NOT_A_CHAR n z o) output ((b :: rest).map bitDigit)
              = decodeDataRec (if b then o else z) output (rest.map bitDigit) := by
            simp only [List.map_cons, decodeDataRec, if_neg hc, ne_eq, not_true_eq_false,
              if_false, stringToInteger_bitDigit]
            cases b <;> simp
          obtain ⟨output1, rest1, h1, h2, _, _⟩ : ∃ (output1 : List Byte) (rest1 : List Bool),
              decodeDataRec (if b then o else z) output (rest.map bitDigit)
                = .ok (output1, rest1.map bitDigit) ∧ rest1.length ≤ rest.length ∧ True ∧ True := by
            cases b
            · obtain ⟨a, r, h1, h2, _⟩ := ihz rest
              exact ⟨a, r, by simpa using h1, h2, trivial, trivial⟩
            · obtain ⟨a, r, h1, h2, _⟩ := iho rest
              exact ⟨a, r, by simpa using h1, h2, trivial, trivial⟩
          refine ⟨output1, rest1, hwalk.trans h1, ?_, ?_, ?_⟩
          · simp only [List.length_cons]; omega
          · intro _ _ _ _ _
            simp only [List.length_cons]; omega
          · intro n1 z1 o1 h
            simp only [HuffmanNode.mk.injEq] at h
            exact absurd h.1 hc
      · refine ⟨output ++ [putChar c], bits, by simp [decodeDataRec, hc, hn], le_refl _, ?_, ?_⟩
        · intro n1 z1 o1 h
          simp only [HuffmanNode.mk.injEq] at h
          exact absurd h.1 hn
        · intro n1 z1 o1 h
          simp only [HuffmanNode.mk.injEq] at h
          exact absurd h.1 hc

theorem map_bitDigit_eq_nil (bits : List Bool) : bits.map bitDigit = [] ↔ bits = [] := by
  cases bits <;> simp

/-- The decoding loop never raises an error. -/
theorem decodeLoop_ne_fail (fuel : Nat) (tree : HuffmanNode) (output : List Byte)
    (bits : List Bool) (e : Error) :
    decodeLoop fuel tree output (bits.map bitDigit) ≠ .fail e := by
  induction fuel generalizing output bits with
  | zero =>
    rw [decodeLoop]
    split_ifs <;> simp
  | succ fuel ih =>
    rw [decodeLoop]
    split_ifs with h
    · simp
    · obtain ⟨output1, rest, h1, _⟩ := decodeDataRec_bits tree output bits
      simp only [h1]
      exact ih output1 rest

theorem decodeData_ne_fail (fuel : Nat) (input : List Bool) (tree : HuffmanNode) (e : Error) :
    decodeData fuel input tree ≠ .fail e := by
  rw [decodeData, readBits_eq]
  exact decodeLoop_ne_fail fuel tree [] input e

/-- On a tree whose root carries the marker or the sentinel the loop ends
within as many passes as there are bits. -/
theorem decodeLoop_terminates (root : HuffmanNode)
    (hroot : ∃ n z o, root = .mk NOT_A_CHAR n z o ∨ root = .mk PSEUDO_EOF n z o) (k : Nat) :
    ∀ (bits : List Bool) (output : List Byte) (fuel : Nat), bits.length ≤ k →
      bits.length ≤ fuel → ∃ res, decodeLoop fuel root output (bits.map bitDigit) = .ok res := by
  induction k with
  | zero =>
    intro bits output fuel hk _
    have : bits = [] := List.length_eq_zero.1 (by omega)
    subst this
    exact ⟨output, decodeLoop_nil _ _ _⟩
  | succ k ih =>
    intro bits output fuel hk hf
    by_cases hb : bits = []
    · subst hb
      exact ⟨output, decodeLoop_nil _ _ _⟩
    · have hpos : 0 < bits.length := List.length_pos.2 hb
      match fuel, hf with
      | 0, hf => omega
      | fuel + 1, hf =>
        obtain ⟨output1, rest, h1, h2, h3, h4⟩ := decodeDataRec_bits root output bits
        have hlt : rest.length < bits.length := by
          obtain ⟨n, z, o, h | h⟩ := hroot
          · exact h3 n z o h hb
          · rw [h4 n z o h]; exact hpos
        obtain ⟨res, hres⟩ := ih rest output1 fuel (by omega) (by omega)
        refine ⟨res, ?_⟩
        rw [decodeLoop, if_neg (by rwa [map_bitDigit_eq_nil])]
        simp only [h1, hres]

theorem decodeData_terminates (root : HuffmanNode)
    (hroot : ∃ n z o, root = .mk NOT_A_CHAR n z o ∨ root = .mk PSEUDO_EOF n z o)
    (input : List Bool) (fuel : Nat) (hf : input.length ≤ fuel) :
    ∃ res, decodeData fuel input root = .ok res := by
  rw [decodeData, readBits_eq]
  exact decodeLoop_terminates root hroot input.length input [] fuel (le_refl _) hf

/-- C14, counterexample: on the tree of `{a:3, b:1, EOF:1}` the single bit 0
leads to an internal node, where the bits run out before any leaf is reached:
`decodeData` returns normally, with empty output, and raises no error. -/
theorem C14_truncated_stream_counterexample :
    decodeData 3 [false]
        (.mk 257 5 (.mk 257 2 (.mk 98 1 .null .null) (.mk 256 1 .null .null))
          (.mk 97 3 .null .null)) = .ok [] ∧
    ∀ e, decodeData 3 [false]
        (.mk 257 5 (.mk 257 2 (.mk 98 1 .null .null) (.mk 256 1 .null .null))
          (.mk 97 3 .null .null)) ≠ .fail e := by
  refine ⟨by decide, fun e => decodeData_ne_fail _ _ _ e⟩

theorem decodeLoop_of_walk_nil (fuel : Nat) (tree : HuffmanNode) (output output1 : List Byte)
    (bits : Str) (hbits : bits ≠ [])
    (h : decodeDataRec tree output bits = .ok (output1, [])) :
    decodeLoop (fuel + 1) tree output bits = .ok output1 := by
  rw [decodeLoop, if_neg hbits]
  simp only [h]
  exact decodeLoop_nil _ _ _

/-- C14, amended: `decodeData` raises no error, whatever the tree and the bits.
When the bits run out at an internal node the recursive walk returns with the
output unchanged and the bit string empty; a walk that returns the empty bit
string ends the loop, which returns the output produced so far; and on a tree
with an internal root every bit sequence, also one that ends before the
end-of-stream leaf is reached, makes `decodeData` return normally within as
many passes of its loop as there are bits. -/
theorem C14_truncated_stream_silent :
    (∀ (fuel : Nat) (input : List Bool) (tree : HuffmanNode) (e : Error),
      decodeData fuel input tree ≠ .fail e) ∧
    (∀ (n : Int) (zero one : HuffmanNode) (output : List Byte),
      decodeDataRec (.mk NOT_A_CHAR n zero one) output [] = .ok (output, [])) ∧
    (∀ (fuel : Nat) (tree : HuffmanNode) (output output1 : List Byte) (bits : Str),
      bits ≠ [] → decodeDataRec tree output bits = .ok (output1, []) →
        decodeLoop (fuel + 1) tree output bits = .ok output1) ∧
    (∀ (n : Int) (zero one : HuffmanNode) (input : List Bool) (fuel : Nat),
      input.length ≤ fuel →
        ∃ output, decodeData fuel input (.mk NOT_A_CHAR n zero one) = .ok output) := by
  refine ⟨decodeData_ne_fail, ?_, decodeLoop_of_walk_nil, ?_⟩
  · intro n zero one output
    simp [decodeDataRec, PSEUDO_EOF_ne_NOT_A_CHAR.symm]
  · intro n zero one input fuel hf
    exact decodeData_terminates _ ⟨n, zero, one, Or.inl rfl⟩ input fuel hf

/-! ## The root of the tree -/

theorem HuffmanNode.Built.root_cases {t : HuffmanNode} (h : t.Built) :
    (∃ c n, t = .mk c n .null .null ∧ t.leaves = [(c, n)]) ∨
      (∃ n z o, t = .mk NOT_A_CHAR n z o ∧ 2 ≤ t.leaves.length ∧ t.isInternal = true) := by
  match t, h with
  | .mk c n z o, h =>
    rcases h with ⟨rfl, rfl⟩ | ⟨rfl, _, hz, ho⟩
    · exact Or.inl ⟨c, n, rfl, by simp [HuffmanNode.leaves]⟩
    · right
      refine ⟨n, z, o, rfl, ?_, ?_⟩
      · have := hz.length_leaves_pos
        have := ho.length_leaves_pos
        simp only [HuffmanNode.leaves, hz.ne_null, false_and, if_false, List.length_append]
        omega
      · match z, o, hz, ho with
        | .mk _ _ _ _, .mk _ _ _ _, _, _ => rfl

theorem two_le_length_of_mem {α : Type} (l : List α) (a b : α) (ha : a ∈ l) (hb : b ∈ l)
    (hab : a ≠ b) : 2 ≤ l.length := by
  match l, ha, hb with
  | [x], ha, hb =>
    simp only [List.mem_singleton] at ha hb
    exact absurd (ha.trans hb.symm) hab
  | _ :: _ :: _, _, _ => simp

theorem length_buildFrequencyTable (S : List Byte) (hS : S ≠ []) :
    2 ≤ (buildFrequencyTable S).length := by
  obtain ⟨b, hb⟩ := List.exists_mem_of_ne_nil S hS
  have h1 := (mem_keys_buildFrequencyTable S PSEUDO_EOF).2 (Or.inl rfl)
  have h2 := (mem_keys_buildFrequencyTable S (getChar b)).2 (Or.inr ⟨b, hb, rfl⟩)
  have := two_le_length_of_mem _ _ _ h2 h1 (getChar_ne_PSEUDO_EOF b)
  simpa [Map.keys] using this

/-- The tree of the table of an input: a single leaf holding the sentinel for
the empty input, a tree with an internal root and at least two leaves for any
other input. -/
theorem buildEncodingTree_of_input (S : List Byte) :
    ∃ tree, buildEncodingTree (buildFrequencyTable S) = .ok tree ∧ tree.Built ∧
      List.Perm tree.leaves (buildFrequencyTable S) ∧
      ((S = [] ∧ tree = .mk PSEUDO_EOF 1 .null .null) ∨
        (S ≠ [] ∧ ∃ n z o, tree = .mk NOT_A_CHAR n z o ∧ 2 ≤ tree.leaves.length ∧
          tree.isInternal = true)) := by
  by_cases hS : S = []
  · subst hS
    refine ⟨.mk PSEUDO_EOF 1 .null .null, by decide, Or.inl ⟨rfl, rfl⟩, ?_, Or.inl ⟨rfl, rfl⟩⟩
    have h1 : (HuffmanNode.mk PSEUDO_EOF 1 .null .null).leaves = [(PSEUDO_EOF, 1)] := by
      simp [HuffmanNode.leaves]
    have h2 : buildFrequencyTable [] = [(PSEUDO_EOF, 1)] := by decide
    rw [h1, h2]
  · have h2 := length_buildFrequencyTable S hS
    obtain ⟨tree, hb, hbuilt, hperm, _⟩ := buildEncodingTree_built (buildFrequencyTable S)
      (WF_buildFrequencyTable S) (by omega)
    refine ⟨tree, hb, hbuilt, hperm, Or.inr ⟨hS, ?_⟩⟩
    rcases hbuilt.root_cases with ⟨c, n, _, hl⟩ | h
    · have := hperm.length_eq
      rw [hl] at this
      simp only [List.length_singleton] at this
      omega
    · exact h

/-- C17: for every input `S`, on the tree built from `buildFrequencyTable S`
every call of the recursive walk from the root on a non-empty string of bits
returns a strictly shorter string (possibly the empty one), and `decodeData`
returns on every finite bit sequence within as many passes of the wrapper's
loop as there are bits. -/
theorem C17_decoder_terminates (S : List Byte) :
    ∃ tree, buildEncodingTree (buildFrequencyTable S) = .ok tree ∧
      (∀ (bits : List Bool) (output : List Byte), bits ≠ [] →
        ∃ output1 rest, decodeDataRec tree output (readBits bits)
            = .ok (output1, readBits rest) ∧ rest.length < bits.length) ∧
      (∀ (input : List Bool) (fuel : Nat), input.length ≤ fuel →
        ∃ output, decodeData fuel input tree = .ok output) := by
  obtain ⟨tree, hb, _, _, hroot⟩ := buildEncodingTree_of_input S
  have hr : ∃ n z o, tree = .mk NOT_A_CHAR n z o ∨ tree = .mk PSEUDO_EOF n z o := by
    rcases hroot with ⟨_, h⟩ | ⟨_, n, z, o, h, _⟩
    · exact ⟨1, .null, .null, Or.inr h⟩
    · exact ⟨n, z, o, Or.inl h⟩
  refine ⟨tree, hb, ?_, fun input fuel hf => decodeData_terminates tree hr input fuel hf⟩
  intro bits output hbits
  obtain ⟨output1, rest, h1, _, h3, h4⟩ := decodeDataRec_bits tree output bits
  refine ⟨output1, rest, by rw [readBits_eq, readBits_eq]; exact h1, ?_⟩
  obtain ⟨n, z, o, h | h⟩ := hr
  · exact h3 n z o h hbits
  · rw [h4 n z o h]; exact List.length_pos.2 hbits

/-- C18, counterexample: for the empty input the tree built is a single leaf
(the sentinel's), so it has one leaf and its root is not an internal node. -/
theorem C18_single_leaf_counterexample :
    buildEncodingTree (buildFrequencyTable []) = .ok (.mk PSEUDO_EOF 1 .null .null) ∧
    (HuffmanNode.mk PSEUDO_EOF 1 .null .null).leaves.length = 1 ∧
    (HuffmanNode.mk PSEUDO_EOF 1 .null .null).isInternal = false ∧
    (HuffmanNode.mk PSEUDO_EOF 1 .null .null).isLeaf = true := by
  refine ⟨by decide, by decide, by decide, by decide⟩

/-- C18, amended: for every non-empty input `S` the tree built from
`buildFrequencyTable S` has at least two leaves and an internal node as root
(the sentinel is a second symbol next to the input's); for the empty input
the tree is the single leaf holding the sentinel. -/
theorem C18_two_leaves_nonempty (S : List Byte) (hS : S ≠ []) :
    (∃ tree, buildEncodingTree (buildFrequencyTable S) = .ok tree ∧
      2 ≤ tree.leaves.length ∧ tree.isInternal = true) ∧
    buildEncodingTree (buildFrequencyTable []) = .ok (.mk PSEUDO_EOF 1 .null .null) := by
  refine ⟨?_, by decide⟩
  obtain ⟨tree, hb, _, _, hroot⟩ := buildEncodingTree_of_input S
  rcases hroot with ⟨h, _⟩ | ⟨_, n, z, o, _, h2, h3⟩
  · exact absurd h hS
  · exact ⟨tree, hb, h2, h3⟩

set_option maxRecDepth 8000 in
theorem C18_two_leaves_nonempty_witness :
    (∃ tree, buildEncodingTree (buildFrequencyTable [97]) = .ok tree ∧
      2 ≤ tree.leaves.length ∧ tree.isInternal = true) ∧
    buildEncodingTree (buildFrequencyTable []) = .ok (.mk PSEUDO_EOF 1 .null .null) :=
  C18_two_leaves_nonempty [97] (by decide)

/-! ## A root that is a regular leaf -/

theorem decodeDataRec_regular_leaf (c n : Int) (hc : c ≠ PSEUDO_EOF) (hn : c ≠ NOT_A_CHAR)
    (output : List Byte) (bits : Str) :
    decodeDataRec (.mk c n .null .null) output bits = .ok (output ++ [putChar c], bits) := by
  simp [decodeDataRec, hc, hn]

/-- On a root that is a regular leaf the loop never ends when there is a bit
to decode: every pass emits the symbol and leaves the bits as they are. -/
theorem decodeLoop_regular_leaf_div (c n : Int) (hc : c ≠ PSEUDO_EOF) (hn : c ≠ NOT_A_CHAR)
    (bits : Str) (hbits : bits ≠ []) (fuel : Nat) (output : List Byte) :
    decodeLoop fuel (.mk c n .null .null) output bits = .div := by
  induction fuel generalizing output with
  | zero => rw [decodeLoop, if_neg hbits]
  | succ fuel ih =>
    rw [decodeLoop, if_neg hbits]
    simp only [decodeDataRec_regular_leaf c n hc hn]
    exact ih _

theorem buildEncodingTree_single (c n : Int) :
    buildEncodingTree [(c, n)] = .ok (.mk c n .null .null) := by
  simp [buildEncodingTree, leafQueue, Map.keys, Map.get, Map.find?, PriorityQueue.enqueue,
    buildEncodingTreeRec, PriorityQueue.size, PriorityQueue.dequeue]

/-- C19, counterexample: the table `{97: 1}` gives the tree that is the single
leaf of 97, and on the one-bit sequence `1` `decodeData` does not return,
whatever the number of passes of its loop allowed. -/
theorem C19_root_leaf_counterexample :
    buildEncodingTree [(97, 1)] = .ok (.mk 97 1 .null .null) ∧
    (∀ fuel, decodeData fuel [true] (.mk 97 1 .null .null) = .div) ∧
    ¬ ∃ fuel output, decodeData fuel [true] (.mk 97 1 .null .null) = .ok output := by
  have hdiv : ∀ fuel, decodeData fuel [true] (.mk 97 1 .null .null) = .div := by
    intro fuel
    rw [decodeData]
    exact decodeLoop_regular_leaf_div 97 1 (by decide) (by decide) _ (by decide) fuel []
  refine ⟨by decide, hdiv, ?_⟩
  rintro ⟨fuel, output, h⟩
  rw [hdiv fuel] at h
  simp at h

/-- C19, amended: a tree whose root is a leaf holding a regular symbol is what
`buildEncodingTree` returns for a table with that symbol as its only entry;
`decodeData` has no special case for it: a call of the recursive walk from the
root emits the leaf's symbol and consumes no bit (the symbol's code is the
empty string), and on the empty bit sequence `decodeData` returns the empty
output. -/
theorem C19_root_leaf_no_special_case (c n : Int) (hc : c ≠ PSEUDO_EOF)
    (hn : c ≠ NOT_A_CHAR) :
    buildEncodingTree [(c, n)] = .ok (.mk c n .null .null) ∧
    buildEncodingMap (.mk c n .null .null) = [(c, [])] ∧
    (∀ (output : List Byte) (bits : Str),
      decodeDataRec (.mk c n .null .null) output bits
        = .ok (output ++ [putChar c], bits)) ∧
    (∀ fuel, decodeData fuel [] (.mk c n .null .null) = .ok []) := by
  refine ⟨buildEncodingTree_single c n, ?_, decodeDataRec_regular_leaf c n hc hn, ?_⟩
  · simp [buildEncodingMap, buildEncodingMapRec, hn, Map.put]
  · intro fuel
    rw [decodeData]
    exact decodeLoop_nil _ _ _

theorem C19_root_leaf_no_special_case_witness :
    buildEncodingTree [(97, 5)] = .ok (.mk 97 5 .null .null) ∧
    buildEncodingMap (.mk 97 5 .null .null) = [(97, [])] ∧
    (∀ (output : List Byte) (bits : Str),
      decodeDataRec (.mk 97 5 .null .null) output bits
        = .ok (output ++ [putChar 97], bits)) ∧
    (∀ fuel, decodeData fuel [] (.mk 97 5 .null .null) = .ok []) :=
  C19_root_leaf_no_special_case 97 5 (by decide) (by decide)

/-! ## A partially consumed path -/

theorem decodeDataRec_partial_path (t : HuffmanNode) (c : Int) (code p : Str)
    (output : List Byte) (h : (c, code) ∈ t.codeList) (hp : p <+: code) (hne : p ≠ code) :
    decodeDataRec t output p = .ok (output, []) := by
  induction t generalizing code p with
  | null => simp [HuffmanNode.codeList] at h
  | mk c0 n z o ihz iho =>
    simp only [HuffmanNode.codeList] at h
    split_ifs at h with hc
    · simp only [List.mem_singleton, Prod.mk.injEq] at h
      obtain ⟨_, rfl⟩ := h
      exact absurd (List.prefix_nil.1 hp) hne
    · have hc0 : c0 = NOT_A_CHAR := not_not.1 hc
      subst hc0
      cases p with
      | nil => simp [decodeDataRec, PSEUDO_EOF_ne_NOT_A_CHAR.symm]
      | cons d p1 =>
        simp only [List.mem_append, List.mem_map, Prod.mk.injEq] at h
        rcases h with ⟨e, he, rfl, rfl⟩ | ⟨e, he, rfl, rfl⟩
        · obtain ⟨hd, hp1⟩ := List.cons_prefix_cons.1 hp
          subst hd
          simp only [decodeDataRec, stringToInteger_zero, if_true,
            if_neg PSEUDO_EOF_ne_NOT_A_CHAR.symm, ne_eq, not_true_eq_false, if_false]
          exact ihz e.2 p1 he hp1 (fun h0 => hne (by rw [h0]))
        · obtain ⟨hd, hp1⟩ := List.cons_prefix_cons.1 hp
          subst hd
          simp only [decodeDataRec, stringToInteger_one,
            if_neg PSEUDO_EOF_ne_NOT_A_CHAR.symm, ne_eq, not_true_eq_false, if_false,
            one_ne_zero]
          exact iho e.2 p1 he hp1 (fun h0 => hne (by rw [h0]))

theorem HuffmanNode.codeList_ne_nil_of_marker (n : Int) (z o : HuffmanNode) (e : Int × Str)
    (h : e ∈ (HuffmanNode.mk NOT_A_CHAR n z o).codeList) : e.2 ≠ [] := by
  simp only [HuffmanNode.codeList, ne_eq, not_true_eq_false, if_false, List.mem_append,
    List.mem_map] at h
  rcases h with ⟨a, _, rfl⟩ | ⟨a, _, rfl⟩ <;> simp

/-- The decoding loop on the paths of regular symbols followed by a proper
prefix of a path: the output is the list of the symbols. -/
theorem decodeLoop_partial (n : Int) (z o : HuffmanNode) (syms : List (Int × Str))
    (hs : ∀ e ∈ syms, e ∈ (HuffmanNode.mk NOT_A_CHAR n z o).codeList ∧ e.1 ≠ PSEUDO_EOF)
    (c : Int) (code p : Str) (hc : (c, code) ∈ (HuffmanNode.mk NOT_A_CHAR n z o).codeList)
    (hp : p <+: code) (hne : p ≠ code) (output : List Byte) (fuel : Nat)
    (hf : syms.length < fuel) :
    decodeLoop fuel (.mk NOT_A_CHAR n z o) output (syms.flatMap Prod.snd ++ p)
      = .ok (output ++ syms.map (fun e => putChar e.1)) := by
  induction syms generalizing output fuel with
  | nil =>
    match fuel, hf with
    | fuel + 1, _ =>
      simp only [List.flatMap_nil, List.nil_append, List.map_nil, List.append_nil]
      rw [decodeLoop]
      split_ifs with h0
      · rfl
      · simp only [decodeDataRec_partial_path _ c code p output hc hp hne]
        exact decodeLoop_nil _ _ _
  | cons e rest ih =>
    match fuel, hf with
    | fuel + 1, hf =>
      obtain ⟨s, q⟩ := e
      have hsq := hs (s, q) (List.mem_cons_self _ _)
      have hq : q ≠ [] := HuffmanNode.codeList_ne_nil_of_marker n z o (s, q) hsq.1
      have hne2 : q ++ (rest.flatMap Prod.snd ++ p) ≠ [] := by
        intro h0; exact hq (List.append_eq_nil.1 h0).1
      have hbits : ((s, q) :: rest).flatMap Prod.snd ++ p
          = q ++ (rest.flatMap Prod.snd ++ p) := by simp
      rw [hbits, decodeLoop, if_neg hne2]
      simp only [decodeDataRec_codeList _ s q output _ hsq.1, if_neg hsq.2]
      rw [ih (fun e he => hs e (List.mem_cons_of_mem _ he)) _ _
        (by simp only [List.length_cons] at hf; omega)]
      simp

theorem isBinary_of_isPrefix_code (p code : Str) (hp : p <+: code) (h : IsBinary code) :
    IsBinary p := fun c hc => h c (hp.subset hc)

theorem buildEncodingTree_built_of_ok (t : Map Int) (hwf : Map.WF t) (tree : HuffmanNode)
    (h : buildEncodingTree t = .ok tree) : tree.Built ∧ List.Perm tree.leaves t := by
  have hn : 1 ≤ t.length := (buildEncodingTree_ok_iff t).1 ⟨tree, h⟩
  obtain ⟨root, hb, hbuilt, hperm, _⟩ := buildEncodingTree_built t hwf hn
  rw [h] at hb
  injection hb with hb
  subst hb
  exact ⟨hbuilt, hperm⟩

/-- The decoder on the bits of the codes of regular symbols followed by a
proper prefix of a code. -/
theorem decodeData_partial (t : Map Int) (hwf : Map.WF t) (tree : HuffmanNode)
    (htree : buildEncodingTree t = .ok tree) (hroot : tree.isInternal = true)
    (syms : List Int)
    (hs : ∀ s ∈ syms, s ∈ Map.keys (buildEncodingMap tree) ∧ s ≠ PSEUDO_EOF)
    (q : Int) (hq : q ∈ Map.keys (buildEncodingMap tree)) (p : Str)
    (hp : p <+: Map.get (buildEncodingMap tree) q) (hne : p ≠ Map.get (buildEncodingMap tree) q)
    (fuel : Nat) (hf : syms.length < fuel) :
    decodeData fuel
      ((syms.flatMap (fun s => Map.get (buildEncodingMap tree) s) ++ p).map digitBit) tree
      = .ok (syms.map putChar) := by
  obtain ⟨hbuilt, _⟩ := buildEncodingTree_built_of_ok t hwf tree htree
  obtain ⟨n, z, o, rfl⟩ : ∃ n z o, tree = .mk NOT_A_CHAR n z o := by
    rcases hbuilt.root_cases with ⟨c, n, h, _⟩ | ⟨n, z, o, h, _⟩
    · rw [h] at hroot; simp [HuffmanNode.isInternal] at hroot
    · exact ⟨n, z, o, h⟩
  have hqc := mem_codeList_of_mem_keys _ q hq
  have hbin : IsBinary (syms.flatMap (fun s => Map.get (buildEncodingMap (.mk NOT_A_CHAR n z o)) s)
      ++ p) := by
    intro c hc
    rcases List.mem_append.1 hc with hc | hc
    · obtain ⟨s, hs1, hs2⟩ := List.mem_flatMap.1 hc
      exact HuffmanNode.isBinary_codeList _ _ (mem_codeList_of_mem_keys _ s (hs s hs1).1) c hs2
    · exact isBinary_of_isPrefix_code p _ hp (HuffmanNode.isBinary_codeList _ _ hqc) c hc
  rw [decodeData, readBits_eq, map_bitDigit_digitBit _ hbin]
  have := decodeLoop_partial n z o
    (syms.map (fun s => (s, Map.get (buildEncodingMap (.mk NOT_A_CHAR n z o)) s)))
    (by
      intro e hemem
      obtain ⟨s, hs1, rfl⟩ := List.mem_map.1 hemem
      exact ⟨mem_codeList_of_mem_keys _ s (hs s hs1).1, (hs s hs1).2⟩)
    q _ p hqc hp hne [] fuel (by simpa using hf)
  simpa [List.flatMap_def, List.map_map, Function.comp_def] using this

/-- C16: for a tree with an internal root built from a frequency table, regular
symbols `s1..sk` that have a code, and a proper prefix `p` of the code of some
symbol, `decodeData` on the bits of `code(s1) ++ ... ++ code(sk) ++ p` returns
without error and its output is exactly `s1..sk`: nothing is emitted for
`p`. -/
theorem C16_partial_path_silent (t : Map Int) (hwf : Map.WF t) (tree : HuffmanNode)
    (htree : buildEncodingTree t = .ok tree) (hroot : tree.isInternal = true)
    (syms : List Int)
    (hs : ∀ s ∈ syms, s ∈ Map.keys (buildEncodingMap tree) ∧ s ≠ PSEUDO_EOF)
    (q : Int) (hq : q ∈ Map.keys (buildEncodingMap tree)) (p : Str)
    (hp : p <+: Map.get (buildEncodingMap tree) q) (hne : p ≠ Map.get (buildEncodingMap tree) q)
    (fuel : Nat) (hf : syms.length < fuel) :
    decodeData fuel
      ((syms.flatMap (fun s => Map.get (buildEncodingMap tree) s) ++ p).map digitBit) tree
      = .ok (syms.map putChar) :=
  decodeData_partial t hwf tree htree hroot syms hs q hq p hp hne fuel hf

set_option maxRecDepth 8000 in
theorem C16_partial_path_silent_witness :
    decodeData 3
      ((([97, 97] : List Int).flatMap
        (fun s => Map.get (buildEncodingMap
          (.mk 257 5 (.mk 257 2 (.mk 98 1 .null .null) (.mk 256 1 .null .null))
            (.mk 97 3 .null .null))) s) ++ ['0']).map digitBit)
      (.mk 257 5 (.mk 257 2 (.mk 98 1 .null .null) (.mk 256 1 .null .null))
        (.mk 97 3 .null .null))
      = .ok (([97, 97] : List Int).map putChar) :=
  C16_partial_path_silent [(97, 3), (98, 1), (256, 1)] (by decide)
    (.mk 257 5 (.mk 257 2 (.mk 98 1 .null .null) (.mk 256 1 .null .null))
      (.mk 97 3 .null .null))
    (by decide) (by decide) [97, 97] (by decide) 98 (by decide) ['0'] (by decide) (by decide)
    3 (by decide)

/-! ## The source's decoder and the streaming state machine -/

theorem HuffmanNode.Coded.nonNull {t : HuffmanNode} (h : t.Coded) : t ≠ .null := by
  rintro rfl; exact h

theorem streamDecode_root_nil (n : Int) (z o : HuffmanNode) (hz : z ≠ .null) (f : Nat)
    (output : List Byte) :
    streamDecode (f + 1) (.mk NOT_A_CHAR n z o) (.mk NOT_A_CHAR n z o) [] output
      = .ok output := by
  simp [streamDecode, hz]

/-- One walk of the source's decoder from a node, against the steps of the
state machine from the same node up to its next visit of the root. -/
theorem stream_walk (n0 : Int) (z0 o0 : HuffmanNode) (hz0 : z0 ≠ .null)
    (cur : HuffmanNode) (hcur : cur.Coded) (bits : List Bool) (output : List Byte) :
    ∃ (output1 : List Byte) (rest : List Bool),
      decodeDataRec cur output (bits.map bitDigit) = .ok (output1, rest.map bitDigit) ∧
      rest.length ≤ bits.length ∧
      (∀ n z o, cur = .mk NOT_A_CHAR n z o → bits ≠ [] → rest.length < bits.length) ∧
      ∀ f, 1 ≤ f →
        streamDecode (f + (bits.length - rest.length) + 1) (.mk NOT_A_CHAR n0 z0 o0) cur bits
            output
          = streamDecode f (.mk NOT_A_CHAR n0 z0 o0) (.mk NOT_A_CHAR n0 z0 o0) rest output1 := by
  induction cur generalizing bits output with
  | null => exact absurd hcur (by simp [HuffmanNode.Coded])
  | mk c n z o ihz iho =>
    rcases hcur with ⟨hc, rfl, rfl⟩ | ⟨rfl, hz, ho⟩
    · by_cases he : c = PSEUDO_EOF
      · refine ⟨output, [], by simp [decodeDataRec, he], Nat.zero_le _, ?_, ?_⟩
        · intro n1 z1 o1 h
          simp only [HuffmanNode.mk.injEq] at h
          exact absurd h.1 hc
        · intro f hf
          obtain ⟨g, rfl⟩ : ∃ g, f = g + 1 := ⟨f - 1, by omega⟩
          rw [streamDecode_root_nil n0 z0 o0 hz0]
          simp [streamDecode, he]
      · refine ⟨output ++ [putChar c], bits, by simp [decodeDataRec, he, hc], le_refl _, ?_, ?_⟩
        · intro n1 z1 o1 h
          simp only [HuffmanNode.mk.injEq] at h
          exact absurd h.1 hc
        · intro f _
          simp [streamDecode, he]
    · cases bits with
      | nil =>
        refine ⟨output, [], by simp [decodeDataRec, PSEUDO_EOF_ne_NOT_A_CHAR.symm], le_refl _,
          ?_, ?_⟩
        · intro _ _ _ _ h; exact absurd rfl h
        · intro f hf
          obtain ⟨g, rfl⟩ : ∃ g, f = g + 1 := ⟨f - 1, by omega⟩
          rw [streamDecode_root_nil n0 z0 o0 hz0]
          simp [streamDecode, hz.nonNull]
      | cons b rest0 =>
        have hwalk : decodeDataRec (.mk NOT_A_CHAR n z o) output ((b :: rest0).map bitDigit)
            = decodeDataRec (if b then o else z) output (rest0.map bitDigit) := by
          simp only [List.map_cons, decodeDataRec, if_neg PSEUDO_EOF_ne_NOT_A_CHAR.symm, ne_eq,
            not_true_eq_false, if_false, stringToInteger_bitDigit]
          cases b <;> simp
        obtain ⟨output1, rest, h1, h2, _, h4⟩ : ∃ (output1 : List Byte) (rest : List Bool),
            decodeDataRec (if b then o else z) output (rest0.map bitDigit)
              = .ok (output1, rest.map bitDigit) ∧ rest.length ≤ rest0.length ∧ True ∧
            ∀ f, 1 ≤ f →
              streamDecode (f + (rest0.length - rest.length) + 1) (.mk NOT_A_CHAR n0 z0 o0)
                  (if b then o else z) rest0 output
                = streamDecode f (.mk NOT_A_CHAR n0 z0 o0) (.mk NOT_A_CHAR n0 z0 o0) rest
                  output1 := by
          cases b
          · obtain ⟨a, r, h1, h2, _, h4⟩ := ihz hz rest0 output
            exact ⟨a, r, by simpa using h1, h2, trivial, by simpa using h4⟩
          · obtain ⟨a, r, h1, h2, _, h4⟩ := iho ho rest0 output
            exact ⟨a, r, by simpa using h1, h2, trivial, by simpa using h4⟩
        refine ⟨output1, rest, hwalk.trans h1, ?_, ?_, ?_⟩
        · simp only [List.length_cons]; omega
        · intro _ _ _ _ _
          simp only [List.length_cons]; omega
        · intro f hf
          have hfuel : f + ((b :: rest0).length - rest.length) + 1
              = (f + (rest0.length - rest.length) + 1) + 1 := by
            simp only [List.length_cons]; omega
          rw [hfuel, ← h4 f hf]
          simp [streamDecode, hz.nonNull]

/-- The loop of the source's decoder and the state machine give the same
output. -/
theorem decodeLoop_eq_streamDecode (n0 : Int) (z0 o0 : HuffmanNode)
    (hroot : (HuffmanNode.mk NOT_A_CHAR n0 z0 o0).Coded) (k : Nat) :
    ∀ (bits : List Bool) (output : List Byte) (f1 f2 : Nat), bits.length ≤ k →
      bits.length ≤ f1 → 2 * bits.length + 1 ≤ f2 →
      ∃ res, decodeLoop f1 (.mk NOT_A_CHAR n0 z0 o0) output (bits.map bitDigit) = .ok res ∧
        streamDecode f2 (.mk NOT_A_CHAR n0 z0 o0) (.mk NOT_A_CHAR n0 z0 o0) bits output
          = .ok res := by
  have hz0 : z0 ≠ .null := by
    rcases hroot with ⟨h, _⟩ | ⟨_, hz, _⟩
    · exact absurd rfl h
    · exact hz.nonNull
  induction k with
  | zero =>
    intro bits output f1 f2 hk _ hf2
    have : bits = [] := List.length_eq_zero.1 (by omega)
    subst this
    obtain ⟨g, rfl⟩ : ∃ g, f2 = g + 1 := ⟨f2 - 1, by omega⟩
    exact ⟨output, decodeLoop_nil _ _ _, streamDecode_root_nil n0 z0 o0 hz0 g output⟩
  | succ k ih =>
    intro bits output f1 f2 hk hf1 hf2
    by_cases hb : bits = []
    · subst hb
      obtain ⟨g, rfl⟩ : ∃ g, f2 = g + 1 := ⟨f2 - 1, by omega⟩
      exact ⟨output, decodeLoop_nil _ _ _, streamDecode_root_nil n0 z0 o0 hz0 g output⟩
    · have hpos : 0 < bits.length := List.length_pos.2 hb
      obtain ⟨output1, rest, h1, h2, h3, h4⟩ :=
        stream_walk n0 z0 o0 hz0 _ hroot bits output
      have hlt : rest.length < bits.length := h3 n0 z0 o0 rfl hb
      obtain ⟨g1, rfl⟩ : ∃ g, f1 = g + 1 := ⟨f1 - 1, by omega⟩
      obtain ⟨g2, hg2⟩ : ∃ g, f2 = g + (bits.length - rest.length) + 1 :=
        ⟨f2 - (bits.length - rest.length) - 1, by omega⟩
      obtain ⟨res, hres1, hres2⟩ := ih rest output1 g1 g2 (by omega) (by omega) (by omega)
      refine ⟨res, ?_, ?_⟩
      · rw [decodeLoop, if_neg (by rwa [map_bitDigit_eq_nil])]
        simp only [h1, hres1]
      · rw [hg2, h4 g2 (by omega), hres2]

/-- The refinement, for a tree of the data model with an internal root. -/
theorem decodeData_eq_streamDecode (tree : HuffmanNode) (hcoded : tree.Coded)
    (hroot : tree.isInternal = true) (input : List Bool) (f1 f2 : Nat)
    (hf1 : input.length ≤ f1) (hf2 : 2 * input.length + 1 ≤ f2) :
    ∃ output, decodeData f1 input tree = .ok output ∧
      streamDecode f2 tree tree input [] = .ok output := by
  match tree, hcoded, hroot with
  | .mk c n z o, hcoded, hroot =>
    have hc : c = NOT_A_CHAR := by
      rcases hcoded with ⟨_, rfl, rfl⟩ | ⟨h, _⟩
      · simp [HuffmanNode.isInternal] at hroot
      · exact h
    subst hc
    rw [decodeData, readBits_eq]
    exact decodeLoop_eq_streamDecode n z o hcoded input.length input [] f1 f2 (le_refl _) hf1 hf2

/-- The trees the builder makes from a table without the key `NOT_A_CHAR` are
trees of the data model. -/
theorem HuffmanNode.Built.coded {t : HuffmanNode} (h : t.Built)
    (hv : ∀ e ∈ t.leaves, e.1 ≠ NOT_A_CHAR) : t.Coded := by
  induction t with
  | null => exact absurd h (by simp [HuffmanNode.Built])
  | mk c n z o ihz iho =>
    rcases h with ⟨rfl, rfl⟩ | ⟨hc, _, hz, ho⟩
    · exact Or.inl ⟨hv (c, n) (by simp [HuffmanNode.leaves]), rfl, rfl⟩
    · have hl : (HuffmanNode.mk c n z o).leaves = z.leaves ++ o.leaves := by
        simp [HuffmanNode.leaves, hz.ne_null]
      rw [hl] at hv
      exact Or.inr ⟨hc, ihz hz (fun e he => hv e (List.mem_append_left _ he)),
        iho ho (fun e he => hv e (List.mem_append_right _ he))⟩

/-- C15: for every tree of the data model (leaves hold symbols, internal nodes
hold the marker and have two children) whose root is an internal node, and
every finite bit sequence, the source's decoder (all bits read into a string,
then the recursive walk called from the root on the shrinking string until it
is empty) and the single-pass streaming state machine of §4.5 both return, and
return the same output; as many loop passes as there are bits suffice for the
source's decoder, twice as many steps plus one for the state machine. -/
theorem C15_decoder_refines_state_machine (tree : HuffmanNode) (hcoded : tree.Coded)
    (hroot : tree.isInternal = true) (input : List Bool) (f1 f2 : Nat)
    (hf1 : input.length ≤ f1) (hf2 : 2 * input.length + 1 ≤ f2) :
    ∃ output, decodeData f1 input tree = .ok output ∧
      streamDecode f2 tree tree input [] = .ok output :=
  decodeData_eq_streamDecode tree hcoded hroot input f1 f2 hf1 hf2

theorem C15_decoder_refines_state_machine_witness :
    ∃ output,
      decodeData 9 [true, true, true, false, false, false, true, false, false]
        (.mk 257 5 (.mk 257 2 (.mk 98 1 .null .null) (.mk 256 1 .null .null))
          (.mk 97 3 .null .null)) = .ok output ∧
      streamDecode 19
        (.mk 257 5 (.mk 257 2 (.mk 98 1 .null .null) (.mk 256 1 .null .null))
          (.mk 97 3 .null .null))
        (.mk 257 5 (.mk 257 2 (.mk 98 1 .null .null) (.mk 256 1 .null .null))
          (.mk 97 3 .null .null))
        [true, true, true, false, false, false, true, false, false] [] = .ok output :=
  C15_decoder_refines_state_machine
    (.mk 257 5 (.mk 257 2 (.mk 98 1 .null .null) (.mk 256 1 .null .null))
      (.mk 97 3 .null .null))
    (by simp [HuffmanNode.Coded, NOT_A_CHAR]) (by decide)
    [true, true, true, false, false, false, true, false, false] 9 19 (by decide) (by decide)

/-! ## The number of bits written -/

theorem Map.find?_eq_none_of_lt {V : Type} (m : Map V) (key : Int)
    (h : ∀ k ∈ Map.keys m, key < k) : Map.find? m key = none := by
  rw [Map.find?_eq_none_iff]
  intro hk
  exact absurd (h key hk) (lt_irrefl _)

theorem Map.weightedSum_put (m : Map Int) (hwf : Map.WF m) (key value : Int) (f : Int → Int) :
    Map.weightedSum (Map.put m key value) f
      = Map.weightedSum m f + (value - Map.get m key) * f key := by
  induction m with
  | nil =>
    simp only [Map.put, Map.weightedSum, Map.get, Map.find?, List.map_cons, List.map_nil,
      List.sum_cons, List.sum_nil, Option.getD_none]
    have : (default : Int) = 0 := rfl
    rw [this]; ring
  | cons e rest ih =>
    obtain ⟨k0, v0⟩ := e
    have hwf' := hwf
    simp only [Map.WF, Map.keys, List.map_cons, List.pairwise_cons] at hwf'
    simp only [Map.put]
    split_ifs with h1 h2
    · have hnone : Map.find? ((k0, v0) :: rest) key = none := by
        apply Map.find?_eq_none_of_lt
        intro k hk
        simp only [Map.keys, List.map_cons, List.mem_cons] at hk
        rcases hk with rfl | hk
        · exact h1
        · exact lt_trans h1 (hwf'.1 k hk)
      have hget : Map.get ((k0, v0) :: rest) key = 0 := by
        simp only [Map.get, hnone, Option.getD_none]; rfl
      rw [hget]
      simp only [Map.weightedSum, List.map_cons, List.sum_cons]
      ring
    · subst h2
      have hget : Map.get ((key, v0) :: rest) key = v0 := by
        simp [Map.get, Map.find?]
      rw [hget]
      simp only [Map.weightedSum, List.map_cons, List.sum_cons]
      ring
    · have hget : Map.get ((k0, v0) :: rest) key = Map.get rest key := by
        simp only [Map.get, Map.find?, if_neg (Ne.symm h2)]
      rw [hget]
      have := ih hwf'.2
      simp only [Map.weightedSum, List.map_cons, List.sum_cons] at this ⊢
      rw [this]; ring

theorem weightedSum_countLoop (S : List Byte) (t : Map Int) (hwf : Map.WF t) (f : Int → Int) :
    Map.weightedSum
      (S.foldl (fun t b => Map.put t (getChar b) (Map.get t (getChar b) + 1)) t) f
      = Map.weightedSum t f + (S.map (fun b => f (getChar b))).sum := by
  induction S generalizing t with
  | nil => simp
  | cons b rest ih =>
    rw [List.foldl_cons, ih _ (Map.WF_put _ _ _ hwf), Map.weightedSum_put t hwf]
    simp only [List.map_cons, List.sum_cons]
    ring

/-- The sum of count times `f` over the table of an input is the sum of `f`
over the input's bytes, plus `f` of the sentinel. -/
theorem weightedSum_buildFrequencyTable (S : List Byte) (f : Int → Int) :
    Map.weightedSum (buildFrequencyTable S) f
      = (S.map (fun b => f (getChar b))).sum + f PSEUDO_EOF := by
  have hwf := WF_countLoop S [] (by simp [Map.WF, Map.keys])
  simp only [buildFrequencyTable]
  rw [Map.weightedSum_put _ hwf, weightedSum_countLoop S [] (by simp [Map.WF, Map.keys])]
  simp only [Map.weightedSum, List.map_nil, List.sum_nil]
  ring

theorem length_flatMap_sum {α : Type} (l : List α) (g : α → Str) :
    ((l.flatMap g).length : Int) = (l.map (fun a => ((g a).length : Int))).sum := by
  induction l with
  | nil => simp
  | cons a rest ih =>
    simp only [List.flatMap_cons, List.length_append, List.map_cons, List.sum_cons]
    push_cast
    rw [ih]

theorem isBinary_buildEncodingMap (tree : HuffmanNode) :
    ∀ e ∈ buildEncodingMap tree, IsBinary e.2 := by
  intro e he
  have hwf : Map.WF (buildEncodingMap tree) := by
    rw [buildEncodingMap_eq]
    exact Map.WF_foldl_put _ _ (by simp [Map.WF, Map.keys])
  have h := Map.find?_of_mem (buildEncodingMap tree) e.1 e.2 hwf he
  exact HuffmanNode.isBinary_codeList tree _ (find?_buildEncodingMap_mem tree e.1 e.2 h)

/-- The number of bits `encodeData` writes for an input, with the encoding map
of the tree of the input's table. -/
theorem encodeData_length (S : List Byte) :
    ∃ tree bits, buildEncodingTree (buildFrequencyTable S) = .ok tree ∧
      encodeData S (buildEncodingMap tree) = .ok bits ∧
      (bits.length : Int) = encodedLength (buildFrequencyTable S) (buildEncodingMap tree) ∧
      encodedLength (buildFrequencyTable S) (buildEncodingMap tree)
        = weightedPathLength (buildFrequencyTable S) tree := by
  obtain ⟨tree, hb, hbuilt, hperm, _⟩ := buildEncodingTree_of_input S
  have henc := encodeData_any S (buildEncodingMap tree) (isBinary_buildEncodingMap tree)
  refine ⟨tree, _, hb, henc, ?_, ?_⟩
  · have h := weightedSum_buildFrequencyTable S
      (fun k => ((Map.get (buildEncodingMap tree) k).length : Int))
    have h2 : encodedLength (buildFrequencyTable S) (buildEncodingMap tree)
        = Map.weightedSum (buildFrequencyTable S)
          (fun k => ((Map.get (buildEncodingMap tree) k).length : Int)) := rfl
    rw [h2, h, List.length_map, List.length_append]
    push_cast
    rw [length_flatMap_sum]
  · apply encodedLength_eq _ (WF_buildFrequencyTable S) tree hbuilt hperm
    intro k hk
    rcases (mem_keys_buildFrequencyTable S k).1 hk with rfl | ⟨b, _, rfl⟩
    · exact PSEUDO_EOF_ne_NOT_A_CHAR
    · exact getChar_ne_NOT_A_CHAR b

/-- C20: for every input `S`, with `T = buildFrequencyTable S`, the tree built
from `T` and its encoding map, the number of bits `encodeData` writes is the
sum over the symbols `s` of `T` (the sentinel included, with count 1) of
`T(s)` times the length of the code of `s`, which is the weighted path length
of the tree. -/
theorem C20_encoded_length (S : List Byte) :
    ∃ tree bits, buildEncodingTree (buildFrequencyTable S) = .ok tree ∧
      encodeData S (buildEncodingMap tree) = .ok bits ∧
      (bits.length : Int) = encodedLength (buildFrequencyTable S) (buildEncodingMap tree) ∧
      encodedLength (buildFrequencyTable S) (buildEncodingMap tree)
        = weightedPathLength (buildFrequencyTable S) tree :=
  encodeData_length S

end Huffman
